import Mathlib

/-!
# A shallow embedding of `lispc.cpp`

The interpreter keeps every value in one machine word whose two low bits are a
tag.  The development has two layers:

* `Lispc.Word` works on the raw 64-bit word (a `Nat` below `2^64`) and embeds the
  bit-level functions `is_number`, `int2value`, `value2int` literally;
* `Lispc.Value` is the tree a word denotes once pair pointers are followed: a
  pair carries its two fields, a number carries the decoded payload
  (`value2int` of its word), a symbol carries its index in the symbol table and
  a function carries the primitive its record points to.

Global state (`symbol_table`, `env`) is passed explicitly.  Texts are lists of
characters; the cursor `offset` of the reader is represented by the part of the
buffer that is still unread.
-/

namespace Lispc

/-! ## Word level -/

namespace Word

def PAIR_TAG : Nat := 0
def NUMBER_TAG : Nat := 1
def SYMBOL_TAG : Nat := 2
def FN_TAG : Nat := 3

/-- Conversion of a signed 64-bit integer to the unsigned word type `uintptr_t`. -/
def toWord (n : Int) : Nat := (n % 2 ^ 64).toNat

/-- Conversion of a word to `int64_t` (two's complement). -/
def toSigned (w : Nat) : Int :=
  if w % 2 ^ 64 < 2 ^ 63 then ((w % 2 ^ 64 : Nat) : Int) else ((w % 2 ^ 64 : Nat) : Int) - 2 ^ 64

/-- Source: `(v & 3) == NUMBER_TAG`. -/
def is_number (v : Nat) : Bool := (v &&& 3) == NUMBER_TAG

/-- Source: `(v & 3) == SYMBOL_TAG`. -/
def is_symbol (v : Nat) : Bool := (v &&& 3) == SYMBOL_TAG

/-- Source: `(v & 3) == PAIR_TAG`. -/
def is_pair (v : Nat) : Bool := (v &&& 3) == PAIR_TAG

/-- Source: `(v & 3) == FN_TAG`. -/
def is_fn (v : Nat) : Bool := (v &&& 3) == FN_TAG

/-- Source: `return (n << 2) | NUMBER_TAG;` on an `int64_t` argument; the shift
wraps at 64 bits. -/
def int2value (n : Int) : Nat := toWord (n * 2 ^ 2) ||| NUMBER_TAG

/-- Source: `int64_t signd = n; return (signd >> 2);`, the shift being the
arithmetic (sign-preserving) one. -/
def value2int (n : Nat) : Int := toSigned n >>> (2 : Nat)

end Word

/-! ## Values as trees -/

/-- The four primitives a function record can point to (`fn_ptr`). -/
inductive Prim where
  | plus
  | minus
  | mul
  | div
  deriving DecidableEq, Repr

/-- What a tagged word denotes. -/
inductive Value where
  | pair (car cdr : Value)
  | number (n : Int)
  | symbol (index : Nat)
  | fn (f : Prim)
  deriving DecidableEq, Repr

abbrev Str := List Char

/-- The exceptions the program can raise, and the three places where the source
has undefined behaviour (`car`/`cdr` of a non-pair, `symbol_table[i]` out of
range, the `int` division of `-2^31` by `-1` in `div`), which the embedding
turns into errors of their own: none of them is a value the program returns. -/
inductive Err where
  | runtime_error (what : Str)
  | out_of_range
  | not_a_pair
  | bad_symbol_index
  | int_overflow
  deriving DecidableEq, Repr

deriving instance DecidableEq for Except

def is_number : Value → Bool
  | .number _ => true
  | _ => false

def is_symbol : Value → Bool
  | .symbol _ => true
  | _ => false

def is_pair : Value → Bool
  | .pair _ _ => true
  | _ => false

def is_fn : Value → Bool
  | .fn _ => true
  | _ => false

/-- The value whose word is `Word.int2value n`: its payload is what decoding
that word gives back. -/
def int2value (n : Int) : Value := .number (Word.value2int (Word.int2value n))

/-- Payload of a number; the source calls it on numbers only. -/
def value2int : Value → Int
  | .number n => n
  | _ => 0

/-! ## Symbol table -/

abbrev SymTab := List Str

/-- Position of the first occurrence of `name`, or the length of the table
(`std::find` followed by `itr - begin()`). -/
def find_index (name : Str) : SymTab → Nat
  | [] => 0
  | s :: rest => if s = name then 0 else find_index name rest + 1

/-- Source: `get_symbol`.  Returns the symbol and the table after the call. -/
def get_symbol (name : Str) (symbol_table : SymTab) : Value × SymTab :=
  let index := find_index name symbol_table
  if index < symbol_table.length then
    (.symbol index, symbol_table)
  else
    (.symbol symbol_table.length, symbol_table ++ [name])

/-- Source: `get_symbol_name`, `symbol_table[symbol >> 2]`. -/
def get_symbol_name (symbol_table : SymTab) : Value → Except Err Str
  | .symbol index =>
    match symbol_table.get? index with
    | some name => .ok name
    | none => .error .bad_symbol_index
  | _ => .error .bad_symbol_index

/-- The table after the static initialisers `nil`, `sym_if`, `sym_define`. -/
def static_table : SymTab :=
  (get_symbol "define".toList (get_symbol "if".toList (get_symbol "nil".toList []).2).2).2

/-- Source: `const value nil = get_symbol("nil");` on the empty table. -/
def nil : Value := (get_symbol "nil".toList []).1

def sym_if : Value := (get_symbol "if".toList (get_symbol "nil".toList []).2).1

def sym_define : Value :=
  (get_symbol "define".toList (get_symbol "if".toList (get_symbol "nil".toList []).2).2).1

/-! ## Pairs and lists -/

/-- Source: `build_list`; the vector is walked from its last element to its
first, consing each onto `list`. -/
def build_list (contents : List Value) (end_ : Value) : Value :=
  contents.foldr Value.pair end_

/-- Source: `car`.  Reading a non-pair is undefined in the source. -/
def car : Value → Except Err Value
  | .pair a _ => .ok a
  | _ => .error .not_a_pair

/-- Source: `cdr`.  Reading a non-pair is undefined in the source. -/
def cdr : Value → Except Err Value
  | .pair _ d => .ok d
  | _ => .error .not_a_pair

/-- The `while(1)` loop of `list_length`, `out` being the running count. -/
def list_length_loop (out : Int) (v : Value) : Int :=
  if v = nil then out
  else
    match v with
    | .pair _ d => list_length_loop (out + 1) d
    | _ => -1

/-- Source: `list_length`. -/
def list_length (v : Value) : Int := list_length_loop 0 v

/-- Source: `nth`: `n` times `cdr`, then `car`. -/
def nth : Value → Nat → Except Err Value
  | v, 0 => car v
  | v, n + 1 =>
    match cdr v with
    | .error e => .error e
    | .ok d => nth d n

/-! ## Printing -/

/-- The character of a decimal digit. -/
def digit_char (d : Nat) : Char := Char.ofNat (48 + d)

/-- Decimal digits of `n`, most significant first, pushed in front of `acc`. -/
def digits_loop : Nat → Nat → Str → Str
  | 0, _, acc => acc
  | fuel + 1, n, acc =>
    if n < 10 then digit_char n :: acc
    else digits_loop fuel (n / 10) (digit_char (n % 10) :: acc)

/-- The library function `std::to_string` on a signed integer. -/
def to_string (n : Int) : Str :=
  if n < 0 then '-' :: digits_loop (n.natAbs + 1) n.natAbs []
  else digits_loop (n.toNat + 1) n.toNat []

mutual
/-- Source: `value2string`. -/
def value2string (symbol_table : SymTab) : Value → Except Err Str
  | .number n => .ok (to_string n)
  | .symbol index => get_symbol_name symbol_table (.symbol index)
  | .pair a d =>
    match value2string symbol_table a with
    | .error e => .error e
    | .ok s =>
      match value2string_rest symbol_table d with
      | .error e => .error e
      | .ok r => .ok ('(' :: s ++ r ++ [')'])
  | .fn _ => .ok "<fn>".toList
/-- The `while(true)` loop inside `value2string`, started at `vcdr = cdr(v)`:
everything printed between the first element and the closing parenthesis. -/
def value2string_rest (symbol_table : SymTab) : Value → Except Err Str
  | .pair a d =>
    match value2string symbol_table a with
    | .error e => .error e
    | .ok s =>
      match value2string_rest symbol_table d with
      | .error e => .error e
      | .ok r => .ok (' ' :: s ++ r)
  | .number n => .ok (" . ".toList ++ to_string n)
  | .symbol index =>
    if Value.symbol index = nil then .ok []
    else
      match get_symbol_name symbol_table (.symbol index) with
      | .error e => .error e
      | .ok s => .ok (" . ".toList ++ s)
  | .fn _ => .ok (" . ".toList ++ "<fn>".toList)
end

/-! ## Reader -/

/-- The library function `std::isspace` in the "C" locale. -/
def isspace (c : Char) : Bool :=
  c = ' ' || c = '\t' || c = '\n' || c = '\x0b' || c = '\x0c' || c = '\r'

/-- The library function `std::isdigit`. -/
def isdigit (c : Char) : Bool := '0' ≤ c && c ≤ '9'

/-- Source: `skip_space`; returns the unread part of the buffer. -/
def skip_space : Str → Str
  | [] => []
  | c :: cs => if isspace c then skip_space cs else c :: cs

/-- Source: `next_char`; returns the character under the cursor and the
characters after it (the cursor itself stays on the character). -/
def next_char (input : Str) : Except Err (Char × Str) :=
  match skip_space input with
  | [] => .error (.runtime_error "unexpected end of input!".toList)
  | c :: cs => .ok (c, cs)

/-- Source: `is_special`. -/
def is_special (c : Char) : Bool := c = '(' || c = ')' || isspace c

/-- The token loop of the atom branch of `parse_expression`: returns the
token, the flag `saw_non_digit` and the unread part of the buffer. -/
def scan_atom (saw_non_digit : Bool) : Str → Str × Bool × Str
  | [] => ([], saw_non_digit, [])
  | c :: cs =>
    if is_special c then ([], saw_non_digit, c :: cs)
    else
      match scan_atom (saw_non_digit || !isdigit c) cs with
      | (token, saw, rest) => (c :: token, saw, rest)

/-- Value of a decimal digit character. -/
def digit_val (c : Char) : Nat := c.toNat - 48

/-- The library function `std::stoi` on a token made of decimal digits only
(the only way the reader calls it): the value when it fits an `int`,
`std::out_of_range` otherwise. -/
def stoi (token : Str) : Except Err Int :=
  let n := token.foldl (fun acc c => acc * 10 + digit_val c) 0
  if n ≤ 2147483647 then .ok (n : Int) else .error .out_of_range

/-- Outcome of a reader call: `none` when the recursion budget of the
embedding ran out, otherwise the value and unread text or the exception,
together with the symbol table the call leaves behind. -/
abbrev ParseResult := Option (Except Err (Value × Str) × SymTab)

mutual
/-- Source: `parse_expression`. -/
def parse_expression : Nat → Str → SymTab → ParseResult
  | 0, _, _ => none
  | fuel + 1, input, symbol_table =>
    match next_char input with
    | .error e => some (.error e, symbol_table)
    | .ok (next, after) =>
      if next = '(' then
        parse_list fuel after symbol_table []
      else if next = ')' then
        some (.error (.runtime_error "improper end to list".toList), symbol_table)
      else
        match scan_atom false (next :: after) with
        | (token, saw_non_digit, rest) =>
          if saw_non_digit then
            some (.ok ((get_symbol token symbol_table).1, rest), (get_symbol token symbol_table).2)
          else
            match stoi token with
            | .error e => some (.error e, symbol_table)
            | .ok n => some (.ok (int2value n, rest), symbol_table)
/-- The `while(true)` loop of the list branch of `parse_expression`. -/
def parse_list : Nat → Str → SymTab → List Value → ParseResult
  | 0, _, _, _ => none
  | fuel + 1, input, symbol_table, contents =>
    match next_char input with
    | .error e => some (.error e, symbol_table)
    | .ok (next, after) =>
      if next = ')' then
        some (.ok (build_list contents nil, after), symbol_table)
      else if next = '.' then
        if contents.length = 0 then
          some (.error (.runtime_error "leading . in list".toList), symbol_table)
        else
          match parse_expression fuel after symbol_table with
          | none => none
          | some (.error e, table1) => some (.error e, table1)
          | some (.ok (end_, rest), table1) =>
            match next_char rest with
            | .error e => some (.error e, table1)
            | .ok (close, after_close) =>
              if close ≠ ')' then
                some (.error (.runtime_error "improper improper list".toList), table1)
              else
                some (.ok (build_list contents end_, after_close), table1)
      else
        match parse_expression fuel (next :: after) symbol_table with
        | none => none
        | some (.error e, table1) => some (.error e, table1)
        | some (.ok (item, rest), table1) => parse_list fuel rest table1 (contents ++ [item])
end

/-- Source: `parse`.  The budget is enough for every buffer of this length. -/
def parse (input : Str) (symbol_table : SymTab) : ParseResult :=
  parse_expression (2 * input.length + 1) input symbol_table

/-- The loop of `parse_body`. -/
def parse_body_loop : Nat → Str → SymTab → List Value → Option (Except Err (List Value) × SymTab)
  | 0, _, _, _ => none
  | fuel + 1, input, symbol_table, result =>
    match skip_space input with
    | [] => some (.ok result, symbol_table)
    | c :: cs =>
      match parse_expression (2 * (c :: cs).length + 1) (c :: cs) symbol_table with
      | none => none
      | some (.error e, table1) => some (.error e, table1)
      | some (.ok (item, rest), table1) => parse_body_loop fuel rest table1 (result ++ [item])

/-- Source: `parse_body`. -/
def parse_body (input : Str) (symbol_table : SymTab) :
    Option (Except Err (List Value) × SymTab) :=
  parse_body_loop (input.length + 1) input symbol_table []

/-! ## Primitives -/

/-- Conversion of a 64-bit intermediate result to the 32-bit `int`
accumulator of the primitives (two's complement wrap). -/
def to_int (x : Int) : Int :=
  if x % 2 ^ 32 < 2 ^ 31 then x % 2 ^ 32 else x % 2 ^ 32 - 2 ^ 32

/-- Source: `check_args`. -/
def check_args (args : Value) (len_req : Int) : Except Err Unit :=
  if list_length args ≠ len_req then
    .error (.runtime_error "args length incorrect".toList)
  else .ok ()

/-- The loop of `plus`, `v` being the accumulator. -/
def plus_loop (v : Int) (args : Value) : Except Err Value :=
  if args = nil then .ok (int2value v)
  else
    match args with
    | .pair a d =>
      if !is_number a then .error (.runtime_error "arg to plus not number".toList)
      else plus_loop (to_int (v + value2int a)) d
    | _ => .error .not_a_pair

/-- Source: `plus`. -/
def plus (args : Value) : Except Err Value := plus_loop 0 args

/-- The loop of `minus`. -/
def minus_loop (v : Int) (init : Bool) (args : Value) : Except Err Value :=
  if args = nil then .ok (int2value v)
  else
    match args with
    | .pair a d =>
      if !is_number a then .error (.runtime_error "arg to minus not number".toList)
      else if !init then minus_loop (to_int (value2int a)) true d
      else minus_loop (to_int (v - value2int a)) init d
    | _ => .error .not_a_pair

/-- Source: `minus`. -/
def minus (args : Value) : Except Err Value := minus_loop 0 false args

/-- The loop of `mul`. -/
def mul_loop (v : Int) (args : Value) : Except Err Value :=
  if args = nil then .ok (int2value v)
  else
    match args with
    | .pair a d =>
      if !is_number a then .error (.runtime_error "arg to mul not number".toList)
      else mul_loop (to_int (v * value2int a)) d
    | _ => .error .not_a_pair

/-- Source: `mul`. -/
def mul (args : Value) : Except Err Value := mul_loop 1 args

/-- The loop of `div`.  The first argument and every divisor are stored in an
`int` (`v`, `nv`), so they wrap to 32 bits; `v / nv` is the division of two
`int`s, which truncates towards zero.  Its one quotient that does not fit an
`int` is that of `-2^31` by `-1`: there the source has undefined behaviour (the
division traps on x86-64), which is the outcome `int_overflow` here and not a
returned value.  Every other quotient lies in the `int` range, which `to_int`
leaves as it is.  The line the source prints to standard output on the first
argument is not modelled. -/
def div_loop (v : Int) (init : Bool) (args : Value) : Except Err Value :=
  if args = nil then .ok (int2value v)
  else
    match args with
    | .pair a d =>
      if !is_number a then .error (.runtime_error "arg to div not number".toList)
      else if !init then div_loop (to_int (value2int a)) true d
      else
        let nv := to_int (value2int a)
        if nv = 0 then .error (.runtime_error "div by 0".toList)
        else if v = -2147483648 ∧ nv = -1 then .error .int_overflow
        else div_loop (to_int (Int.tdiv v nv)) init d
    | _ => .error .not_a_pair

/-- Source: `div`. -/
def div (args : Value) : Except Err Value := div_loop 0 false args

/-- Source: `call_fn`, the record holding one of the four primitives. -/
def call_fn (fn : Prim) (args : Value) : Except Err Value :=
  match fn with
  | .plus => plus args
  | .minus => minus args
  | .mul => mul args
  | .div => div args

/-! ## Environment -/

/-- The global `std::map<value, value> env`, as its list of bindings. -/
abbrev Env := List (Value × Value)

/-- Source: `env.find(v)`. -/
def env_find : Env → Value → Option Value
  | [], _ => none
  | (k, x) :: rest, key => if k = key then some x else env_find rest key

/-- Source: `env[key] = x`. -/
def env_set : Env → Value → Value → Env
  | [], key, x => [(key, x)]
  | (k, y) :: rest, key, x => if k = key then (k, x) :: rest else (k, y) :: env_set rest key x

/-- Source: `init_env`; returns the environment and the symbol table. -/
def init_env (env : Env) (symbol_table : SymTab) : Env × SymTab :=
  let s1 := get_symbol "+".toList symbol_table
  let env := env_set env s1.1 (.fn .plus)
  let s2 := get_symbol "-".toList s1.2
  let env := env_set env s2.1 (.fn .minus)
  let s3 := get_symbol "*".toList s2.2
  let env := env_set env s3.1 (.fn .mul)
  let s4 := get_symbol "/".toList s3.2
  let env := env_set env s4.1 (.fn .div)
  let env := env_set env nil nil
  let s5 := get_symbol "t".toList s4.2
  let s6 := get_symbol "t".toList s5.2
  (env_set env s6.1 s5.1, s6.2)

/-! ## Evaluator -/

/-- Outcome of an evaluator call: `none` when the recursion budget of the
embedding ran out, otherwise the value or the exception, together with the
environment the call leaves behind. -/
abbrev EvalResult (α : Type) := Option (Except Err α × Env)

mutual
/-- Source: `evaluate`.  The symbol table is only read (for the message of the
unbound-variable error).  In `env[nth(args, 0)] = evaluate(nth(args, 1))` the
right operand is evaluated before the left one (the order C++17 fixes). -/
def evaluate (symbol_table : SymTab) : Nat → Value → Env → EvalResult Value
  | 0, _, _ => none
  | fuel + 1, v, env =>
    match v with
    | .number _ => some (.ok v, env)
    | .fn _ => some (.ok v, env)
    | .symbol _ =>
      match env_find env v with
      | none =>
        match get_symbol_name symbol_table v with
        | .error e => some (.error e, env)
        | .ok name => some (.error (.runtime_error ("undefined variable ".toList ++ name)), env)
      | some x => some (.ok x, env)
    | .pair head args =>
      if head = sym_if then
        match check_args args 3 with
        | .error e => some (.error e, env)
        | .ok _ =>
          match nth args 0 with
          | .error e => some (.error e, env)
          | .ok cond =>
            match evaluate symbol_table fuel cond env with
            | none => none
            | some (.error e, env1) => some (.error e, env1)
            | some (.ok c, env1) =>
              match nth args (if c = nil then 2 else 1) with
              | .error e => some (.error e, env1)
              | .ok branch => evaluate symbol_table fuel branch env1
      else if head = sym_define then
        match check_args args 2 with
        | .error e => some (.error e, env)
        | .ok _ =>
          match nth args 0 with
          | .error e => some (.error e, env)
          | .ok name =>
            if !is_symbol name then
              some (.error (.runtime_error "first argument of define not symbol!".toList), env)
            else
              match nth args 1 with
              | .error e => some (.error e, env)
              | .ok rhs =>
                match evaluate symbol_table fuel rhs env with
                | none => none
                | some (.error e, env1) => some (.error e, env1)
                | some (.ok x, env1) => some (.ok nil, env_set env1 name x)
      else
        match evaluate symbol_table fuel head env with
        | none => none
        | some (.error e, env1) => some (.error e, env1)
        | some (.ok f, env1) =>
          match f with
          | .fn p =>
            if list_length args = -1 then
              some (.error (.runtime_error "fn call with improper list".toList), env1)
            else
              match evaluate_args symbol_table fuel args env1 [] with
              | none => none
              | some (.error e, env2) => some (.error e, env2)
              | some (.ok arg_values, env2) => some (call_fn p (build_list arg_values nil), env2)
          | _ => some (.error (.runtime_error "calling a non-function".toList), env1)
/-- The `for` loop of the application branch of `evaluate`, `cur` being the
rest of the operand chain and `arg_values` the values collected so far. -/
def evaluate_args (symbol_table : SymTab) :
    Nat → Value → Env → List Value → EvalResult (List Value)
  | 0, _, _, _ => none
  | fuel + 1, cur, env, arg_values =>
    if cur = nil then some (.ok arg_values, env)
    else
      match car cur with
      | .error e => some (.error e, env)
      | .ok operand =>
        match evaluate symbol_table fuel operand env with
        | none => none
        | some (.error e, env1) => some (.error e, env1)
        | some (.ok x, env1) =>
          match cdr cur with
          | .error e => some (.error e, env1)
          | .ok next => evaluate_args symbol_table fuel next env1 (arg_values ++ [x])
end

/-! ## The loop of `main` -/

/-- The `for` loop of `main` over the expressions of one input line, `result`
being the value of the last one evaluated. -/
def evaluate_body (symbol_table : SymTab) (fuel : Nat) :
    List Value → Value → Env → EvalResult Value
  | [], result, env => some (.ok result, env)
  | e :: es, _, env =>
    match evaluate symbol_table fuel e env with
    | none => none
    | some (.error err, env1) => some (.error err, env1)
    | some (.ok r, env1) => evaluate_body symbol_table fuel es r env1

/-- One round of the loop of `main` on the line `buf`, printing left out:
`parse_body`, then `evaluate` on each expression in turn. -/
def read_eval (fuel : Nat) (buf : Str) (env : Env) (symbol_table : SymTab) :
    Option (Except Err Value × Env × SymTab) :=
  match parse_body buf symbol_table with
  | none => none
  | some (.error e, table1) => some (.error e, env, table1)
  | some (.ok input, table1) =>
    match evaluate_body table1 fuel input nil env with
    | none => none
    | some (r, env1) => some (r, env1, table1)

/-- The environment `main` starts from: `init_env` after the static
initialisers. -/
def initial_env : Env := (init_env [] static_table).1

/-- The symbol table `main` starts from. -/
def initial_table : SymTab := (init_env [] static_table).2

/-- The final rest of a chain of pairs: `nil` for a proper list. -/
def last_cdr : Value → Value
  | .pair _ d => last_cdr d
  | v => v

/-- Number of pairs in a chain. -/
def chain_length : Value → Nat
  | .pair _ d => chain_length d + 1
  | _ => 0

/-! ## Well-formedness of reader data -/

/-- A text the reader turns into a symbol: free of parentheses and whitespace,
with at least one character that is not a decimal digit. -/
def symbol_token (name : Str) : Bool :=
  name.all (fun c => !is_special c) && name.any (fun c => !isdigit c)

/-- Tables the program can reach: they extend the table the static
initialisers leave, and every later name was interned by the reader or by
`init_env`, so it is a symbol token. -/
def table_ok (symbol_table : SymTab) : Prop :=
  static_table <+: symbol_table ∧ ∀ name ∈ symbol_table, symbol_token name = true

/-- Holds of everything but a symbol whose name starts with a dot. -/
def elem_ok (symbol_table : SymTab) : Value → Prop
  | .symbol index => ∀ name, symbol_table.get? index = some name → name.head? ≠ some '.'
  | _ => True

/-- Shape of the values the reader builds: numbers in the range of `stoi`,
symbols at the first position of their name in the table, pairs of such values
whose first field is not a symbol starting with a dot, no functions. -/
def readable (symbol_table : SymTab) : Value → Prop
  | .number n => 0 ≤ n ∧ n ≤ 2147483647
  | .symbol index =>
    ∃ name, symbol_table.get? index = some name ∧ find_index name symbol_table = index
  | .pair a d => readable symbol_table a ∧ elem_ok symbol_table a ∧ readable symbol_table d
  | .fn _ => False

mutual
/-- An atom (number or symbol), or a proper list of such values, nested to any
depth. -/
def proper_tree : Value → Bool
  | .number _ => true
  | .symbol _ => true
  | .pair a d => proper_tree a && proper_chain d
  | .fn _ => false
/-- The rest of a proper list: nil, or a pair of a proper tree and such a rest. -/
def proper_chain : Value → Bool
  | .pair a d => proper_tree a && proper_chain d
  | v => v = nil
end

/-! ## Lists of numbers -/

/-- The proper list of the Integer values with the given payloads. -/
def numbers (xs : List Int) : Value := build_list (xs.map Value.number) nil

/-- The lists of Integer arguments on which `div` comes to divide `-2^31` by
`-1`: the first argument is `-2^31` and the first divisor other than 1 is `-1`,
each argument taken as the `int` it is stored in.  (Up to that divisor the
quotient is still `-2^31`; after a divisor other than 1 and -1 it can no longer
be `-2^31`, and a divisor 0 ends the run.) -/
def div_overflows : List Int → Bool
  | [] => false
  | a :: ds =>
    decide (to_int a = -2147483648) &&
      decide (((ds.map to_int).dropWhile (fun d => decide (d = 1))).head? = some (-1))

/-! ## Reading a whole buffer -/

/-- The buffer is read to its end as the values `vs`: either only whitespace is
left and `vs` is empty, or `parse` reads one expression and the unread rest is
read to its end as the other values. -/
inductive reads_all : Str → SymTab → List Value → SymTab → Prop where
  | done (input : Str) (symbol_table : SymTab) (h : ∀ c ∈ input, isspace c = true) :
      reads_all input symbol_table [] symbol_table
  | step (input : Str) (symbol_table : SymTab) (item : Value) (rest : Str) (table1 : SymTab)
      (vs : List Value) (table2 : SymTab)
      (h : parse input symbol_table = some (.ok (item, rest), table1))
      (more : reads_all rest table1 vs table2) :
      reads_all input symbol_table (item :: vs) table2

/-- Number of opening parentheses of a text minus number of closing ones. -/
def paren_excess (s : Str) : Int := (s.count '(' : Int) - (s.count ')' : Int)

/-- Base-10 value of a text of decimal digits. -/
def decimal_value (tok : Str) : Nat := tok.foldl (fun acc c => acc * 10 + digit_val c) 0

/-- The atom the reader makes of the token `tok`, with the symbol table it
leaves: the Integer of its base-10 value when every character is a decimal
digit (or the exception of `std::stoi` when that value does not fit an `int`),
the Symbol interned under `tok` otherwise. -/
def atom_of_token (tok : Str) (symbol_table : SymTab) : Except Err Value × SymTab :=
  if tok.all isdigit then
    if decimal_value tok ≤ 2147483647 then (.ok (.number (decimal_value tok)), symbol_table)
    else (.error .out_of_range, symbol_table)
  else (.ok (get_symbol tok symbol_table).1, (get_symbol tok symbol_table).2)

/-! ## Outcomes of the evaluator -/

/-- The evaluator reaches the outcome `r` on `v` from `env` (with some budget,
which by `evaluate_mono` does not influence the outcome). -/
def evaluates (symbol_table : SymTab) (v : Value) (env : Env)
    (r : Except Err Value × Env) : Prop :=
  ∃ fuel, evaluate symbol_table fuel v env = some r

/-- Operands evaluated one after the other, each in the environment the one
before it left: the values of all of them, or the exception of the first that
fails, the operands after it playing no part. -/
inductive evaluates_operands (symbol_table : SymTab) :
    List Value → Env → Except Err (List Value) × Env → Prop where
  | done (env : Env) : evaluates_operands symbol_table [] env (.ok [], env)
  | fail (e : Value) (es : List Value) (env : Env) (err : Err) (env1 : Env)
      (h : evaluates symbol_table e env (.error err, env1)) :
      evaluates_operands symbol_table (e :: es) env (.error err, env1)
  | next (e : Value) (es : List Value) (env : Env) (x : Value) (env1 : Env)
      (xs : List Value) (env2 : Env)
      (h : evaluates symbol_table e env (.ok x, env1))
      (more : evaluates_operands symbol_table es env1 (.ok xs, env2)) :
      evaluates_operands symbol_table (e :: es) env (.ok (x :: xs), env2)
  | later (e : Value) (es : List Value) (env : Env) (x : Value) (env1 : Env)
      (err : Err) (env2 : Env)
      (h : evaluates symbol_table e env (.ok x, env1))
      (more : evaluates_operands symbol_table es env1 (.error err, env2)) :
      evaluates_operands symbol_table (e :: es) env (.error err, env2)

/-- No value bound in the environment is a pair. -/
def no_pairs (env : Env) : Prop := ∀ b ∈ env, is_pair b.2 = false

/-- Environments the program can be in: the one `init_env` builds, and the one
any call of `evaluate` leaves, whether it returns or raises. -/
inductive reachable_env : Env → Prop where
  | init : reachable_env initial_env
  | step (symbol_table : SymTab) (fuel : Nat) (v : Value) (env : Env)
      (r : Except Err Value) (env1 : Env) (h : reachable_env env)
      (he : evaluate symbol_table fuel v env = some (r, env1)) : reachable_env env1

/-! ## Word-level lemmas -/

theorem Word.int2value_eq (n : Int) :
    Word.int2value n = ((4 * n + 1) % 2 ^ 64).toNat := by
  unfold Word.int2value Word.toWord Word.NUMBER_TAG
  obtain ⟨k, hk⟩ : ∃ k : Nat, (n * 2 ^ 2 % 2 ^ 64).toNat = 2 ^ 2 * k := by
    refine ⟨((n * 2 ^ 2 % 2 ^ 64).toNat) / 4, ?_⟩
    omega
  rw [hk, ← Nat.mul_add_lt_is_or (by norm_num) k, ← hk]
  omega

theorem Word.value2int_int2value (n : Int) (h₁ : -2 ^ 61 ≤ n) (h₂ : n < 2 ^ 61) :
    Word.value2int (Word.int2value n) = n := by
  rw [Word.int2value_eq n]
  unfold Word.value2int Word.toSigned
  rw [Int.shiftRight_eq_div_pow]
  split <;> omega

theorem Word.is_number_int2value (n : Int) :
    Word.is_number (Word.int2value n) = true := by
  rw [Word.int2value_eq n]
  unfold Word.is_number Word.NUMBER_TAG
  have : (3 : Nat) = 2 ^ 2 - 1 := by norm_num
  rw [this, Nat.and_pow_two_sub_one_eq_mod]
  simp only [beq_iff_eq]
  omega

/-! ## Symbol table lemmas -/

theorem find_index_le (name : Str) (tbl : SymTab) : find_index name tbl ≤ tbl.length := by
  induction tbl with
  | nil => simp [find_index]
  | cons s rest ih =>
    simp only [find_index, List.length_cons]
    split <;> omega

theorem find_index_lt_iff (name : Str) (tbl : SymTab) :
    find_index name tbl < tbl.length ↔ name ∈ tbl := by
  induction tbl with
  | nil => simp [find_index]
  | cons s rest ih =>
    simp only [find_index, List.length_cons, List.mem_cons]
    by_cases h : s = name
    · simp [h]
    · simp only [h, if_false, Nat.add_lt_add_iff_right, ih]
      constructor
      · exact Or.inr
      · rintro (h' | h')
        · exact absurd h'.symm h
        · exact h'

theorem get?_find_index (name : Str) (tbl : SymTab) (h : name ∈ tbl) :
    tbl.get? (find_index name tbl) = some name := by
  induction tbl with
  | nil => simp at h
  | cons s rest ih =>
    simp only [find_index]
    by_cases hs : s = name
    · simp [hs]
    · simp only [hs, if_false, List.get?_cons_succ]
      apply ih
      rcases List.mem_cons.mp h with h' | h'
      · exact absurd h'.symm hs
      · exact h'

theorem find_index_append (name : Str) (tbl ext : SymTab) (h : name ∈ tbl) :
    find_index name (tbl ++ ext) = find_index name tbl := by
  induction tbl with
  | nil => simp at h
  | cons s rest ih =>
    simp only [find_index, List.cons_append]
    by_cases hs : s = name
    · simp [hs]
    · simp only [hs, if_false, Nat.add_right_cancel_iff]
      apply ih
      rcases List.mem_cons.mp h with h' | h'
      · exact absurd h'.symm hs
      · exact h'

theorem find_index_append_new (name : Str) (tbl : SymTab) (h : name ∉ tbl) :
    find_index name (tbl ++ [name]) = tbl.length := by
  induction tbl with
  | nil => simp [find_index]
  | cons s rest ih =>
    simp only [List.mem_cons, not_or] at h
    simp only [find_index, List.cons_append, List.length_cons]
    rw [if_neg (fun e => h.1 e.symm)]
    simpa using ih h.2

theorem get_symbol_of_mem (name : Str) (tbl : SymTab) (h : name ∈ tbl) :
    get_symbol name tbl = (.symbol (find_index name tbl), tbl) := by
  simp [get_symbol, (find_index_lt_iff name tbl).mpr h]

theorem get_symbol_of_not_mem (name : Str) (tbl : SymTab) (h : name ∉ tbl) :
    get_symbol name tbl = (.symbol tbl.length, tbl ++ [name]) := by
  have : ¬ find_index name tbl < tbl.length := fun h' => h ((find_index_lt_iff name tbl).mp h')
  simp [get_symbol, this]

theorem mem_get_symbol (name : Str) (tbl : SymTab) : name ∈ (get_symbol name tbl).2 := by
  by_cases h : name ∈ tbl
  · rw [get_symbol_of_mem name tbl h]; exact h
  · rw [get_symbol_of_not_mem name tbl h]; simp

theorem get_symbol_fst (name : Str) (tbl : SymTab) :
    (get_symbol name tbl).1 = .symbol (find_index name (get_symbol name tbl).2) := by
  by_cases h : name ∈ tbl
  · rw [get_symbol_of_mem name tbl h]
  · rw [get_symbol_of_not_mem name tbl h, find_index_append_new name tbl h]

theorem get_symbol_name_get_symbol (name : Str) (tbl : SymTab) :
    get_symbol_name (get_symbol name tbl).2 (get_symbol name tbl).1 = .ok name := by
  rw [get_symbol_fst]
  simp only [get_symbol_name]
  rw [get?_find_index name _ (mem_get_symbol name tbl)]

/-! ## Claims on the value encoding and the symbol table -/

/-- C2. Integer encode/decode round trip on the 64-bit word: for every `n` with
`-2^61 ≤ n < 2^61`, `value2int (int2value n) = n`; the word read as a signed
integer is `4 * n + 1` and decoding is its arithmetic right shift by 2 (the
floor of the quotient by 4, so the sign is kept); and `is_number (int2value n)`
holds.  The same holds for the tree-level value. -/
theorem int_encode_decode_roundtrip (n : Int) (h₁ : -2 ^ 61 ≤ n) (h₂ : n < 2 ^ 61) :
    Word.value2int (Word.int2value n) = n ∧
    Word.toSigned (Word.int2value n) = 4 * n + 1 ∧
    Word.value2int (Word.int2value n) = Word.toSigned (Word.int2value n) / 4 ∧
    Word.is_number (Word.int2value n) = true ∧
    value2int (int2value n) = n ∧ is_number (int2value n) = true := by
  have h := Word.value2int_int2value n h₁ h₂
  refine ⟨h, ?_, ?_, Word.is_number_int2value n, by simp [int2value, value2int, h], rfl⟩
  · rw [Word.int2value_eq n]
    unfold Word.toSigned
    split <;> omega
  · unfold Word.value2int
    rw [Int.shiftRight_eq_div_pow]
    rfl

/-- Witness of C2 at a negative integer. -/
theorem int_encode_decode_roundtrip_witness :
    Word.value2int (Word.int2value (-5)) = -5 ∧
    Word.toSigned (Word.int2value (-5)) = 4 * (-5) + 1 ∧
    Word.value2int (Word.int2value (-5)) = Word.toSigned (Word.int2value (-5)) / 4 ∧
    Word.is_number (Word.int2value (-5)) = true ∧
    value2int (int2value (-5)) = -5 ∧ is_number (int2value (-5)) = true :=
  int_encode_decode_roundtrip (-5) (by decide) (by decide)

/-- C3. Interning is idempotent and injective: from every table, interning a
name a second time returns the identifier of the first call and leaves the
table as the first call left it; two different names interned one after the
other receive different identifiers; and both facts still hold when any
number of other names were interned in between (the table only grows). -/
theorem get_symbol_idempotent_injective (symbol_table : SymTab) (a b : Str) :
    (get_symbol a (get_symbol a symbol_table).2).1 = (get_symbol a symbol_table).1 ∧
    (get_symbol a (get_symbol a symbol_table).2).2 = (get_symbol a symbol_table).2 ∧
    (a ≠ b →
      (get_symbol b (get_symbol a symbol_table).2).1 ≠ (get_symbol a symbol_table).1) ∧
    (∀ later : SymTab,
      (get_symbol a ((get_symbol a symbol_table).2 ++ later)).1 = (get_symbol a symbol_table).1 ∧
      (a ≠ b →
        (get_symbol b ((get_symbol a symbol_table).2 ++ later)).1
          ≠ (get_symbol a symbol_table).1)) := by
  have hmem := mem_get_symbol a symbol_table
  have key : ∀ later : SymTab,
      (get_symbol a ((get_symbol a symbol_table).2 ++ later)).1 = (get_symbol a symbol_table).1 ∧
      (a ≠ b →
        (get_symbol b ((get_symbol a symbol_table).2 ++ later)).1
          ≠ (get_symbol a symbol_table).1) := by
    intro later
    have hmem' : a ∈ (get_symbol a symbol_table).2 ++ later := List.mem_append_left _ hmem
    constructor
    · rw [get_symbol_of_mem a _ hmem', find_index_append a _ later hmem, ← get_symbol_fst]
    · intro hab heq
      have h1 := get_symbol_name_get_symbol b ((get_symbol a symbol_table).2 ++ later)
      rw [heq, get_symbol_fst a symbol_table] at h1
      simp only [get_symbol_name] at h1
      have hlt := (find_index_lt_iff a _).mpr hmem
      have hext : ∃ more, (get_symbol b ((get_symbol a symbol_table).2 ++ later)).2
          = (get_symbol a symbol_table).2 ++ more := by
        by_cases hb : b ∈ (get_symbol a symbol_table).2 ++ later
        · rw [get_symbol_of_mem b _ hb]; exact ⟨later, rfl⟩
        · rw [get_symbol_of_not_mem b _ hb]; exact ⟨later ++ [b], by simp⟩
      obtain ⟨more, hmore⟩ := hext
      rw [hmore, List.get?_append hlt, get?_find_index a _ hmem] at h1
      exact hab (by simpa using h1)
  refine ⟨?_, ?_, ?_, key⟩
  · have := (key []).1
    rwa [List.append_nil] at this
  · rw [get_symbol_of_mem a _ hmem]
  · intro hab
    have := (key []).2 hab
    rwa [List.append_nil] at this

/-- Witness of C3: "abc" twice, then "abc" and "xyz", on the table the static
initialisers leave. -/
theorem get_symbol_idempotent_injective_witness :
    (get_symbol "abc".toList (get_symbol "abc".toList static_table).2).1
        = (get_symbol "abc".toList static_table).1 ∧
    (get_symbol "abc".toList (get_symbol "abc".toList static_table).2).2
        = (get_symbol "abc".toList static_table).2 ∧
    (get_symbol "xyz".toList (get_symbol "abc".toList static_table).2).1
        ≠ (get_symbol "abc".toList static_table).1 :=
  ⟨(get_symbol_idempotent_injective static_table "abc".toList "xyz".toList).1,
   (get_symbol_idempotent_injective static_table "abc".toList "xyz".toList).2.1,
   (get_symbol_idempotent_injective static_table "abc".toList "xyz".toList).2.2.1 (by decide)⟩

/-- C4. Interning is stable and `get_symbol_name` inverts it: the name of the
returned symbol is the interned name; a name already in the table leaves the
table unchanged; a new name receives the table size before the call and is
appended as the single new entry; and every symbol that had a name before the
call has the same name after it. -/
theorem get_symbol_stable (symbol_table : SymTab) (n : Str) :
    get_symbol_name (get_symbol n symbol_table).2 (get_symbol n symbol_table).1 = .ok n ∧
    (n ∈ symbol_table → (get_symbol n symbol_table).2 = symbol_table) ∧
    (n ∉ symbol_table →
      (get_symbol n symbol_table).1 = .symbol symbol_table.length ∧
      (get_symbol n symbol_table).2 = symbol_table ++ [n]) ∧
    symbol_table <+: (get_symbol n symbol_table).2 ∧
    (get_symbol n symbol_table).2.length ≤ symbol_table.length + 1 ∧
    (∀ s name, get_symbol_name symbol_table s = .ok name →
      get_symbol_name (get_symbol n symbol_table).2 s = .ok name) := by
  refine ⟨get_symbol_name_get_symbol n symbol_table, ?_, ?_, ?_, ?_, ?_⟩
  · intro h; rw [get_symbol_of_mem n _ h]
  · intro h; rw [get_symbol_of_not_mem n _ h]; exact ⟨rfl, rfl⟩
  · by_cases h : n ∈ symbol_table
    · rw [get_symbol_of_mem n _ h]
    · rw [get_symbol_of_not_mem n _ h]; exact ⟨[n], rfl⟩
  · by_cases h : n ∈ symbol_table
    · rw [get_symbol_of_mem n _ h]; simp
    · rw [get_symbol_of_not_mem n _ h]; simp
  · intro s name hs
    by_cases h : n ∈ symbol_table
    · rw [get_symbol_of_mem n _ h]; exact hs
    · rw [get_symbol_of_not_mem n _ h]
      cases s with
      | symbol i =>
        simp only [get_symbol_name] at hs ⊢
        cases hi : symbol_table.get? i with
        | none => rw [hi] at hs; simp at hs
        | some x =>
          rw [hi] at hs
          have hlt : i < symbol_table.length := List.get?_eq_some.mp hi |>.1
          rw [List.get?_append hlt, hi]
          exact hs
      | _ => simp [get_symbol_name] at hs

/-- Witness of C4: interning the new name "abc" and the old name "if" on the
table the static initialisers leave. -/
theorem get_symbol_stable_witness :
    (get_symbol "abc".toList static_table).1 = .symbol 3 ∧
    (get_symbol "abc".toList static_table).2 = static_table ++ ["abc".toList] ∧
    (get_symbol "if".toList static_table).2 = static_table :=
  ⟨((get_symbol_stable static_table "abc".toList).2.2.1 (by decide)).1,
   ((get_symbol_stable static_table "abc".toList).2.2.1 (by decide)).2,
   (get_symbol_stable static_table "if".toList).2.1 (by decide)⟩

/-! ## Evaluator lemmas -/

theorem nil_eq : nil = .symbol 0 := rfl

theorem sym_if_eq : sym_if = .symbol 1 := rfl

theorem sym_define_eq : sym_define = .symbol 2 := rfl

theorem list_length_loop_pair (out : Int) (a d : Value) :
    list_length_loop out (.pair a d) = list_length_loop (out + 1) d := by
  rw [list_length_loop]
  simp [nil_eq]

theorem list_length_loop_nil (out : Int) : list_length_loop out nil = out := by
  unfold list_length_loop
  simp

/-- The loop returns `-1` on an improper chain and the count so far plus the
number of pairs on a proper one. -/
theorem list_length_loop_eq (out : Int) (v : Value) :
    list_length_loop out v = if last_cdr v = nil then out + chain_length v else -1 := by
  induction v generalizing out with
  | pair a d _ ih =>
    rw [list_length_loop_pair, ih]
    simp only [last_cdr, chain_length]
    split
    · push_cast; ring
    · rfl
  | number n => unfold list_length_loop; simp [nil_eq, last_cdr]
  | symbol i =>
    unfold list_length_loop
    by_cases h : Value.symbol i = nil
    · simp [h, last_cdr, chain_length]
    · simp [h, last_cdr]
  | fn f => unfold list_length_loop; simp [nil_eq, last_cdr]

theorem list_length_eq (v : Value) :
    list_length v = if last_cdr v = nil then (chain_length v : Int) else -1 := by
  rw [list_length, list_length_loop_eq]
  simp

theorem list_length_improper (v : Value) : list_length v = -1 ↔ last_cdr v ≠ nil := by
  rw [list_length_eq]
  split
  · constructor
    · intro h; omega
    · intro h; contradiction
  · simp [*]

theorem env_find_env_set (env : Env) (key x : Value) :
    env_find (env_set env key x) key = some x := by
  induction env with
  | nil => simp [env_set, env_find]
  | cons b rest ih =>
    obtain ⟨k, y⟩ := b
    simp only [env_set]
    by_cases h : k = key
    · simp [h, env_find]
    · simp [h, env_find, ih]

theorem env_find_env_set_ne (env : Env) (key other x : Value) (h : other ≠ key) :
    env_find (env_set env key x) other = env_find env other := by
  induction env with
  | nil => simp [env_set, env_find, Ne.symm h]
  | cons b rest ih =>
    obtain ⟨k, y⟩ := b
    simp only [env_set]
    by_cases hk : k = key
    · subst hk
      simp [env_find, Ne.symm h]
    · by_cases ho : k = other
      · subst ho
        simp [hk, env_find]
      · simp [hk, env_find, ho, ih]

theorem list_length_build_list (xs : List Value) :
    list_length (build_list xs nil) = xs.length := by
  rw [list_length_eq]
  have h : ∀ ys : List Value, last_cdr (build_list ys nil) = nil ∧
      chain_length (build_list ys nil) = ys.length := by
    intro ys
    induction ys with
    | nil => exact ⟨rfl, rfl⟩
    | cons y ys ih =>
      simp only [build_list, List.foldr, last_cdr, chain_length, List.length_cons] at ih ⊢
      exact ⟨ih.1, by rw [ih.2]⟩
  rw [if_pos (h xs).1, (h xs).2]

theorem check_args_ok (args : Value) (n : Int) (h : list_length args = n) :
    check_args args n = .ok () := by
  simp [check_args, h]

theorem check_args_error (args : Value) (n : Int) (h : list_length args ≠ n) :
    check_args args n = .error (.runtime_error "args length incorrect".toList) := by
  simp [check_args, h]

/-! ## Claims on the evaluator -/

/-- C5. Truthiness and branch selection of `if`: with three operands
`c`, `a`, `b`, the form first evaluates `c`; an exception of `c` is the
exception of the form; when `c` gives exactly the nil symbol the outcome
(value or exception, and environment) is that of evaluating `b` in the
environment `c` left, and `a` plays no part; for every other value of `c` it is
that of evaluating `a`, and `b` plays no part.  On the environment of
`init_env`, `(if nil 1 2)` gives 2, `(if 0 1 2)` gives 1 and `(if t 1 2)`
gives 1. -/
theorem evaluate_if_selects_branch :
    (∀ (symbol_table : SymTab) (fuel : Nat) (env : Env) (c a b : Value),
      evaluate symbol_table (fuel + 1) (.pair sym_if (build_list [c, a, b] nil)) env =
        match evaluate symbol_table fuel c env with
        | none => none
        | some (.error e, env1) => some (.error e, env1)
        | some (.ok r, env1) =>
          if r = nil then evaluate symbol_table fuel b env1
          else evaluate symbol_table fuel a env1) ∧
    read_eval 3 "(if nil 1 2)".toList initial_env initial_table
      = some (.ok (.number 2), initial_env, initial_table) ∧
    read_eval 3 "(if 0 1 2)".toList initial_env initial_table
      = some (.ok (.number 1), initial_env, initial_table) ∧
    read_eval 3 "(if t 1 2)".toList initial_env initial_table
      = some (.ok (.number 1), initial_env, initial_table) := by
  refine ⟨?_, by decide, by decide, by decide⟩
  intro symbol_table fuel env c a b
  rw [evaluate]
  simp only [if_true, check_args_ok _ 3 (list_length_build_list [c, a, b])]
  simp only [build_list, List.foldr, nth, car, cdr]
  rcases evaluate symbol_table fuel c env with _ | ⟨r | r, env1⟩
  · rfl
  · rfl
  · by_cases h : r = nil <;> simp [h, nth, car, cdr]

/-- C6. `define` binds, overwrites and returns nil: when the evaluation of `e`
succeeds with value `v`, leaving the environment `env1`, evaluating
`(define s e)` for a symbol `s` returns the nil symbol and leaves `env1` with
`s` set to `v`; in that environment looking `s` up gives `v` and evaluating
`s` returns `v`, whatever `s` was bound to before; other symbols keep their
binding. -/
theorem evaluate_define_binds (symbol_table : SymTab) (fuel : Nat) (env env1 : Env)
    (s : Nat) (e v : Value)
    (h : evaluate symbol_table fuel e env = some (.ok v, env1)) :
    evaluate symbol_table (fuel + 1) (.pair sym_define (build_list [.symbol s, e] nil)) env
      = some (.ok nil, env_set env1 (.symbol s) v) ∧
    env_find (env_set env1 (.symbol s) v) (.symbol s) = some v ∧
    (∀ k, evaluate symbol_table (k + 1) (.symbol s) (env_set env1 (.symbol s) v)
      = some (.ok v, env_set env1 (.symbol s) v)) ∧
    (∀ other, other ≠ .symbol s →
      env_find (env_set env1 (.symbol s) v) other = env_find env1 other) := by
  refine ⟨?_, env_find_env_set _ _ _, ?_, fun other ho => env_find_env_set_ne _ _ _ _ ho⟩
  · rw [evaluate]
    have h12 : sym_define ≠ sym_if := by decide
    simp only [if_neg h12, if_true,
      check_args_ok _ 2 (list_length_build_list [.symbol s, e])]
    simp only [build_list, List.foldr, nth, car, cdr, is_symbol, h]
    rfl
  · intro k
    rw [evaluate]
    simp only [env_find_env_set]

/-- Witness of C6: `(define x 5)` then `x` gives 5, `(define x 6)` then `x`
gives 6, on the environment of `init_env`. -/
theorem evaluate_define_binds_witness :
    evaluate (initial_table ++ ["x".toList]) 2
        (.pair sym_define (build_list [.symbol 8, .number 5] nil)) initial_env
      = some (.ok nil, env_set initial_env (.symbol 8) (.number 5)) ∧
    read_eval 2 "(define x 5) x".toList initial_env initial_table
      = some (.ok (.number 5), initial_env ++ [(.symbol 8, .number 5)],
          initial_table ++ ["x".toList]) ∧
    read_eval 2 "(define x 5) (define x 6) x".toList initial_env initial_table
      = some (.ok (.number 6), initial_env ++ [(.symbol 8, .number 6)],
          initial_table ++ ["x".toList]) :=
  ⟨(evaluate_define_binds (initial_table ++ ["x".toList]) 1 initial_env initial_env 8
      (.number 5) (.number 5) (by decide)).1, by decide, by decide⟩

/-- C7. `define` commits nothing when its right-hand side fails: when the
evaluation of `e` fails with the exception `err`, leaving the environment
`env1`, evaluating `(define s e)` for a symbol `s` fails with `err` and leaves
exactly `env1`; so a symbol unbound in `env1` is still unbound. -/
theorem evaluate_define_atomic (symbol_table : SymTab) (fuel : Nat) (env env1 : Env)
    (s : Nat) (e : Value) (err : Err)
    (h : evaluate symbol_table fuel e env = some (.error err, env1)) :
    evaluate symbol_table (fuel + 1) (.pair sym_define (build_list [.symbol s, e] nil)) env
      = some (.error err, env1) := by
  rw [evaluate]
  have h12 : sym_define ≠ sym_if := by decide
  simp only [if_neg h12, if_true,
    check_args_ok _ 2 (list_length_build_list [.symbol s, e])]
  simp only [build_list, List.foldr, nth, car, cdr, is_symbol, h]
  rfl

/-- Witness of C7: `(define x y)` with `y` unbound fails with the error of `y`
and leaves the environment of `init_env`, where `x` is unbound. -/
theorem evaluate_define_atomic_witness :
    evaluate (initial_table ++ ["x".toList, "y".toList]) 2
        (.pair sym_define (build_list [.symbol 8, .symbol 9] nil)) initial_env
      = some (.error (.runtime_error "undefined variable y".toList), initial_env) ∧
    env_find initial_env (.symbol 8) = none ∧
    read_eval 2 "(define x y)".toList initial_env initial_table
      = some (.error (.runtime_error "undefined variable y".toList), initial_env,
          initial_table ++ ["x".toList, "y".toList]) :=
  ⟨evaluate_define_atomic (initial_table ++ ["x".toList, "y".toList]) 1 initial_env
      initial_env 8 (.symbol 9) (.runtime_error "undefined variable y".toList) (by decide),
    by decide, by decide⟩

/-- C8. Special-form arity: whenever `list_length args` is not 3, evaluating
`(if . args)` fails with "args length incorrect", and whenever it is not 2,
evaluating `(define . args)` does; an improper chain has length -1 and so
fails both; in each case the environment is the one the call started from, so
no operand was evaluated. -/
theorem special_form_arity (symbol_table : SymTab) (fuel : Nat) (env : Env) (args : Value) :
    (list_length args ≠ 3 →
      evaluate symbol_table (fuel + 1) (.pair sym_if args) env
        = some (.error (.runtime_error "args length incorrect".toList), env)) ∧
    (list_length args ≠ 2 →
      evaluate symbol_table (fuel + 1) (.pair sym_define args) env
        = some (.error (.runtime_error "args length incorrect".toList), env)) ∧
    (last_cdr args ≠ nil → list_length args ≠ 3 ∧ list_length args ≠ 2) := by
  refine ⟨?_, ?_, ?_⟩
  · intro h
    rw [evaluate]
    simp only [if_true, check_args_error _ 3 h]
  · intro h
    rw [evaluate]
    have h12 : sym_define ≠ sym_if := by decide
    simp only [if_neg h12, if_true, check_args_error _ 2 h]
  · intro h
    rw [(list_length_improper args).mpr h]
    exact ⟨by decide, by decide⟩

/-- Witness of C8: `(if 1 2)`, `(if 1 2 3 4)` and `(define x)`. -/
theorem special_form_arity_witness :
    evaluate initial_table 1 (.pair sym_if (build_list [.number 1, .number 2] nil)) initial_env
      = some (.error (.runtime_error "args length incorrect".toList), initial_env) ∧
    evaluate initial_table 1
        (.pair sym_if (build_list [.number 1, .number 2, .number 3, .number 4] nil)) initial_env
      = some (.error (.runtime_error "args length incorrect".toList), initial_env) ∧
    evaluate initial_table 1 (.pair sym_define (build_list [.symbol 8] nil)) initial_env
      = some (.error (.runtime_error "args length incorrect".toList), initial_env) ∧
    read_eval 1 "(if 1 2)".toList initial_env initial_table
      = some (.error (.runtime_error "args length incorrect".toList), initial_env,
          initial_table) ∧
    read_eval 1 "(if 1 2 3 4)".toList initial_env initial_table
      = some (.error (.runtime_error "args length incorrect".toList), initial_env,
          initial_table) ∧
    read_eval 1 "(define x)".toList initial_env initial_table
      = some (.error (.runtime_error "args length incorrect".toList), initial_env,
          initial_table ++ ["x".toList]) :=
  ⟨(special_form_arity initial_table 0 initial_env (build_list [.number 1, .number 2] nil)).1
      (by decide),
    (special_form_arity initial_table 0 initial_env
      (build_list [.number 1, .number 2, .number 3, .number 4] nil)).1 (by decide),
    (special_form_arity initial_table 0 initial_env (build_list [.symbol 8] nil)).2.1
      (by decide),
    by decide, by decide, by decide⟩

/-- C9. Symbol lookup: for a symbol `s` whose name in the table is `name`,
evaluating `s` returns the value bound to `s` when there is one, and fails
with "undefined variable " followed by `name` when there is none; it fails
exactly when `s` is not bound, and the environment is unchanged either way. -/
theorem evaluate_symbol_lookup (symbol_table : SymTab) (fuel : Nat) (env : Env) (s : Nat)
    (name : Str) (hname : get_symbol_name symbol_table (.symbol s) = .ok name) :
    (∀ x, env_find env (.symbol s) = some x →
      evaluate symbol_table (fuel + 1) (.symbol s) env = some (.ok x, env)) ∧
    (env_find env (.symbol s) = none →
      evaluate symbol_table (fuel + 1) (.symbol s) env
        = some (.error (.runtime_error ("undefined variable ".toList ++ name)), env)) ∧
    ((∃ e env1, evaluate symbol_table (fuel + 1) (.symbol s) env = some (.error e, env1))
      ↔ env_find env (.symbol s) = none) := by
  have hb : ∀ x, env_find env (.symbol s) = some x →
      evaluate symbol_table (fuel + 1) (.symbol s) env = some (.ok x, env) := by
    intro x hx
    rw [evaluate]
    simp only [hx]
  have hu : env_find env (.symbol s) = none →
      evaluate symbol_table (fuel + 1) (.symbol s) env
        = some (.error (.runtime_error ("undefined variable ".toList ++ name)), env) := by
    intro hx
    rw [evaluate]
    simp only [hx, hname]
  refine ⟨hb, hu, ?_⟩
  constructor
  · rintro ⟨e, env1, he⟩
    cases hx : env_find env (.symbol s) with
    | none => rfl
    | some x => rw [hb x hx] at he; simp at he
  · intro hx
    exact ⟨_, _, hu hx⟩

/-- Witness of C9: the never-defined `y` fails naming "y"; `t` is bound to
itself. -/
theorem evaluate_symbol_lookup_witness :
    evaluate (initial_table ++ ["y".toList]) 1 (.symbol 8) initial_env
      = some (.error (.runtime_error "undefined variable y".toList), initial_env) ∧
    evaluate (initial_table ++ ["y".toList]) 1 (.symbol 7) initial_env
      = some (.ok (.symbol 7), initial_env) ∧
    read_eval 1 "y".toList initial_env initial_table
      = some (.error (.runtime_error "undefined variable y".toList), initial_env,
          initial_table ++ ["y".toList]) :=
  ⟨(evaluate_symbol_lookup (initial_table ++ ["y".toList]) 0 initial_env 8 "y".toList
      (by decide)).2.1 (by decide),
    (evaluate_symbol_lookup (initial_table ++ ["y".toList]) 0 initial_env 7 "t".toList
      (by decide)).1 (.symbol 7) (by decide),
    by decide⟩

/-- C10. Ordinary-application type errors: for a pair whose head is neither
the symbol `if` nor the symbol `define` and whose head evaluates to `f`,
leaving the environment `env1`: when `f` is not a function the form fails with
"calling a non-function"; when `f` is a function and the operand chain is
improper (its final rest is not nil) the form fails with "fn call with
improper list"; both leave exactly `env1`, so no operand was evaluated and no
function was called. -/
theorem application_type_errors (symbol_table : SymTab) (fuel : Nat) (env env1 : Env)
    (head args f : Value) (hif : head ≠ sym_if) (hdef : head ≠ sym_define)
    (hf : evaluate symbol_table fuel head env = some (.ok f, env1)) :
    (is_fn f = false →
      evaluate symbol_table (fuel + 1) (.pair head args) env
        = some (.error (.runtime_error "calling a non-function".toList), env1)) ∧
    (is_fn f = true → last_cdr args ≠ nil →
      evaluate symbol_table (fuel + 1) (.pair head args) env
        = some (.error (.runtime_error "fn call with improper list".toList), env1)) := by
  constructor
  · intro hn
    rw [evaluate]
    simp only [if_neg hif, if_neg hdef, hf]
    cases f <;> simp_all [is_fn]
  · intro hn himp
    rw [evaluate]
    simp only [if_neg hif, if_neg hdef, hf]
    cases f <;> simp_all [is_fn, (list_length_improper args).mpr himp]

/-- Witness of C10: `(+ 1 . 2)` fails with "fn call with improper list" and
`(1 2)` with "calling a non-function". -/
theorem application_type_errors_witness :
    evaluate initial_table 2 (.pair (.symbol 3) (.pair (.number 1) (.number 2))) initial_env
      = some (.error (.runtime_error "fn call with improper list".toList), initial_env) ∧
    evaluate initial_table 2 (.pair (.number 1) (.pair (.number 2) nil)) initial_env
      = some (.error (.runtime_error "calling a non-function".toList), initial_env) ∧
    read_eval 2 "(+ 1 . 2)".toList initial_env initial_table
      = some (.error (.runtime_error "fn call with improper list".toList), initial_env,
          initial_table) :=
  ⟨(application_type_errors initial_table 1 initial_env initial_env (.symbol 3)
      (.pair (.number 1) (.number 2)) (.fn .plus) (by decide) (by decide) (by decide)).2
      (by decide) (by decide),
    (application_type_errors initial_table 1 initial_env initial_env (.number 1)
      (.pair (.number 2) nil) (.number 1) (by decide) (by decide) (by decide)).1 (by decide),
    by decide⟩

/-! ## The recursion budget of the evaluator -/

theorem nth_size (args : Value) (k : Nat) (x : Value) (h : nth args k = .ok x) :
    sizeOf x < sizeOf args := by
  induction k generalizing args with
  | zero =>
    cases args <;> simp [nth, car] at h
    subst h
    simp only [Value.pair.sizeOf_spec]
    omega
  | succ k ih =>
    cases args with
    | pair a d =>
      simp only [nth, cdr] at h
      have := ih d h
      simp only [Value.pair.sizeOf_spec]
      omega
    | _ => simp [nth, cdr] at h

/-- With a budget above the size of the expression the evaluator never runs
out of budget. -/
theorem evaluate_total (tbl : SymTab) (fuel : Nat) :
    (∀ v env, sizeOf v < fuel → evaluate tbl fuel v env ≠ none) ∧
    (∀ cur env acc, sizeOf cur < fuel → evaluate_args tbl fuel cur env acc ≠ none) := by
  induction fuel with
  | zero =>
    constructor
    · intro v env h; omega
    · intro cur env acc h; omega
  | succ fuel ih =>
    obtain ⟨ihE, ihA⟩ := ih
    constructor
    · intro v env hsz
      cases v with
      | number n => rw [evaluate]; simp
      | fn f => rw [evaluate]; simp
      | symbol i =>
        rw [evaluate]
        split
        · split <;> simp
        · simp
      | pair head args =>
        simp only [Value.pair.sizeOf_spec] at hsz
        rw [evaluate]
        split
        · split
          · simp
          · split
            · simp
            · rename_i cond hcond
              have h1 := nth_size _ _ _ hcond
              have hne := ihE cond env (by omega)
              split
              · rename_i hev; exact absurd hev hne
              · simp
              · split
                · simp
                · rename_i branch hbranch
                  have h2 := nth_size _ _ _ hbranch
                  exact ihE branch _ (by omega)
        · split
          · split
            · simp
            · split
              · simp
              · split
                · simp
                · split
                  · simp
                  · rename_i rhs hrhs
                    have h1 := nth_size _ _ _ hrhs
                    have hne := ihE rhs env (by omega)
                    split
                    · rename_i hev; exact absurd hev hne
                    · simp
                    · simp
          · have hne := ihE head env (by omega)
            split
            · rename_i hev; exact absurd hev hne
            · simp
            · split
              · split
                · simp
                · have hna := fun e => ihA args e [] (by omega)
                  split
                  · rename_i hev; exact absurd hev (hna _)
                  · simp
                  · simp
              · simp
    · intro cur env acc hsz
      rw [evaluate_args]
      split
      · simp
      · cases cur with
        | pair operand next =>
          simp only [Value.pair.sizeOf_spec] at hsz
          simp only [car, cdr]
          have hne := ihE operand env (by omega)
          split
          · rename_i hev; exact absurd hev hne
          · simp
          · exact ihA next _ _ (by omega)
        | _ => simp [car]

/-- A larger budget does not change an outcome already reached. -/
theorem evaluate_mono_step (tbl : SymTab) (fuel : Nat) :
    (∀ v env r, evaluate tbl fuel v env = some r → evaluate tbl (fuel + 1) v env = some r) ∧
    (∀ cur env acc r, evaluate_args tbl fuel cur env acc = some r →
      evaluate_args tbl (fuel + 1) cur env acc = some r) := by
  induction fuel with
  | zero =>
    constructor
    · intro v env r h; simp [evaluate] at h
    · intro cur env acc r h; simp [evaluate_args] at h
  | succ fuel ih =>
    obtain ⟨ihE, ihA⟩ := ih
    constructor
    · intro v env r h
      cases v with
      | number n => rw [evaluate] at h ⊢; exact h
      | fn f => rw [evaluate] at h ⊢; exact h
      | symbol i => rw [evaluate] at h ⊢; exact h
      | pair head args =>
        rw [evaluate] at h ⊢
        split at h
        · rename_i hif
          rw [if_pos hif]
          split at h
          · exact h
          · split at h
            · exact h
            · split at h
              · simp at h
              · rename_i hev; rw [ihE _ _ _ hev]; exact h
              · rename_i hev; rw [ihE _ _ _ hev]
                simp only
                split at h
                · exact h
                · exact ihE _ _ _ h
        · rename_i hif
          rw [if_neg hif]
          split at h
          · rename_i hdef
            rw [if_pos hdef]
            split at h
            · exact h
            · split at h
              · exact h
              · split at h
                · rename_i hs; rw [if_pos hs]; exact h
                · rename_i hs; rw [if_neg hs]
                  split at h
                  · exact h
                  · split at h
                    · simp at h
                    · rename_i hev; rw [ihE _ _ _ hev]; exact h
                    · rename_i hev; rw [ihE _ _ _ hev]; exact h
          · rename_i hdef
            rw [if_neg hdef]
            split at h
            · simp at h
            · rename_i hev; rw [ihE _ _ _ hev]; exact h
            · rename_i hev; rw [ihE _ _ _ hev]
              simp only
              split at h
              · split at h
                · rename_i hl; rw [if_pos hl]; exact h
                · rename_i hl; rw [if_neg hl]
                  split at h
                  · simp at h
                  · rename_i hea; rw [ihA _ _ _ _ hea]; exact h
                  · rename_i hea; rw [ihA _ _ _ _ hea]; exact h
              · exact h
    · intro cur env acc r h
      rw [evaluate_args] at h ⊢
      split at h
      · rename_i hnil; rw [if_pos hnil]; exact h
      · rename_i hnil; rw [if_neg hnil]
        split at h
        · exact h
        · split at h
          · simp at h
          · rename_i hev; rw [ihE _ _ _ hev]; exact h
          · rename_i hev; rw [ihE _ _ _ hev]
            simp only
            split at h
            · exact h
            · exact ihA _ _ _ _ h

theorem evaluate_mono (tbl : SymTab) (fuel fuel' : Nat) (hle : fuel ≤ fuel') (v : Value)
    (env : Env) (r : Except Err Value × Env) (h : evaluate tbl fuel v env = some r) :
    evaluate tbl fuel' v env = some r := by
  induction hle with
  | refl => exact h
  | step _ ih => exact (evaluate_mono_step tbl _).1 v env r ih

/-! ## Reader lemmas -/

theorem skip_space_length_le (input : Str) : (skip_space input).length ≤ input.length := by
  induction input with
  | nil => simp [skip_space]
  | cons c cs ih =>
    simp only [skip_space]
    split
    · simp only [List.length_cons]; omega
    · exact Nat.le_refl _

theorem skip_space_head (input : Str) (c : Char) (cs : Str)
    (h : skip_space input = c :: cs) : isspace c = false := by
  induction input with
  | nil => simp [skip_space] at h
  | cons x xs ih =>
    simp only [skip_space] at h
    split at h
    · exact ih h
    · rename_i hx
      simp only [List.cons.injEq] at h
      rw [← h.1]
      simpa using hx

theorem next_char_ok (input : Str) (c : Char) (cs : Str)
    (h : next_char input = .ok (c, cs)) : skip_space input = c :: cs := by
  unfold next_char at h
  split at h
  · simp at h
  · rename_i c' cs' heq
    simp only [Except.ok.injEq, Prod.mk.injEq] at h
    rw [heq, h.1, h.2]

theorem next_char_length (input : Str) (c : Char) (cs : Str)
    (h : next_char input = .ok (c, cs)) : cs.length < input.length := by
  have h1 := next_char_ok input c cs h
  have h2 := skip_space_length_le input
  rw [h1] at h2
  simp only [List.length_cons] at h2
  omega

theorem scan_atom_eq (saw : Bool) (input : Str) :
    scan_atom saw input =
      (input.takeWhile (fun c => !is_special c),
       saw || (input.takeWhile (fun c => !is_special c)).any (fun c => !isdigit c),
       input.dropWhile (fun c => !is_special c)) := by
  induction input generalizing saw with
  | nil => simp [scan_atom]
  | cons c cs ih =>
    simp only [scan_atom]
    by_cases h : is_special c = true
    · simp [h, List.takeWhile, List.dropWhile]
    · simp only [h, if_false, ih]
      simp only [Bool.not_eq_true] at h
      simp [h, List.takeWhile, List.dropWhile, Bool.or_assoc]

theorem dropWhile_length_le (p : Char → Bool) (l : Str) : (l.dropWhile p).length ≤ l.length := by
  induction l with
  | nil => simp
  | cons c cs ih =>
    simp only [List.dropWhile]
    split
    · simp only [List.length_cons]; omega
    · exact Nat.le_refl _

/-- One step of `parse_expression`, the token loop written with `takeWhile` and
`dropWhile`. -/
theorem parse_expression_succ (fuel : Nat) (input : Str) (tbl : SymTab) :
    parse_expression (fuel + 1) input tbl =
      match next_char input with
      | .error e => some (.error e, tbl)
      | .ok (next, after) =>
        if next = '(' then parse_list fuel after tbl []
        else if next = ')' then
          some (.error (.runtime_error "improper end to list".toList), tbl)
        else
          if (false || ((next :: after).takeWhile (fun c => !is_special c)).any
              (fun c => !isdigit c)) = true then
            some (.ok ((get_symbol ((next :: after).takeWhile (fun c => !is_special c)) tbl).1,
              (next :: after).dropWhile (fun c => !is_special c)),
              (get_symbol ((next :: after).takeWhile (fun c => !is_special c)) tbl).2)
          else
            match stoi ((next :: after).takeWhile (fun c => !is_special c)) with
            | .error e => some (.error e, tbl)
            | .ok n => some (.ok (int2value n,
                (next :: after).dropWhile (fun c => !is_special c)), tbl) := by
  rw [parse_expression]
  cases next_char input with
  | error e => rfl
  | ok p =>
    obtain ⟨next, after⟩ := p
    simp only [scan_atom_eq]

theorem parse_list_succ (fuel : Nat) (input : Str) (tbl : SymTab) (contents : List Value) :
    parse_list (fuel + 1) input tbl contents =
      match next_char input with
      | .error e => some (.error e, tbl)
      | .ok (next, after) =>
        if next = ')' then some (.ok (build_list contents nil, after), tbl)
        else if next = '.' then
          if contents.length = 0 then
            some (.error (.runtime_error "leading . in list".toList), tbl)
          else
            match parse_expression fuel after tbl with
            | none => none
            | some (.error e, table1) => some (.error e, table1)
            | some (.ok (end_, rest), table1) =>
              match next_char rest with
              | .error e => some (.error e, table1)
              | .ok (close, after_close) =>
                if close ≠ ')' then
                  some (.error (.runtime_error "improper improper list".toList), table1)
                else some (.ok (build_list contents end_, after_close), table1)
        else
          match parse_expression fuel (next :: after) tbl with
          | none => none
          | some (.error e, table1) => some (.error e, table1)
          | some (.ok (item, rest), table1) => parse_list fuel rest table1 (contents ++ [item]) := by
  rw [parse_list]

theorem parse_length (fuel : Nat) :
    (∀ input tbl v rest tbl', parse_expression fuel input tbl = some (.ok (v, rest), tbl') →
      rest.length < input.length) ∧
    (∀ input tbl contents v rest tbl',
      parse_list fuel input tbl contents = some (.ok (v, rest), tbl') →
      rest.length < input.length) := by
  induction fuel with
  | zero =>
    constructor
    · intro input tbl v rest tbl' h; simp [parse_expression] at h
    · intro input tbl contents v rest tbl' h; simp [parse_list] at h
  | succ fuel ih =>
    obtain ⟨ihE, ihL⟩ := ih
    constructor
    · intro input tbl v rest tbl' h
      rw [parse_expression_succ] at h
      cases hn : next_char input with
      | error e => rw [hn] at h; simp at h
      | ok p =>
        obtain ⟨next, after⟩ := p
        have hlen := next_char_length input next after hn
        have hsk := next_char_ok input next after hn
        rw [hn] at h
        simp only at h
        split at h
        · have := ihL _ _ _ _ _ _ h
          omega
        · split at h
          · simp at h
          · rename_i h1 h2
            have hsp : is_special next = false := by
              have := skip_space_head input next after hsk
              simp [is_special, h1, h2, this]
            have hd : ((next :: after).dropWhile (fun c => !is_special c)).length
                ≤ after.length := by
              simp only [List.dropWhile, hsp, Bool.not_false]
              exact dropWhile_length_le _ _
            split at h
            · simp only [Option.some.injEq, Prod.mk.injEq, Except.ok.injEq] at h
              rw [← h.1.2]
              omega
            · split at h
              · simp at h
              · simp only [Option.some.injEq, Prod.mk.injEq, Except.ok.injEq] at h
                rw [← h.1.2]
                omega
    · intro input tbl contents v rest tbl' h
      rw [parse_list_succ] at h
      cases hn : next_char input with
      | error e => rw [hn] at h; simp at h
      | ok p =>
        obtain ⟨next, after⟩ := p
        have hlen := next_char_length input next after hn
        have hsk := next_char_ok input next after hn
        have hsl := skip_space_length_le input
        rw [hsk] at hsl
        simp only [List.length_cons] at hsl
        rw [hn] at h
        simp only at h
        split at h
        · simp only [Option.some.injEq, Prod.mk.injEq, Except.ok.injEq] at h
          rw [← h.1.2]
          omega
        · split at h
          · split at h
            · simp at h
            · split at h
              · simp at h
              · simp at h
              · rename_i end_ rest1 table1 hpe
                have h1 := ihE _ _ _ _ _ hpe
                split at h
                · simp at h
                · rename_i close after_close hnc
                  have h2 := next_char_length _ _ _ hnc
                  split at h
                  · simp at h
                  · simp only [Option.some.injEq, Prod.mk.injEq, Except.ok.injEq] at h
                    rw [← h.1.2]
                    omega
          · split at h
            · simp at h
            · simp at h
            · rename_i item rest1 table1 hpe
              have h1 := ihE _ _ _ _ _ hpe
              have h2 := ihL _ _ _ _ _ _ h
              simp only [List.length_cons] at h1
              omega

theorem parse_adequate (fuel : Nat) :
    (∀ input tbl, 2 * input.length + 1 ≤ fuel → parse_expression fuel input tbl ≠ none) ∧
    (∀ input tbl contents, 2 * input.length + 2 ≤ fuel →
      parse_list fuel input tbl contents ≠ none) := by
  induction fuel with
  | zero =>
    constructor
    · intro input tbl h; omega
    · intro input tbl contents h; omega
  | succ fuel ih =>
    obtain ⟨ihE, ihL⟩ := ih
    constructor
    · intro input tbl hf
      rw [parse_expression_succ]
      cases hn : next_char input with
      | error e => simp
      | ok p =>
        obtain ⟨next, after⟩ := p
        have hlen := next_char_length input next after hn
        simp only
        split
        · exact ihL _ _ _ (by omega)
        · split
          · simp
          · split
            · simp
            · split <;> simp
    · intro input tbl contents hf
      rw [parse_list_succ]
      cases hn : next_char input with
      | error e => simp
      | ok p =>
        obtain ⟨next, after⟩ := p
        have hlen := next_char_length input next after hn
        have hsk := next_char_ok input next after hn
        have hsl := skip_space_length_le input
        rw [hsk] at hsl
        simp only [List.length_cons] at hsl
        simp only
        split
        · simp
        · split
          · split
            · simp
            · have hne := ihE after tbl (by omega)
              split
              · rename_i hpe; exact absurd hpe hne
              · simp
              · split
                · simp
                · split <;> simp
          · have hne := ihE (next :: after) tbl (by simp only [List.length_cons]; omega)
            split
            · rename_i hpe; exact absurd hpe hne
            · simp
            · rename_i item rest1 table1 hpe
              have h1 := (parse_length fuel).1 _ _ _ _ _ hpe
              simp only [List.length_cons] at h1
              exact ihL _ _ _ (by omega)

/-! ## What the reader builds -/

theorem int2value_of_int (n : Int) (h₁ : 0 ≤ n) (h₂ : n ≤ 2147483647) :
    int2value n = .number n := by
  rw [int2value, Word.value2int_int2value n (by omega) (by omega)]

theorem stoi_range (token : Str) (n : Int) (h : stoi token = .ok n) :
    0 ≤ n ∧ n ≤ 2147483647 := by
  unfold stoi at h
  simp only at h
  split at h
  · simp only [Except.ok.injEq] at h
    rw [← h]
    omega
  · simp at h

theorem table_ok_get_symbol (token : Str) (tbl : SymTab) (ht : table_ok tbl)
    (hs : symbol_token token = true) : table_ok (get_symbol token tbl).2 := by
  by_cases h : token ∈ tbl
  · rw [get_symbol_of_mem token tbl h]; exact ht
  · rw [get_symbol_of_not_mem token tbl h]
    refine ⟨ht.1.trans ⟨[token], rfl⟩, ?_⟩
    intro name hn
    rcases List.mem_append.mp hn with hn | hn
    · exact ht.2 name hn
    · simp only [List.mem_singleton] at hn
      rw [hn]; exact hs

theorem get_symbol_extends (token : Str) (tbl : SymTab) :
    tbl <+: (get_symbol token tbl).2 := by
  by_cases h : token ∈ tbl
  · rw [get_symbol_of_mem token tbl h]
  · rw [get_symbol_of_not_mem token tbl h]
    exact ⟨[token], rfl⟩

theorem get?_of_extends (tbl tbl' : SymTab) (h : tbl <+: tbl') (i : Nat) (name : Str)
    (hi : tbl.get? i = some name) : tbl'.get? i = some name := by
  obtain ⟨ext, rfl⟩ := h
  have hlt : i < tbl.length := (List.get?_eq_some.mp hi).1
  rw [List.get?_append hlt, hi]

theorem mem_of_get? (tbl : SymTab) (i : Nat) (name : Str) (hi : tbl.get? i = some name) :
    name ∈ tbl := List.get?_mem hi

theorem readable_mono (tbl tbl' : SymTab) (h : tbl <+: tbl') (v : Value)
    (hv : readable tbl v) : readable tbl' v := by
  induction v with
  | number n => exact hv
  | fn f => exact hv
  | symbol i =>
    obtain ⟨name, h1, h2⟩ := hv
    refine ⟨name, get?_of_extends tbl tbl' h i name h1, ?_⟩
    obtain ⟨ext, rfl⟩ := h
    rw [find_index_append name tbl ext (mem_of_get? tbl i name h1), h2]
  | pair a d iha ihd =>
    obtain ⟨h1, h2, h3⟩ := hv
    refine ⟨iha h1, ?_, ihd h3⟩
    cases a with
    | symbol i =>
      obtain ⟨name, hn1, _⟩ := h1
      intro name' hn'
      have := get?_of_extends tbl tbl' h i name hn1
      rw [this] at hn'
      simp only [Option.some.injEq] at hn'
      rw [← hn']
      exact h2 name hn1
    | _ => trivial

theorem elem_ok_mono (tbl tbl' : SymTab) (h : tbl <+: tbl') (v : Value)
    (hv : readable tbl v) (he : elem_ok tbl v) : elem_ok tbl' v := by
  cases v with
  | symbol i =>
    obtain ⟨name, hn1, _⟩ := hv
    intro name' hn'
    have := get?_of_extends tbl tbl' h i name hn1
    rw [this] at hn'
    simp only [Option.some.injEq] at hn'
    rw [← hn']
    exact he name hn1
  | _ => trivial

theorem table_ok_head (tbl : SymTab) (ht : table_ok tbl) :
    tbl.get? 0 = some "nil".toList := by
  obtain ⟨ext, rfl⟩ := ht.1
  rfl

theorem readable_nil (tbl : SymTab) (ht : table_ok tbl) : readable tbl nil := by
  refine ⟨"nil".toList, table_ok_head tbl ht, ?_⟩
  obtain ⟨ext, rfl⟩ := ht.1
  rfl

theorem elem_ok_nil (tbl : SymTab) (ht : table_ok tbl) : elem_ok tbl nil := by
  intro name hn
  have := table_ok_head tbl ht
  change tbl.get? 0 = some name at hn
  rw [this] at hn
  simp only [Option.some.injEq] at hn
  rw [← hn]
  decide

theorem readable_build_list (tbl : SymTab) (contents : List Value) (e : Value)
    (hc : ∀ x ∈ contents, readable tbl x ∧ elem_ok tbl x) (he : readable tbl e) :
    readable tbl (build_list contents e) := by
  induction contents with
  | nil => exact he
  | cons x xs ih =>
    have hx := hc x (List.mem_cons_self _ _)
    exact ⟨hx.1, hx.2, ih (fun y hy => hc y (List.mem_cons_of_mem _ hy))⟩

theorem elem_ok_build_list (tbl : SymTab) (contents : List Value) (e : Value)
    (he : contents = [] → elem_ok tbl e) : elem_ok tbl (build_list contents e) := by
  cases contents with
  | nil => exact he rfl
  | cons x xs => trivial

theorem takeWhile_symbol_token (input : Str)
    (h : (false || (input.takeWhile (fun c => !is_special c)).any (fun c => !isdigit c)) = true) :
    symbol_token (input.takeWhile (fun c => !is_special c)) = true := by
  simp only [Bool.false_or] at h
  unfold symbol_token
  rw [h, Bool.and_true, List.all_eq_true]
  intro c hc
  exact List.mem_takeWhile_imp (p := fun c => !is_special c) hc

theorem parse_readable (fuel : Nat) :
    (∀ input tbl v rest tbl', table_ok tbl →
      parse_expression fuel input tbl = some (.ok (v, rest), tbl') →
      table_ok tbl' ∧ tbl <+: tbl' ∧ readable tbl' v ∧
      (∀ c cs, skip_space input = c :: cs → c ≠ '.' → elem_ok tbl' v)) ∧
    (∀ input tbl contents v rest tbl', table_ok tbl →
      (∀ x ∈ contents, readable tbl x ∧ elem_ok tbl x) →
      parse_list fuel input tbl contents = some (.ok (v, rest), tbl') →
      table_ok tbl' ∧ tbl <+: tbl' ∧ readable tbl' v ∧ elem_ok tbl' v) := by
  induction fuel with
  | zero =>
    constructor
    · intro input tbl v rest tbl' _ h; simp [parse_expression] at h
    · intro input tbl contents v rest tbl' _ _ h; simp [parse_list] at h
  | succ fuel ih =>
    obtain ⟨ihE, ihL⟩ := ih
    constructor
    · intro input tbl v rest tbl' ht h
      rw [parse_expression_succ] at h
      cases hn : next_char input with
      | error e => rw [hn] at h; simp at h
      | ok p =>
        obtain ⟨next, after⟩ := p
        have hsk := next_char_ok input next after hn
        rw [hn] at h
        simp only at h
        split at h
        · obtain ⟨h1, h2, h3, h4⟩ := ihL _ _ _ _ _ _ ht (by simp) h
          exact ⟨h1, h2, h3, fun _ _ _ _ => h4⟩
        · split at h
          · simp at h
          · rename_i h1 h2
            have hsp : is_special next = false := by
              have := skip_space_head input next after hsk
              simp [is_special, h1, h2, this]
            split at h
            · rename_i hsaw
              have htok := takeWhile_symbol_token _ hsaw
              simp only [Option.some.injEq, Prod.mk.injEq, Except.ok.injEq] at h
              obtain ⟨⟨hv, _⟩, htbl⟩ := h
              have hmem := mem_get_symbol ((next :: after).takeWhile (fun c => !is_special c)) tbl
              rw [htbl] at hmem
              have hfst := get_symbol_fst
                ((next :: after).takeWhile (fun c => !is_special c)) tbl
              rw [hv, htbl] at hfst
              have hget := get?_find_index _ _ hmem
              refine ⟨htbl ▸ table_ok_get_symbol _ tbl ht htok, htbl ▸ get_symbol_extends _ tbl,
                ?_, ?_⟩
              · rw [hfst]
                exact ⟨_, hget, rfl⟩
              · intro c cs hc hdot
                rw [hfst]
                intro name hname
                rw [hget] at hname
                simp only [Option.some.injEq] at hname
                rw [← hname]
                rw [hsk] at hc
                simp only [List.cons.injEq] at hc
                simp only [List.takeWhile, hsp, Bool.not_false, List.head?_cons]
                rw [hc.1]
                simpa using hdot
            · split at h
              · simp at h
              · rename_i n hstoi
                simp only [Option.some.injEq, Prod.mk.injEq, Except.ok.injEq] at h
                obtain ⟨⟨hv, _⟩, htbl⟩ := h
                have hr := stoi_range _ n hstoi
                rw [int2value_of_int n hr.1 hr.2] at hv
                rw [← hv, ← htbl]
                exact ⟨ht, ⟨[], List.append_nil _⟩, hr, fun _ _ _ _ => trivial⟩
    · intro input tbl contents v rest tbl' ht hc h
      rw [parse_list_succ] at h
      cases hn : next_char input with
      | error e => rw [hn] at h; simp at h
      | ok p =>
        obtain ⟨next, after⟩ := p
        have hsk := next_char_ok input next after hn
        rw [hn] at h
        simp only at h
        split at h
        · simp only [Option.some.injEq, Prod.mk.injEq, Except.ok.injEq] at h
          obtain ⟨⟨hv, _⟩, htbl⟩ := h
          rw [← hv, ← htbl]
          exact ⟨ht, ⟨[], List.append_nil _⟩, readable_build_list tbl contents nil hc (readable_nil tbl ht),
            elem_ok_build_list tbl contents nil (fun _ => elem_ok_nil tbl ht)⟩
        · split at h
          · split at h
            · simp at h
            · rename_i hlen
              split at h
              · simp at h
              · simp at h
              · rename_i end_ rest1 table1 hpe
                obtain ⟨h1, h2, h3, _⟩ := ihE _ _ _ _ _ ht hpe
                split at h
                · simp at h
                · split at h
                  · simp at h
                  · simp only [Option.some.injEq, Prod.mk.injEq, Except.ok.injEq] at h
                    obtain ⟨⟨hv, _⟩, htbl⟩ := h
                    rw [← hv, ← htbl]
                    refine ⟨h1, h2, readable_build_list table1 contents end_ ?_ h3,
                      elem_ok_build_list table1 contents end_ ?_⟩
                    · intro x hx
                      exact ⟨readable_mono tbl table1 h2 x (hc x hx).1,
                        elem_ok_mono tbl table1 h2 x (hc x hx).1 (hc x hx).2⟩
                    · intro hnil
                      rw [hnil] at hlen
                      simp at hlen
          · rename_i hclose hdot
            split at h
            · simp at h
            · simp at h
            · rename_i item rest1 table1 hpe
              obtain ⟨h1, h2, h3, h4⟩ := ihE _ _ _ _ _ ht hpe
              have hsk' : skip_space (next :: after) = next :: after := by
                have := skip_space_head input next after hsk
                simp [skip_space, this]
              have hitem := h4 next after hsk' hdot
              obtain ⟨g1, g2, g3, g4⟩ := ihL _ _ _ _ _ _ h1 (by
                intro x hx
                rcases List.mem_append.mp hx with hx | hx
                · exact ⟨readable_mono tbl table1 h2 x (hc x hx).1,
                    elem_ok_mono tbl table1 h2 x (hc x hx).1 (hc x hx).2⟩
                · simp only [List.mem_singleton] at hx
                  rw [hx]; exact ⟨h3, hitem⟩) h
              exact ⟨g1, h2.trans g2, g3, g4⟩

/-! ## Printing and reading back -/

theorem digit_char_spec : ∀ d, d < 10 →
    isdigit (digit_char d) = true ∧ digit_val (digit_char d) = d := by
  decide

theorem digits_loop_spec (fuel n : Nat) (acc : Str) (h : n < fuel) :
    ∃ ds, digits_loop fuel n acc = ds ++ acc ∧ ds ≠ [] ∧ (∀ c ∈ ds, isdigit c = true) ∧
      ds.foldl (fun a c => a * 10 + digit_val c) 0 = n := by
  induction fuel generalizing n acc with
  | zero => omega
  | succ fuel ih =>
    rw [digits_loop]
    by_cases hn : n < 10
    · rw [if_pos hn]
      refine ⟨[digit_char n], rfl, by simp, ?_, ?_⟩
      · intro c hc
        simp only [List.mem_singleton] at hc
        rw [hc]; exact (digit_char_spec n hn).1
      · simp [(digit_char_spec n hn).2]
    · rw [if_neg hn]
      obtain ⟨ds, h1, h2, h3, h4⟩ := ih (n / 10) (digit_char (n % 10) :: acc) (by omega)
      have hm : n % 10 < 10 := Nat.mod_lt _ (by norm_num)
      refine ⟨ds ++ [digit_char (n % 10)], ?_, by simp, ?_, ?_⟩
      · rw [h1]; simp
      · intro c hc
        rcases List.mem_append.mp hc with hc | hc
        · exact h3 c hc
        · simp only [List.mem_singleton] at hc
          rw [hc]; exact (digit_char_spec _ hm).1
      · rw [List.foldl_append, h4]
        simp only [List.foldl_cons, List.foldl_nil, (digit_char_spec _ hm).2]
        omega

theorem to_string_spec (n : Int) (h₁ : 0 ≤ n) (h₂ : n ≤ 2147483647) :
    to_string n ≠ [] ∧ (∀ c ∈ to_string n, isdigit c = true) ∧ stoi (to_string n) = .ok n := by
  unfold to_string
  rw [if_neg (by omega)]
  obtain ⟨ds, h1, h2, h3, h4⟩ := digits_loop_spec (n.toNat + 1) n.toNat [] (by omega)
  rw [h1, List.append_nil]
  refine ⟨h2, h3, ?_⟩
  unfold stoi
  simp only [h4]
  rw [if_pos (by omega)]
  congr 1
  omega

theorem not_special_of_isdigit (c : Char) (h : isdigit c = true) :
    is_special c = false ∧ c ≠ '.' := by
  constructor
  · by_contra hs
    simp only [Bool.not_eq_false, is_special, isspace, Bool.or_eq_true, decide_eq_true_eq] at hs
    rcases hs with (hs | hs) | ((((hs | hs) | hs) | hs) | hs) | hs <;> subst hs <;>
      exact absurd h (by decide)
  · intro hs
    subst hs
    exact absurd h (by decide)

theorem not_special_spec (c : Char) (h : is_special c = false) :
    isspace c = false ∧ c ≠ '(' ∧ c ≠ ')' := by
  simp only [is_special, Bool.or_eq_false_iff, decide_eq_false_iff_not] at h
  exact ⟨h.2, h.1.1, h.1.2⟩

/-- The token loop stops exactly at the end of a token that is followed by the
end of the text, a parenthesis or whitespace. -/
theorem takeWhile_token (token rest : Str) (ht : ∀ c ∈ token, is_special c = false)
    (hr : ∀ c cs, rest = c :: cs → is_special c = true) :
    (token ++ rest).takeWhile (fun c => !is_special c) = token ∧
    (token ++ rest).dropWhile (fun c => !is_special c) = rest := by
  induction token with
  | nil =>
    cases rest with
    | nil => simp
    | cons c cs => simp [List.takeWhile, List.dropWhile, hr c cs rfl]
  | cons c cs ih =>
    have hc := ht c (List.mem_cons_self _ _)
    have := ih (fun x hx => ht x (List.mem_cons_of_mem _ hx))
    simp [List.takeWhile, List.dropWhile, hc, this]

theorem next_char_cons (c : Char) (cs : Str) (h : isspace c = false) :
    next_char (c :: cs) = .ok (c, cs) := by
  simp [next_char, skip_space, h]

theorem next_char_space (c : Char) (cs : Str) (h : isspace c = true) :
    next_char (c :: cs) = next_char cs := by
  simp [next_char, skip_space, h]

theorem parse_expression_space (fuel : Nat) (c : Char) (input : Str) (tbl : SymTab)
    (h : isspace c = true) :
    parse_expression fuel (c :: input) tbl = parse_expression fuel input tbl := by
  cases fuel with
  | zero => simp [parse_expression]
  | succ fuel => rw [parse_expression_succ, parse_expression_succ, next_char_space c input h]

theorem parse_list_space (fuel : Nat) (c : Char) (input : Str) (tbl : SymTab)
    (contents : List Value) (h : isspace c = true) :
    parse_list fuel (c :: input) tbl contents = parse_list fuel input tbl contents := by
  cases fuel with
  | zero => simp [parse_list]
  | succ fuel => rw [parse_list_succ, parse_list_succ, next_char_space c input h]

theorem symbol_token_spec (name : Str) (h : symbol_token name = true) :
    (∀ c ∈ name, is_special c = false) ∧ name.any (fun c => !isdigit c) = true ∧
    ∃ c cs, name = c :: cs := by
  simp only [symbol_token, Bool.and_eq_true, List.all_eq_true] at h
  refine ⟨fun c hc => by simpa using h.1 c hc, h.2, ?_⟩
  cases name with
  | nil => simp at h
  | cons c cs => exact ⟨c, cs, rfl⟩

theorem parse_atom_symbol (fuel : Nat) (name rest : Str) (tbl : SymTab)
    (hs : symbol_token name = true) (hm : name ∈ tbl)
    (hr : ∀ c cs, rest = c :: cs → is_special c = true) :
    parse_expression (fuel + 1) (name ++ rest) tbl
      = some (.ok (.symbol (find_index name tbl), rest), tbl) := by
  obtain ⟨h1, h2, c, cs, rfl⟩ := symbol_token_spec name hs
  have hc := not_special_spec c (h1 c (List.mem_cons_self _ _))
  have htw := takeWhile_token (c :: cs) rest h1 hr
  rw [parse_expression_succ, List.cons_append, next_char_cons c _ hc.1]
  simp only [if_neg hc.2.1, if_neg hc.2.2]
  rw [← List.cons_append, htw.1, htw.2, h2]
  simp only [Bool.or_true, if_true, get_symbol_of_mem _ tbl hm]

theorem parse_atom_number (fuel : Nat) (n : Int) (rest : Str) (tbl : SymTab)
    (h₁ : 0 ≤ n) (h₂ : n ≤ 2147483647)
    (hr : ∀ c cs, rest = c :: cs → is_special c = true) :
    parse_expression (fuel + 1) (to_string n ++ rest) tbl
      = some (.ok (.number n, rest), tbl) := by
  obtain ⟨hne, hd, hstoi⟩ := to_string_spec n h₁ h₂
  have h1 : ∀ c ∈ to_string n, is_special c = false :=
    fun c hc => (not_special_of_isdigit c (hd c hc)).1
  have htw := takeWhile_token (to_string n) rest h1 hr
  obtain ⟨c, cs, hcs⟩ : ∃ c cs, to_string n = c :: cs := by
    cases hts : to_string n with
    | nil => exact absurd hts hne
    | cons c cs => exact ⟨c, cs, rfl⟩
  have hc := not_special_spec c (h1 c (by rw [hcs]; exact List.mem_cons_self _ _))
  have hany : (to_string n).any (fun c => !isdigit c) = false := by
    rw [List.any_eq_false]
    intro x hx
    simp [hd x hx]
  rw [parse_expression_succ]
  rw [hcs] at htw hstoi hany ⊢
  rw [List.cons_append, next_char_cons c _ hc.1]
  simp only [if_neg hc.2.1, if_neg hc.2.2]
  rw [← List.cons_append, htw.1, htw.2, hany, hstoi]
  simp [int2value_of_int n h₁ h₂]

theorem parse_list_dotted (tbl : SymTab) (s : Str) (v : Value)
    (hP : ∀ fuel rest, (∀ c cs, rest = c :: cs → is_special c = true) →
      parse_expression fuel (s ++ rest) tbl = none ∨
      parse_expression fuel (s ++ rest) tbl = some (.ok (v, rest), tbl))
    (fuel : Nat) (contents : List Value) (rest : Str) (hc : contents ≠ []) :
    parse_list fuel (" . ".toList ++ s ++ ')' :: rest) tbl contents = none ∨
    parse_list fuel (" . ".toList ++ s ++ ')' :: rest) tbl contents
      = some (.ok (build_list contents v, rest), tbl) := by
  cases fuel with
  | zero => left; simp [parse_list]
  | succ fuel =>
    have hin : " . ".toList ++ s ++ ')' :: rest = ' ' :: '.' :: ' ' :: (s ++ ')' :: rest) := by
      simp
    have hlen : contents.length ≠ 0 := by
      intro h; exact hc (List.length_eq_zero.mp h)
    rw [hin, parse_list_succ, next_char_space ' ' _ (by decide), next_char_cons '.' _ (by decide)]
    simp only [if_neg hlen, if_true]
    rw [parse_expression_space fuel ' ' _ tbl (by decide)]
    rcases hP fuel (')' :: rest) (fun c cs h => by
      simp only [List.cons.injEq] at h; rw [← h.1]; decide) with h | h
    · left; rw [h]; simp
    · right
      rw [h]
      simp only [next_char_cons ')' rest (by decide)]
      simp

theorem print_parse (tbl : SymTab) (ht : table_ok tbl) (v : Value) (hv : readable tbl v) :
    (∃ s, value2string tbl v = .ok s ∧
      (∃ c cs, s = c :: cs ∧ isspace c = false ∧ c ≠ ')' ∧ (elem_ok tbl v → c ≠ '.')) ∧
      ∀ fuel rest, (∀ c cs, rest = c :: cs → is_special c = true) →
        parse_expression fuel (s ++ rest) tbl = none ∨
        parse_expression fuel (s ++ rest) tbl = some (.ok (v, rest), tbl)) ∧
    (∃ r, value2string_rest tbl v = .ok r ∧
      (∀ rest c cs, r ++ ')' :: rest = c :: cs → is_special c = true) ∧
      ∀ fuel contents rest, contents ≠ [] →
        parse_list fuel (r ++ ')' :: rest) tbl contents = none ∨
        parse_list fuel (r ++ ')' :: rest) tbl contents
          = some (.ok (build_list contents v, rest), tbl)) := by
  induction v with
  | fn f => exact absurd hv (by simp [readable])
  | number n =>
    obtain ⟨h₁, h₂⟩ := hv
    obtain ⟨hne, hd, _⟩ := to_string_spec n h₁ h₂
    obtain ⟨c, cs, hcs⟩ : ∃ c cs, to_string n = c :: cs := by
      cases hts : to_string n with
      | nil => exact absurd hts hne
      | cons c cs => exact ⟨c, cs, rfl⟩
    have hcd := not_special_of_isdigit c (hd c (by rw [hcs]; exact List.mem_cons_self _ _))
    have hc := not_special_spec c hcd.1
    have hP : ∀ fuel rest, (∀ c cs, rest = c :: cs → is_special c = true) →
        parse_expression fuel (to_string n ++ rest) tbl = none ∨
        parse_expression fuel (to_string n ++ rest) tbl = some (.ok (.number n, rest), tbl) := by
      intro fuel rest hr
      cases fuel with
      | zero => left; simp [parse_expression]
      | succ fuel => right; exact parse_atom_number fuel n rest tbl h₁ h₂ hr
    constructor
    · exact ⟨to_string n, by simp [value2string], ⟨c, cs, hcs, hc.1, hc.2.2, fun _ => hcd.2⟩, hP⟩
    · refine ⟨" . ".toList ++ to_string n, by simp [value2string_rest], ?_, ?_⟩
      · intro rest c cs h
        simp only [String.toList, List.cons_append, List.cons.injEq] at h
        rw [← h.1]; decide
      · intro fuel contents rest hcn
        exact parse_list_dotted tbl (to_string n) (.number n) hP fuel contents rest hcn
  | symbol i =>
    obtain ⟨name, hget, hfind⟩ := hv
    have hmem := mem_of_get? tbl i name hget
    have htok := ht.2 name hmem
    obtain ⟨h1, _, c, cs, hcs⟩ := symbol_token_spec name htok
    have hc := not_special_spec c (h1 c (by rw [hcs]; exact List.mem_cons_self _ _))
    have hname : get_symbol_name tbl (.symbol i) = .ok name := by
      simp only [get_symbol_name, hget]
    have hP : ∀ fuel rest, (∀ c cs, rest = c :: cs → is_special c = true) →
        parse_expression fuel (name ++ rest) tbl = none ∨
        parse_expression fuel (name ++ rest) tbl = some (.ok (.symbol i, rest), tbl) := by
      intro fuel rest hr
      cases fuel with
      | zero => left; simp [parse_expression]
      | succ fuel =>
        right
        rw [parse_atom_symbol fuel name rest tbl htok hmem hr, hfind]
    constructor
    · refine ⟨name, by simp [value2string, hname], ⟨c, cs, hcs, hc.1, hc.2.2, ?_⟩, hP⟩
      intro he hdot
      have := he name hget
      rw [hcs, hdot] at this
      simp at this
    · by_cases hnil : Value.symbol i = nil
      · refine ⟨[], by simp [value2string_rest, hnil], ?_, ?_⟩
        · intro rest c cs h
          simp only [List.nil_append, List.cons.injEq] at h
          rw [← h.1]; decide
        · intro fuel contents rest _
          cases fuel with
          | zero => left; simp [parse_list]
          | succ fuel =>
            right
            rw [List.nil_append, parse_list_succ, next_char_cons ')' rest (by decide), hnil]
            simp
      · refine ⟨" . ".toList ++ name, by simp [value2string_rest, hnil, hname], ?_, ?_⟩
        · intro rest c cs h
          simp only [String.toList, List.cons_append, List.cons.injEq] at h
          rw [← h.1]; decide
        · intro fuel contents rest hcn
          exact parse_list_dotted tbl name (.symbol i) hP fuel contents rest hcn
  | pair a d iha ihd =>
    obtain ⟨hra, hea, hrd⟩ := hv
    obtain ⟨⟨sa, hsa, ⟨c, cs, hcs, hc1, hc2, hc3⟩, hPa⟩, _⟩ := iha hra
    obtain ⟨_, ⟨rd, hrd1, hrd2, hQd⟩⟩ := ihd hrd
    have hc3 := hc3 hea
    have hstep : ∀ fuel contents rest,
        parse_list fuel (sa ++ (rd ++ ')' :: rest)) tbl contents = none ∨
        parse_list fuel (sa ++ (rd ++ ')' :: rest)) tbl contents
          = some (.ok (build_list (contents ++ [a]) d, rest), tbl) := by
      intro fuel contents rest
      cases fuel with
      | zero => left; simp [parse_list]
      | succ fuel =>
        rw [parse_list_succ, hcs, List.cons_append, next_char_cons c _ hc1]
        simp only [if_neg hc2, if_neg hc3]
        rw [← List.cons_append, ← hcs]
        rcases hPa fuel (rd ++ ')' :: rest) (hrd2 rest) with h | h
        · left; rw [h]
        · rw [h]
          exact hQd fuel (contents ++ [a]) rest (by simp)
    constructor
    · refine ⟨'(' :: sa ++ rd ++ [')'], by simp [value2string, hsa, hrd1],
        ⟨'(', sa ++ rd ++ [')'], by simp, by decide, by decide, fun _ => by decide⟩, ?_⟩
      intro fuel rest _
      cases fuel with
      | zero => left; simp [parse_expression]
      | succ fuel =>
        have hin : '(' :: sa ++ rd ++ [')'] ++ rest = '(' :: (sa ++ (rd ++ ')' :: rest)) := by
          simp
        rw [hin, parse_expression_succ, next_char_cons '(' _ (by decide)]
        simp only [if_true]
        have := hstep fuel [] rest
        simpa [build_list] using this
    · refine ⟨' ' :: sa ++ rd, by simp [value2string_rest, hsa, hrd1], ?_, ?_⟩
      · intro rest c cs h
        simp only [List.cons_append, List.cons.injEq] at h
        rw [← h.1]; decide
      · intro fuel contents rest _
        have hin : ' ' :: sa ++ rd ++ ')' :: rest = ' ' :: (sa ++ (rd ++ ')' :: rest)) := by
          simp
        rw [hin, parse_list_space fuel ' ' _ tbl contents (by decide)]
        have := hstep fuel contents rest
        simpa [build_list] using this

/-- Every value the reader returns prints to a text that reads back as the same
value, without touching the symbol table. -/
theorem roundtrip_of_parse (symbol_table : SymTab) (t : Str) (v : Value) (rest : Str)
    (table1 : SymTab) (htable : table_ok symbol_table)
    (hparse : parse t symbol_table = some (.ok (v, rest), table1)) :
    ∃ s, value2string table1 v = .ok s ∧ parse s table1 = some (.ok (v, []), table1) := by
  obtain ⟨ht1, _, hr, _⟩ := (parse_readable _).1 t symbol_table v rest table1 htable hparse
  obtain ⟨⟨s, hs, _, hP⟩, _⟩ := print_parse table1 ht1 v hr
  refine ⟨s, hs, ?_⟩
  have hne := (parse_adequate (2 * s.length + 1)).1 s table1 (Nat.le_refl _)
  rcases hP (2 * s.length + 1) [] (fun c cs h => by simp at h) with h | h
  · rw [List.append_nil] at h
    exact absurd h hne
  · rw [List.append_nil] at h
    exact h

/-! ## Claim on the printer and the reader -/

/-- C1. Display/parse round trip: when `parse` succeeds on a text `t`, from a
symbol table the program can reach, with a value `v` that is an atom (number
or symbol) or a proper list of such values nested to any depth, then
`value2string v` is defined and `parse` of that text succeeds, consumes it
entirely, leaves the symbol table as it was and returns `v` itself: the same
tree, with the same symbol identifiers and the same integers. -/
theorem display_parse_roundtrip (symbol_table : SymTab) (t : Str) (v : Value) (rest : Str)
    (table1 : SymTab) (htable : table_ok symbol_table)
    (hparse : parse t symbol_table = some (.ok (v, rest), table1))
    (_hproper : proper_tree v = true) :
    ∃ s, value2string table1 v = .ok s ∧ parse s table1 = some (.ok (v, []), table1) :=
  roundtrip_of_parse symbol_table t v rest table1 htable hparse

/-- Witness of C1: the text `( abc 1 (2  3) () xyz )` read on the table of
`init_env`. -/
theorem display_parse_roundtrip_witness :
    (∃ s, value2string (initial_table ++ ["abc".toList, "xyz".toList])
          (build_list [.symbol 8, .number 1, build_list [.number 2, .number 3] nil, nil,
            .symbol 9] nil) = .ok s ∧
      parse s (initial_table ++ ["abc".toList, "xyz".toList])
        = some (.ok (build_list [.symbol 8, .number 1, build_list [.number 2, .number 3] nil,
            nil, .symbol 9] nil, []), initial_table ++ ["abc".toList, "xyz".toList])) ∧
    value2string (initial_table ++ ["abc".toList, "xyz".toList])
        (build_list [.symbol 8, .number 1, build_list [.number 2, .number 3] nil, nil,
          .symbol 9] nil) = .ok "(abc 1 (2 3) nil xyz)".toList :=
  ⟨display_parse_roundtrip initial_table "( abc 1 (2  3) () xyz )".toList
    (build_list [.symbol 8, .number 1, build_list [.number 2, .number 3] nil, nil,
      .symbol 9] nil) []
    (initial_table ++ ["abc".toList, "xyz".toList]) ⟨by decide, by decide⟩ (by decide)
    (by decide), by decide⟩

/-! ## Arithmetic of the 32-bit accumulator -/

theorem to_int_range (x : Int) : -2 ^ 31 ≤ to_int x ∧ to_int x < 2 ^ 31 := by
  unfold to_int
  split <;> omega

theorem to_int_of_range (x : Int) (h₁ : -2 ^ 31 ≤ x) (h₂ : x < 2 ^ 31) : to_int x = x := by
  unfold to_int
  split <;> omega

theorem to_int_emod (x : Int) : to_int x % 2 ^ 32 = x % 2 ^ 32 := by
  unfold to_int
  split <;> omega

theorem to_int_congr (x y : Int) (h : x % 2 ^ 32 = y % 2 ^ 32) : to_int x = to_int y := by
  unfold to_int
  rw [h]

theorem to_int_idem (x : Int) : to_int (to_int x) = to_int x :=
  to_int_of_range _ (to_int_range x).1 (to_int_range x).2

theorem to_int_add (v a : Int) : to_int (to_int v + a) = to_int (v + a) := by
  apply to_int_congr
  rw [Int.add_emod, to_int_emod, ← Int.add_emod]

theorem to_int_sub (v a : Int) : to_int (to_int v - a) = to_int (v - a) := by
  apply to_int_congr
  rw [Int.sub_emod, to_int_emod, ← Int.sub_emod]

theorem to_int_mul (v a : Int) : to_int (to_int v * a) = to_int (v * a) := by
  apply to_int_congr
  rw [Int.mul_emod, to_int_emod, ← Int.mul_emod]

theorem int2value_in_range (n : Int) (h₁ : -2 ^ 61 ≤ n) (h₂ : n < 2 ^ 61) :
    int2value n = .number n := by
  rw [int2value, Word.value2int_int2value n h₁ h₂]

theorem int2value_to_int (x : Int) : int2value (to_int x) = .number (to_int x) :=
  int2value_in_range _ (by have := to_int_range x; omega) (by have := to_int_range x; omega)

/-! ## The primitives on lists of numbers -/

theorem numbers_nil : numbers [] = nil := rfl

theorem numbers_cons (a : Int) (xs : List Int) :
    numbers (a :: xs) = .pair (.number a) (numbers xs) := rfl

theorem plus_loop_nil (v : Int) : plus_loop v nil = .ok (int2value v) := by
  unfold plus_loop; simp

theorem plus_loop_pair (v : Int) (a d : Value) :
    plus_loop v (.pair a d) =
      if !is_number a then .error (.runtime_error "arg to plus not number".toList)
      else plus_loop (to_int (v + value2int a)) d := by
  rw [plus_loop]
  simp [nil_eq]

theorem mul_loop_nil (v : Int) : mul_loop v nil = .ok (int2value v) := by
  unfold mul_loop; simp

theorem mul_loop_pair (v : Int) (a d : Value) :
    mul_loop v (.pair a d) =
      if !is_number a then .error (.runtime_error "arg to mul not number".toList)
      else mul_loop (to_int (v * value2int a)) d := by
  rw [mul_loop]
  simp [nil_eq]

theorem plus_loop_numbers (xs : List Int) (v : Int) :
    plus_loop (to_int v) (numbers xs) = .ok (.number (to_int (v + xs.sum))) := by
  induction xs generalizing v with
  | nil => simp [numbers_nil, plus_loop_nil, int2value_to_int]
  | cons a xs ih =>
    rw [numbers_cons, plus_loop_pair]
    simp only [is_number, Bool.not_true, Bool.false_eq_true, if_false, value2int]
    rw [to_int_add, ih, List.sum_cons, add_assoc]

theorem mul_loop_numbers (xs : List Int) (v : Int) :
    mul_loop (to_int v) (numbers xs) = .ok (.number (to_int (v * xs.prod))) := by
  induction xs generalizing v with
  | nil => simp [numbers_nil, mul_loop_nil, int2value_to_int]
  | cons a xs ih =>
    rw [numbers_cons, mul_loop_pair]
    simp only [is_number, Bool.not_true, Bool.false_eq_true, if_false, value2int]
    rw [to_int_mul, ih, List.prod_cons, mul_assoc]

theorem plus_numbers (xs : List Int) : plus (numbers xs) = .ok (.number (to_int xs.sum)) := by
  have := plus_loop_numbers xs 0
  rw [to_int_of_range 0 (by norm_num) (by norm_num), zero_add] at this
  exact this

theorem mul_numbers (xs : List Int) : mul (numbers xs) = .ok (.number (to_int xs.prod)) := by
  have := mul_loop_numbers xs 1
  rw [to_int_of_range 1 (by norm_num) (by norm_num), one_mul] at this
  exact this

theorem minus_loop_nil (v : Int) (init : Bool) : minus_loop v init nil = .ok (int2value v) := by
  unfold minus_loop; simp

theorem minus_loop_pair (v : Int) (init : Bool) (a d : Value) :
    minus_loop v init (.pair a d) =
      if !is_number a then .error (.runtime_error "arg to minus not number".toList)
      else if !init then minus_loop (to_int (value2int a)) true d
      else minus_loop (to_int (v - value2int a)) init d := by
  rw [minus_loop]
  simp [nil_eq]

theorem div_loop_nil (v : Int) (init : Bool) : div_loop v init nil = .ok (int2value v) := by
  unfold div_loop; simp

theorem div_loop_pair (v : Int) (init : Bool) (a d : Value) :
    div_loop v init (.pair a d) =
      if !is_number a then .error (.runtime_error "arg to div not number".toList)
      else if !init then div_loop (to_int (value2int a)) true d
      else if to_int (value2int a) = 0 then .error (.runtime_error "div by 0".toList)
      else if v = -2147483648 ∧ to_int (value2int a) = -1 then .error .int_overflow
      else div_loop (to_int (Int.tdiv v (to_int (value2int a)))) init d := by
  rw [div_loop]
  simp [nil_eq]

theorem foldl_sub_eq (xs : List Int) (a : Int) : xs.foldl (· - ·) a = a - xs.sum := by
  induction xs generalizing a with
  | nil => simp
  | cons x xs ih => rw [List.foldl_cons, ih, List.sum_cons]; ring

theorem minus_loop_numbers (xs : List Int) (v : Int) :
    minus_loop (to_int v) true (numbers xs) = .ok (.number (to_int (xs.foldl (· - ·) v))) := by
  induction xs generalizing v with
  | nil => simp [numbers_nil, minus_loop_nil, int2value_to_int]
  | cons a xs ih =>
    rw [numbers_cons, minus_loop_pair]
    simp only [is_number, Bool.not_true, Bool.false_eq_true, if_false, value2int]
    rw [to_int_sub, ih, List.foldl_cons]

theorem minus_numbers_cons (a : Int) (xs : List Int) :
    minus (numbers (a :: xs)) = .ok (.number (to_int (xs.foldl (· - ·) a))) := by
  rw [minus, numbers_cons, minus_loop_pair]
  simp only [is_number, Bool.not_true, Bool.false_eq_true, if_false, value2int, Bool.not_false,
    if_true]
  exact minus_loop_numbers xs a

theorem tdiv_int_range (v d : Int) (hv₁ : -2 ^ 31 ≤ v) (hv₂ : v < 2 ^ 31) (hd : d ≠ 0)
    (h : -2 ^ 31 < v ∨ d ≠ -1) :
    -2 ^ 31 ≤ Int.tdiv v d ∧ Int.tdiv v d < 2 ^ 31 ∧ (-2 ^ 31 < v → -2 ^ 31 < Int.tdiv v d) := by
  have habs := Int.natAbs_tdiv v d
  have hle : (Int.tdiv v d).natAbs ≤ v.natAbs := by
    rw [habs]; exact Nat.div_le_self _ _
  by_cases h2 : 2 ≤ d.natAbs
  · have : (Int.tdiv v d).natAbs ≤ v.natAbs / 2 := by
      rw [habs]; exact Nat.div_le_div_left h2 (by norm_num)
    omega
  · have h1 : d = 1 ∨ d = -1 := by omega
    rcases h1 with h1 | h1
    · subst h1
      rw [Int.tdiv_one]
      omega
    · subst h1
      have : Int.tdiv v (-1) = -v := by
        rw [show (-1 : Int) = -(1 : Int) from rfl, Int.tdiv_neg, Int.tdiv_one]
      rw [this]
      omega

theorem div_numbers_cons (a : Int) (xs : List Int) :
    div (numbers (a :: xs)) = div_loop (to_int a) true (numbers xs) := by
  rw [div, numbers_cons, div_loop_pair]
  simp only [is_number, Bool.not_true, Bool.false_eq_true, if_false, value2int, Bool.not_false,
    if_true]

theorem tdiv_eq_min (v d : Int) (hv₁ : -2 ^ 31 ≤ v) (hv₂ : v < 2 ^ 31) (hd : d ≠ 0)
    (h : Int.tdiv v d = -2 ^ 31) : v = -2 ^ 31 ∧ (d = 1 ∨ d = -1) := by
  have habs := Int.natAbs_tdiv v d
  by_cases h2 : 2 ≤ d.natAbs
  · have : (Int.tdiv v d).natAbs ≤ v.natAbs / 2 := by
      rw [habs]; exact Nat.div_le_div_left h2 (by norm_num)
    omega
  · have h1 : d = 1 ∨ d = -1 := by omega
    have hle : (Int.tdiv v d).natAbs ≤ v.natAbs := by
      rw [habs]; exact Nat.div_le_self _ _
    exact ⟨by omega, h1⟩

/-- The run of `div` over Integer divisors `ns` from the quotient `v`, when no
step divides `-2^31` by `-1`: it stops at the first divisor that is 0, and
otherwise goes on after them with the quotient of the truncating divisions,
which lies in the `int` range. -/
theorem div_loop_run (ns : List Int) (tail : Value) (v : Int)
    (hv₁ : -2 ^ 31 ≤ v) (hv₂ : v < 2 ^ 31)
    (hno : v = -2147483648 →
      ((ns.map to_int).dropWhile (fun d => decide (d = 1))).head? ≠ some (-1)) :
    div_loop v true (build_list (ns.map Value.number) tail) =
      (if ∃ d ∈ ns, to_int d = 0 then .error (.runtime_error "div by 0".toList)
       else div_loop (ns.foldl (fun q d => Int.tdiv q (to_int d)) v) true tail) ∧
    ((∀ d ∈ ns, to_int d ≠ 0) →
      -2 ^ 31 ≤ ns.foldl (fun q d => Int.tdiv q (to_int d)) v ∧
      ns.foldl (fun q d => Int.tdiv q (to_int d)) v < 2 ^ 31) := by
  induction ns generalizing v with
  | nil =>
    refine ⟨?_, fun _ => ⟨hv₁, hv₂⟩⟩
    simp [build_list]
  | cons a ns ih =>
    by_cases ha : to_int a = 0
    · constructor
      · simp only [List.map_cons, build_list, List.foldr_cons]
        rw [div_loop_pair]
        simp only [is_number, Bool.not_true, Bool.false_eq_true, if_false, value2int]
        rw [if_pos ha, if_pos ⟨a, List.mem_cons_self _ _, ha⟩]
      · intro h
        exact absurd ha (h a (List.mem_cons_self _ _))
    · have hov : ¬ (v = -2147483648 ∧ to_int a = -1) := by
        rintro ⟨h1, h2⟩
        apply hno h1
        simp [List.dropWhile, h2]
      have hq := tdiv_int_range v (to_int a) hv₁ hv₂ ha (by
        by_cases h1 : v = -2147483648
        · right; intro h2; exact hov ⟨h1, h2⟩
        · left; omega)
      have hno1 : Int.tdiv v (to_int a) = -2147483648 →
          ((ns.map to_int).dropWhile (fun d => decide (d = 1))).head? ≠ some (-1) := by
        intro hq0
        obtain ⟨h1, h2⟩ := tdiv_eq_min v (to_int a) hv₁ hv₂ ha (by rw [hq0]; norm_num)
        have h3 : to_int a = 1 := by
          rcases h2 with h2 | h2
          · exact h2
          · exact absurd ⟨by rw [h1]; norm_num, h2⟩ hov
        have h4 := hno (by rw [h1]; norm_num)
        simpa [List.dropWhile, h3] using h4
      obtain ⟨ih1, ih2⟩ := ih (Int.tdiv v (to_int a)) hq.1 hq.2.1 hno1
      constructor
      · simp only [List.map_cons, build_list, List.foldr_cons] at ih1 ⊢
        rw [div_loop_pair]
        simp only [is_number, Bool.not_true, Bool.false_eq_true, if_false, value2int]
        rw [if_neg ha, if_neg hov, to_int_of_range _ hq.1 hq.2.1, ih1, List.foldl_cons]
        by_cases hz : ∃ d ∈ ns, to_int d = 0
        · obtain ⟨d, hd, hd0⟩ := hz
          rw [if_pos ⟨d, hd, hd0⟩, if_pos ⟨d, List.mem_cons_of_mem _ hd, hd0⟩]
        · rw [if_neg hz, if_neg]
          rintro ⟨d, hd, hd0⟩
          rcases List.mem_cons.mp hd with rfl | hd
          · exact ha hd0
          · exact hz ⟨d, hd, hd0⟩
      · intro h
        rw [List.foldl_cons]
        exact ih2 (fun d hd => h d (List.mem_cons_of_mem _ hd))

/-- The run of `div` from the quotient `-2^31` over divisors of which the first
other than 1 is `-1` ends in the division the source leaves undefined. -/
theorem div_loop_overflow (ns : List Int) (tail : Value)
    (h : ((ns.map to_int).dropWhile (fun d => decide (d = 1))).head? = some (-1)) :
    div_loop (-2147483648) true (build_list (ns.map Value.number) tail)
      = .error .int_overflow := by
  induction ns with
  | nil => simp at h
  | cons a ns ih =>
    simp only [List.map_cons, build_list, List.foldr_cons] at ih ⊢
    rw [div_loop_pair]
    simp only [is_number, Bool.not_true, Bool.false_eq_true, if_false, value2int]
    by_cases h1 : to_int a = 1
    · simp only [List.map_cons, List.dropWhile, h1, decide_True] at h
      rw [h1, if_neg (by decide), if_neg (by decide), Int.tdiv_one]
      have h2 : to_int (-2147483648) = -2147483648 := by decide
      rw [h2]
      exact ih h
    · simp [List.dropWhile, h1] at h
      rw [h, if_neg (by decide), if_pos (by simp)]

theorem div_cons (a : Int) (ns : List Int) (tail : Value) :
    div (build_list ((a :: ns).map Value.number) tail) =
      div_loop (to_int a) true (build_list (ns.map Value.number) tail) := by
  simp only [List.map_cons, build_list, List.foldr_cons, div]
  rw [div_loop_pair]
  simp only [is_number, Bool.not_true, Bool.false_eq_true, if_false, value2int, Bool.not_false,
    if_true]

theorem div_overflows_cons (a : Int) (xs : List Int) :
    div_overflows (a :: xs) = true ↔
      to_int a = -2147483648 ∧
        ((xs.map to_int).dropWhile (fun d => decide (d = 1))).head? = some (-1) := by
  simp [div_overflows]

/-- On Integer arguments followed by `tail`, when no step divides `-2^31` by
`-1`, `div` stops at the first divisor that is 0 and otherwise goes on into
`tail` with the quotient of the truncating divisions. -/
theorem div_run (a : Int) (xs : List Int) (tail : Value) (h : div_overflows (a :: xs) = false) :
    div (build_list ((a :: xs).map Value.number) tail) =
      (if ∃ d ∈ xs, to_int d = 0 then .error (.runtime_error "div by 0".toList)
       else div_loop (xs.foldl (fun q d => Int.tdiv q (to_int d)) (to_int a)) true tail) ∧
    ((∀ d ∈ xs, to_int d ≠ 0) →
      -2 ^ 31 ≤ xs.foldl (fun q d => Int.tdiv q (to_int d)) (to_int a) ∧
      xs.foldl (fun q d => Int.tdiv q (to_int d)) (to_int a) < 2 ^ 31) := by
  rw [div_cons]
  apply div_loop_run xs tail (to_int a) (to_int_range a).1 (to_int_range a).2
  intro h1 h2
  have := (div_overflows_cons a xs).mpr ⟨h1, h2⟩
  rw [h] at this
  exact Bool.false_ne_true this

theorem div_numbers_run (a : Int) (xs : List Int) (h : div_overflows (a :: xs) = false) :
    div (numbers (a :: xs)) =
      if ∃ d ∈ xs, to_int d = 0 then .error (.runtime_error "div by 0".toList)
      else .ok (.number (xs.foldl (fun q d => Int.tdiv q (to_int d)) (to_int a))) := by
  obtain ⟨h1, h2⟩ := div_run a xs nil h
  rw [numbers, h1]
  by_cases hz : ∃ d ∈ xs, to_int d = 0
  · rw [if_pos hz, if_pos hz]
  · rw [if_neg hz, if_neg hz, div_loop_nil]
    have hr := h2 (fun d hd hd0 => hz ⟨d, hd, hd0⟩)
    rw [int2value_in_range _ (by omega) (by omega)]

/-- The lists of Integer arguments on which `div` ends in the division of
`-2^31` by `-1` are exactly those of `div_overflows`. -/
theorem div_numbers_overflow_iff (xs : List Int) :
    div (numbers xs) = .error .int_overflow ↔ div_overflows xs = true := by
  cases xs with
  | nil =>
    rw [div, numbers_nil, div_loop_nil]
    simp [div_overflows]
  | cons a xs =>
    constructor
    · intro h
      by_contra hne
      rw [div_numbers_run a xs (by simpa using hne)] at h
      split at h <;> simp at h
    · intro h
      obtain ⟨h1, h2⟩ := (div_overflows_cons a xs).mp h
      rw [numbers, div_cons, h1]
      exact div_loop_overflow xs nil h2

theorem map_to_int_of_range (xs : List Int) (h : ∀ d ∈ xs, -2 ^ 31 ≤ d ∧ d < 2 ^ 31) :
    xs.map to_int = xs := by
  induction xs with
  | nil => rfl
  | cons a xs ih =>
    rw [List.map_cons, to_int_of_range a (h a (List.mem_cons_self _ _)).1
      (h a (List.mem_cons_self _ _)).2, ih (fun d hd => h d (List.mem_cons_of_mem _ hd))]

theorem foldl_tdiv_to_int (xs : List Int) (v : Int) (h : ∀ d ∈ xs, -2 ^ 31 ≤ d ∧ d < 2 ^ 31) :
    xs.foldl (fun q d => Int.tdiv q (to_int d)) v = xs.foldl Int.tdiv v := by
  induction xs generalizing v with
  | nil => rfl
  | cons a xs ih =>
    rw [List.foldl_cons, List.foldl_cons, to_int_of_range a (h a (List.mem_cons_self _ _)).1
      (h a (List.mem_cons_self _ _)).2, ih _ (fun d hd => h d (List.mem_cons_of_mem _ hd))]

theorem dropWhile_one_head (xs : List Int) (h : (-1 : Int) ∉ xs) :
    (xs.dropWhile (fun d => decide (d = 1))).head? ≠ some (-1) := by
  induction xs with
  | nil => simp
  | cons a xs ih =>
    by_cases h1 : a = 1
    · simp only [List.dropWhile, h1, decide_True]
      exact ih (fun hm => h (List.mem_cons_of_mem _ hm))
    · simp only [List.dropWhile, h1, decide_False, List.head?_cons]
      intro h2
      apply h
      rw [Option.some.inj h2]
      exact List.mem_cons_self _ _

/-- On a list of Integers the loop of `div` never raises its type error. -/
theorem div_loop_numbers_typed (xs : List Int) (v : Int) (init : Bool) :
    div_loop v init (numbers xs) ≠ .error (.runtime_error "arg to div not number".toList) := by
  induction xs generalizing v init with
  | nil => rw [numbers_nil, div_loop_nil]; simp
  | cons a xs ih =>
    rw [numbers_cons, div_loop_pair]
    simp only [is_number, Bool.not_true, Bool.false_eq_true, if_false, value2int]
    split
    · exact ih _ _
    · split
      · decide
      · split
        · simp
        · exact ih _ _

/-! ## Claims on the primitives -/

/-- C11 (amended). `+` and `*` are folds in the 32-bit accumulator: for every
proper list of Integer values, `plus` returns the Integer whose value is the
sum of the arguments wrapped to 32 bits and `mul` the product wrapped to 32
bits (0 and 1 for the empty list); so they return exactly the sum, or the
product, whenever that result lies in `-2^31 ≤ x < 2^31`. -/
theorem plus_mul_fold (xs : List Int) :
    plus (numbers xs) = .ok (.number (to_int xs.sum)) ∧
    mul (numbers xs) = .ok (.number (to_int xs.prod)) ∧
    (-2 ^ 31 ≤ xs.sum → xs.sum < 2 ^ 31 → plus (numbers xs) = .ok (.number xs.sum)) ∧
    (-2 ^ 31 ≤ xs.prod → xs.prod < 2 ^ 31 → mul (numbers xs) = .ok (.number xs.prod)) ∧
    plus (numbers []) = .ok (.number 0) ∧ mul (numbers []) = .ok (.number 1) := by
  refine ⟨plus_numbers xs, mul_numbers xs, ?_, ?_, ?_, ?_⟩
  · intro h₁ h₂
    rw [plus_numbers, to_int_of_range _ h₁ h₂]
  · intro h₁ h₂
    rw [mul_numbers, to_int_of_range _ h₁ h₂]
  · rw [plus_numbers]; rfl
  · rw [mul_numbers]; rfl

/-- Witness of C11: `(+ )` gives 0, `(* )` gives 1, `(+ 1 2 3)` gives 6 and
`(* 2 3 4)` gives 24. -/
theorem plus_mul_fold_witness :
    plus (numbers [1, 2, 3]) = .ok (.number 6) ∧
    mul (numbers [2, 3, 4]) = .ok (.number 24) ∧
    read_eval 2 "(+ )".toList initial_env initial_table
      = some (.ok (.number 0), initial_env, initial_table) ∧
    read_eval 2 "(* )".toList initial_env initial_table
      = some (.ok (.number 1), initial_env, initial_table) :=
  ⟨(plus_mul_fold [1, 2, 3]).2.2.1 (by decide) (by decide),
    (plus_mul_fold [2, 3, 4]).2.2.2.1 (by decide) (by decide), by decide, by decide⟩

/-- Counterexample to C11 as stated: the arguments 2147483647 and 1 and their
sum 2147483648 lie in `-2^61 ≤ x < 2^61`, yet `plus` returns -2147483648; the
arguments 65536 and 65536 and their product 4294967296 lie in that range, yet
`mul` returns 0. -/
theorem plus_mul_fold_counterexample :
    (∀ a ∈ ([2147483647, 1] : List Int), -2 ^ 61 ≤ a ∧ a < 2 ^ 61) ∧
    ([2147483647, 1] : List Int).sum = 2147483648 ∧
    plus (numbers [2147483647, 1]) = .ok (.number (-2147483648)) ∧
    (∀ a ∈ ([65536, 65536] : List Int), -2 ^ 61 ≤ a ∧ a < 2 ^ 61) ∧
    ([65536, 65536] : List Int).prod = 4294967296 ∧
    mul (numbers [65536, 65536]) = .ok (.number 0) ∧
    read_eval 4 "(+ 2147483647 1)".toList initial_env initial_table
      = some (.ok (.number (-2147483648)), initial_env, initial_table) ∧
    read_eval 4 "(* 65536 65536)".toList initial_env initial_table
      = some (.ok (.number 0), initial_env, initial_table) := by
  refine ⟨by decide, by decide, by decide, by decide, by decide, by decide, by decide, by decide⟩

/-- C12 (amended). `-` folds from its first argument in the 32-bit
accumulator: `minus` returns 0 for the empty list, the argument wrapped to 32
bits for a one-element list (not negated), and `a1 - a2 - ... - an` wrapped to
32 bits otherwise; so it returns exactly `a`, or exactly the difference,
whenever that result lies in `-2^31 ≤ x < 2^31`. -/
theorem minus_fold (a : Int) (xs : List Int) :
    minus (numbers []) = .ok (.number 0) ∧
    minus (numbers [a]) = .ok (.number (to_int a)) ∧
    minus (numbers (a :: xs)) = .ok (.number (to_int (xs.foldl (· - ·) a))) ∧
    (-2 ^ 31 ≤ a → a < 2 ^ 31 → minus (numbers [a]) = .ok (.number a)) ∧
    (-2 ^ 31 ≤ xs.foldl (· - ·) a → xs.foldl (· - ·) a < 2 ^ 31 →
      minus (numbers (a :: xs)) = .ok (.number (xs.foldl (· - ·) a))) := by
  refine ⟨?_, minus_numbers_cons a [], minus_numbers_cons a xs, ?_, ?_⟩
  · rw [minus, numbers_nil, minus_loop_nil]; rfl
  · intro h₁ h₂
    rw [minus_numbers_cons, List.foldl_nil, to_int_of_range _ h₁ h₂]
  · intro h₁ h₂
    rw [minus_numbers_cons, to_int_of_range _ h₁ h₂]

/-- Witness of C12: `(- 5)` gives 5 and `(- 5 3 1)` gives 1. -/
theorem minus_fold_witness :
    minus (numbers [5]) = .ok (.number 5) ∧
    minus (numbers [5, 3, 1]) = .ok (.number 1) ∧
    read_eval 5 "(- 5)".toList initial_env initial_table
      = some (.ok (.number 5), initial_env, initial_table) ∧
    read_eval 5 "(- 5 3 1)".toList initial_env initial_table
      = some (.ok (.number 1), initial_env, initial_table) ∧
    read_eval 5 "(- )".toList initial_env initial_table
      = some (.ok (.number 0), initial_env, initial_table) :=
  ⟨(minus_fold 5 []).2.2.2.1 (by decide) (by decide),
    (minus_fold 5 [3, 1]).2.2.2.2 (by decide) (by decide), by decide, by decide, by decide⟩

/-- Counterexample to C12 as stated: the arguments 0, 2147483647, 2 and the
difference -2147483649 lie in `-2^61 ≤ x < 2^61`, yet `minus` returns
2147483647. -/
theorem minus_fold_counterexample :
    (∀ a ∈ ([0, 2147483647, 2] : List Int), -2 ^ 61 ≤ a ∧ a < 2 ^ 61) ∧
    ([2147483647, 2] : List Int).foldl (· - ·) 0 = -2147483649 ∧
    minus (numbers [0, 2147483647, 2]) = .ok (.number 2147483647) ∧
    read_eval 5 "(- 0 2147483647 2)".toList initial_env initial_table
      = some (.ok (.number 2147483647), initial_env, initial_table) := by
  refine ⟨by decide, by decide, by decide, by decide⟩

/-- C13 (amended). `/` on Integer arguments, each taken as the 32-bit `int` the
source stores it in (itself when `-2^31 ≤ ai < 2^31`), for every proper list
`a1 .. an` on which no step divides `-2^31` by `-1`, that is, unless `a1` is
`-2^31` and the first divisor other than 1 is `-1`: `div` fails with
"div by 0" exactly when some `ai` with `i ≥ 2` is 0; otherwise it returns a
value, namely 0 for the empty list, `a1` for a one-element list (also when
`a1 = 0`), and `((a1 / a2) / ...) / an` by truncating division otherwise.  No
step divides `-2^31` by `-1` when `a1` is not `-2^31` or no divisor is `-1`.
What `div` does on the lists of `div_overflows` is not stated. -/
theorem div_fold (a : Int) (xs : List Int) :
    div (numbers []) = .ok (.number 0) ∧
    div (numbers [a]) = .ok (.number (to_int a)) ∧
    (div_overflows (a :: xs) = false →
      (div (numbers (a :: xs)) = .error (.runtime_error "div by 0".toList) ↔
        ∃ d ∈ xs, to_int d = 0) ∧
      ((∀ d ∈ xs, to_int d ≠ 0) →
        div (numbers (a :: xs)) =
          .ok (.number (xs.foldl (fun q d => Int.tdiv q (to_int d)) (to_int a))))) ∧
    ((∀ d ∈ a :: xs, -2 ^ 31 ≤ d ∧ d < 2 ^ 31) →
      div (numbers [a]) = .ok (.number a) ∧
      (div_overflows (a :: xs) = false →
        (div (numbers (a :: xs)) = .error (.runtime_error "div by 0".toList) ↔ (0 : Int) ∈ xs) ∧
        ((0 : Int) ∉ xs → div (numbers (a :: xs)) = .ok (.number (xs.foldl Int.tdiv a)))) ∧
      (a ≠ -2147483648 ∨ (-1 : Int) ∉ xs → div_overflows (a :: xs) = false)) := by
  have hone : div (numbers [a]) = .ok (.number (to_int a)) := by
    rw [div_numbers_cons, numbers_nil, div_loop_nil, int2value_to_int]
  have hrun : div_overflows (a :: xs) = false →
      (div (numbers (a :: xs)) = .error (.runtime_error "div by 0".toList) ↔
        ∃ d ∈ xs, to_int d = 0) ∧
      ((∀ d ∈ xs, to_int d ≠ 0) →
        div (numbers (a :: xs)) =
          .ok (.number (xs.foldl (fun q d => Int.tdiv q (to_int d)) (to_int a)))) := by
    intro hno
    rw [div_numbers_run a xs hno]
    constructor
    · constructor
      · intro h
        by_contra hz
        rw [if_neg hz] at h
        simp at h
      · intro h
        rw [if_pos h]
    · intro h
      rw [if_neg (fun ⟨d, hd, hd0⟩ => h d hd hd0)]
  refine ⟨?_, hone, hrun, ?_⟩
  · rw [div, numbers_nil, div_loop_nil]; rfl
  · intro hr
    have ha := hr a (List.mem_cons_self _ _)
    have hxs : ∀ d ∈ xs, -2 ^ 31 ≤ d ∧ d < 2 ^ 31 :=
      fun d hd => hr d (List.mem_cons_of_mem _ hd)
    have hz : (∃ d ∈ xs, to_int d = 0) ↔ (0 : Int) ∈ xs := by
      constructor
      · rintro ⟨d, hd, h0⟩
        rw [to_int_of_range d (hxs d hd).1 (hxs d hd).2] at h0
        rw [← h0]; exact hd
      · intro h
        exact ⟨0, h, by decide⟩
    refine ⟨?_, ?_, ?_⟩
    · rw [hone, to_int_of_range a ha.1 ha.2]
    · intro hno
      refine ⟨(hrun hno).1.trans hz, ?_⟩
      intro h0
      rw [(hrun hno).2 (fun d hd hd0 => h0 (hz.mp ⟨d, hd, hd0⟩)), to_int_of_range a ha.1 ha.2,
        foldl_tdiv_to_int xs a hxs]
    · intro h
      cases hb : div_overflows (a :: xs) with
      | false => rfl
      | true =>
        exfalso
        obtain ⟨h1, h2⟩ := (div_overflows_cons a xs).mp hb
        rw [to_int_of_range a ha.1 ha.2] at h1
        rw [map_to_int_of_range xs hxs] at h2
        rcases h with h | h
        · exact h h1
        · exact dropWhile_one_head xs h h2

/-- Witness of C13: `(/ 10 2 5)` gives 1, `(/ 7 0)` fails with "div by 0",
`(/ 0)` gives 0, `(/ -7 2)`, built from `(- 0 7)`, gives -3, and `-2^31`
divided by 2 gives `-2^30`. -/
theorem div_fold_witness :
    div (numbers [10, 2, 5]) = .ok (.number 1) ∧
    div (numbers [7, 0]) = .error (.runtime_error "div by 0".toList) ∧
    div (numbers [0]) = .ok (.number 0) ∧
    div (numbers [-7, 2]) = .ok (.number (-3)) ∧
    div (numbers [-2147483648, 2]) = .ok (.number (-1073741824)) ∧
    read_eval 5 "(/ 10 2 5)".toList initial_env initial_table
      = some (.ok (.number 1), initial_env, initial_table) ∧
    read_eval 5 "(/ 7 0)".toList initial_env initial_table
      = some (.error (.runtime_error "div by 0".toList), initial_env, initial_table) ∧
    read_eval 5 "(/ 0)".toList initial_env initial_table
      = some (.ok (.number 0), initial_env, initial_table) :=
  ⟨(((div_fold 10 [2, 5]).2.2.2 (by decide)).2.1 (by decide)).2 (by decide),
    (((div_fold 7 [0]).2.2.2 (by decide)).2.1 (by decide)).1.mpr (by decide),
    ((div_fold 0 []).2.2.2 (by decide)).1,
    (((div_fold (-7) [2]).2.2.2 (by decide)).2.1 (by decide)).2 (by decide),
    (((div_fold (-2147483648) [2]).2.2.2 (by decide)).2.1 (by decide)).2 (by decide),
    by decide, by decide, by decide⟩

/-- Counterexample to C13 as stated: in the list -2147483648, -1 no argument
after the first is 0, yet `div` returns no value: the quotient 2147483648 does
not fit the `int` the source divides in, and the source ends in the division it
leaves undefined.  The list is the one the text
`(/ (- 0 2147483647 1) (- 0 1))` passes to `div`. -/
theorem div_fold_counterexample :
    (0 : Int) ∉ ([-1] : List Int) ∧
    div (numbers [-2147483648, -1]) ≠ .error (.runtime_error "div by 0".toList) ∧
    (∀ q, div (numbers [-2147483648, -1]) ≠ .ok q) ∧
    div (numbers [-2147483648, -1]) = .error .int_overflow ∧
    minus (numbers [0, 2147483647, 1]) = .ok (.number (-2147483648)) ∧
    minus (numbers [0, 1]) = .ok (.number (-1)) ∧
    read_eval 10 "(/ (- 0 2147483647 1) (- 0 1))".toList initial_env initial_table
      = some (.error .int_overflow, initial_env, initial_table) := by
  have h : div (numbers [-2147483648, -1]) = .error .int_overflow := by decide
  refine ⟨by decide, by decide, ?_, h, by decide, by decide, by decide⟩
  intro q
  rw [h]
  simp

/-! ## Operand typing of the primitives -/

theorem first_non_number (xs : List Value) (h : ∃ x ∈ xs, is_number x = false) :
    ∃ (ns : List Int) (x : Value) (rest : List Value),
      xs = ns.map Value.number ++ x :: rest ∧ is_number x = false := by
  induction xs with
  | nil => simp at h
  | cons y ys ih =>
    cases y with
    | number n =>
      obtain ⟨x, hx, hxn⟩ := h
      rcases List.mem_cons.mp hx with rfl | hx
      · simp [is_number] at hxn
      · obtain ⟨ns, x', rest, hys, hx'⟩ := ih ⟨x, hx, hxn⟩
        exact ⟨n :: ns, x', rest, by rw [hys]; rfl, hx'⟩
    | pair a d => exact ⟨[], _, ys, rfl, rfl⟩
    | symbol i => exact ⟨[], _, ys, rfl, rfl⟩
    | fn f => exact ⟨[], _, ys, rfl, rfl⟩

theorem build_list_numbers_append (ns : List Int) (rest : List Value) :
    build_list (ns.map Value.number ++ rest) nil =
      build_list (ns.map Value.number) (build_list rest nil) := by
  simp [build_list, List.foldr_append]

theorem plus_loop_type_error (ns : List Int) (x : Value) (rest : Value) (v : Int)
    (hx : is_number x = false) :
    plus_loop v (build_list (ns.map Value.number) (.pair x rest))
      = .error (.runtime_error "arg to plus not number".toList) := by
  induction ns generalizing v with
  | nil =>
    simp only [List.map_nil, build_list, List.foldr_nil]
    rw [plus_loop_pair]
    simp [hx]
  | cons n ns ih =>
    simp only [List.map_cons, build_list, List.foldr_cons] at ih ⊢
    rw [plus_loop_pair]
    simp only [is_number, Bool.not_true, Bool.false_eq_true, if_false]
    exact ih _

theorem mul_loop_type_error (ns : List Int) (x : Value) (rest : Value) (v : Int)
    (hx : is_number x = false) :
    mul_loop v (build_list (ns.map Value.number) (.pair x rest))
      = .error (.runtime_error "arg to mul not number".toList) := by
  induction ns generalizing v with
  | nil =>
    simp only [List.map_nil, build_list, List.foldr_nil]
    rw [mul_loop_pair]
    simp [hx]
  | cons n ns ih =>
    simp only [List.map_cons, build_list, List.foldr_cons] at ih ⊢
    rw [mul_loop_pair]
    simp only [is_number, Bool.not_true, Bool.false_eq_true, if_false]
    exact ih _

theorem minus_loop_type_error (ns : List Int) (x : Value) (rest : Value) (v : Int)
    (init : Bool) (hx : is_number x = false) :
    minus_loop v init (build_list (ns.map Value.number) (.pair x rest))
      = .error (.runtime_error "arg to minus not number".toList) := by
  induction ns generalizing v init with
  | nil =>
    simp only [List.map_nil, build_list, List.foldr_nil]
    rw [minus_loop_pair]
    simp [hx]
  | cons n ns ih =>
    simp only [List.map_cons, build_list, List.foldr_cons] at ih ⊢
    rw [minus_loop_pair]
    simp only [is_number, Bool.not_true, Bool.false_eq_true, if_false]
    split
    · exact ih _ _
    · exact ih _ _

/-- Before the first element that is not a number `div` runs over Integers; when
no step there divides `-2^31` by `-1`, it stops at whichever comes first: a
divisor whose 32-bit value is 0, or the element that is not a number. -/
theorem div_type_error (ns : List Int) (x : Value) (rest : Value)
    (hx : is_number x = false) (hno : div_overflows ns = false) :
    div (build_list (ns.map Value.number) (.pair x rest)) =
      if ∃ d ∈ ns.tail, to_int d = 0 then .error (.runtime_error "div by 0".toList)
      else .error (.runtime_error "arg to div not number".toList) := by
  cases ns with
  | nil =>
    simp only [List.map_nil, build_list, List.foldr_nil, div]
    rw [div_loop_pair]
    simp [hx]
  | cons n ns =>
    rw [(div_run n ns _ hno).1, List.tail_cons]
    by_cases hz : ∃ d ∈ ns, to_int d = 0
    · rw [if_pos hz, if_pos hz]
    · rw [if_neg hz, if_neg hz, div_loop_pair]
      simp [hx]

/-- C14 (amended). Primitive operand typing: on a proper argument list with at
least one element that is not an Integer, `plus`, `minus` and `mul` fail with
their own type error; and `div`, when its pass over the Integers before the
first such element has no step that divides `-2^31` by `-1`, fails too: with
"div by 0" when one of those Integers after the first argument has the 32-bit
value 0, and with its own type error otherwise.  On a proper list of Integers
none of the four fails with its type error.  What `div` does when a step
divides `-2^31` by `-1` before the first element that is not an Integer is not
stated. -/
theorem primitive_operand_typing (xs : List Value) (ns : List Int) :
    ((∃ x ∈ xs, is_number x = false) →
      plus (build_list xs nil) = .error (.runtime_error "arg to plus not number".toList) ∧
      minus (build_list xs nil) = .error (.runtime_error "arg to minus not number".toList) ∧
      mul (build_list xs nil) = .error (.runtime_error "arg to mul not number".toList) ∧
      ∃ (ms : List Int) (x : Value) (rest : List Value),
        xs = ms.map Value.number ++ x :: rest ∧ is_number x = false ∧
        (div_overflows ms = false →
          div (build_list xs nil) =
            if ∃ d ∈ ms.tail, to_int d = 0 then .error (.runtime_error "div by 0".toList)
            else .error (.runtime_error "arg to div not number".toList))) ∧
    (∀ (x : Value) (rest : List Value), is_number x = false → div_overflows ns = false →
      div (build_list (ns.map Value.number ++ x :: rest) nil) =
        if ∃ d ∈ ns.tail, to_int d = 0 then .error (.runtime_error "div by 0".toList)
        else .error (.runtime_error "arg to div not number".toList)) ∧
    plus (numbers ns) ≠ .error (.runtime_error "arg to plus not number".toList) ∧
    minus (numbers ns) ≠ .error (.runtime_error "arg to minus not number".toList) ∧
    mul (numbers ns) ≠ .error (.runtime_error "arg to mul not number".toList) ∧
    div (numbers ns) ≠ .error (.runtime_error "arg to div not number".toList) := by
  refine ⟨?_, ?_, ?_, ?_, ?_, ?_⟩
  · intro h
    obtain ⟨ms, x, rest, rfl, hx⟩ := first_non_number xs h
    rw [build_list_numbers_append]
    have hb : build_list (x :: rest) nil = .pair x (build_list rest nil) := rfl
    rw [hb]
    refine ⟨plus_loop_type_error ms x _ 0 hx, minus_loop_type_error ms x _ 0 false hx,
      mul_loop_type_error ms x _ 1 hx, ms, x, rest, rfl, hx, ?_⟩
    intro hno
    exact div_type_error ms x _ hx hno
  · intro x rest hx hno
    rw [build_list_numbers_append]
    exact div_type_error ns x _ hx hno
  · rw [plus_numbers]; simp
  · cases ns with
    | nil => rw [minus, numbers_nil, minus_loop_nil]; simp
    | cons a as => rw [minus_numbers_cons]; simp
  · rw [mul_numbers]; simp
  · exact div_loop_numbers_typed ns 0 false

/-- Witness of C14: `(+ 1 t)`, `(- 1 t)`, `(* 1 t)` and `(/ 1 t)` fail with the
type error of their primitive. -/
theorem primitive_operand_typing_witness :
    plus (build_list [.number 1, .symbol 7] nil)
      = .error (.runtime_error "arg to plus not number".toList) ∧
    div (build_list [.number 1, .symbol 7] nil)
      = .error (.runtime_error "arg to div not number".toList) ∧
    read_eval 5 "(+ 1 t)".toList initial_env initial_table
      = some (.error (.runtime_error "arg to plus not number".toList), initial_env,
          initial_table) ∧
    read_eval 5 "(- 1 t)".toList initial_env initial_table
      = some (.error (.runtime_error "arg to minus not number".toList), initial_env,
          initial_table) ∧
    read_eval 5 "(* 1 t)".toList initial_env initial_table
      = some (.error (.runtime_error "arg to mul not number".toList), initial_env,
          initial_table) ∧
    read_eval 5 "(/ 1 t)".toList initial_env initial_table
      = some (.error (.runtime_error "arg to div not number".toList), initial_env,
          initial_table) :=
  ⟨((primitive_operand_typing [.number 1, .symbol 7] []).1 (by decide)).1,
    (primitive_operand_typing [] [1]).2.1 (.symbol 7) [] (by decide) (by decide),
    by decide, by decide, by decide, by decide⟩

/-- Counterexample to C14 as stated: the proper list 1, 0, t holds the symbol
`t`, which is not an Integer, yet `div` fails with "div by 0" and not with its
type error. -/
theorem primitive_operand_typing_counterexample :
    is_number (.symbol 7) = false ∧
    div (build_list [.number 1, .number 0, .symbol 7] nil)
      = .error (.runtime_error "div by 0".toList) ∧
    div (build_list [.number 1, .number 0, .symbol 7] nil)
      ≠ .error (.runtime_error "arg to div not number".toList) ∧
    read_eval 5 "(/ 1 0 t)".toList initial_env initial_table
      = some (.error (.runtime_error "div by 0".toList), initial_env, initial_table) := by
  refine ⟨by decide, by decide, by decide, by decide⟩

/-! ## The recursion budget of the reader -/

/-- A larger budget does not change an outcome of the reader already reached. -/
theorem parse_mono_step (fuel : Nat) :
    (∀ input tbl r, parse_expression fuel input tbl = some r →
      parse_expression (fuel + 1) input tbl = some r) ∧
    (∀ input tbl contents r, parse_list fuel input tbl contents = some r →
      parse_list (fuel + 1) input tbl contents = some r) := by
  induction fuel with
  | zero =>
    constructor
    · intro input tbl r h; simp [parse_expression] at h
    · intro input tbl contents r h; simp [parse_list] at h
  | succ fuel ih =>
    obtain ⟨ihE, ihL⟩ := ih
    constructor
    · intro input tbl r h
      rw [parse_expression_succ] at h ⊢
      cases hn : next_char input with
      | error e => rw [hn] at h; exact h
      | ok p =>
        obtain ⟨next, after⟩ := p
        rw [hn] at h
        simp only at h ⊢
        split at h
        · rename_i h1; rw [if_pos h1]; exact ihL _ _ _ _ h
        · rename_i h1; rw [if_neg h1]; exact h
    · intro input tbl contents r h
      rw [parse_list_succ] at h ⊢
      cases hn : next_char input with
      | error e => rw [hn] at h; exact h
      | ok p =>
        obtain ⟨next, after⟩ := p
        rw [hn] at h
        simp only at h ⊢
        split at h
        · rename_i h1; rw [if_pos h1]; exact h
        · rename_i h1; rw [if_neg h1]
          split at h
          · rename_i h2; rw [if_pos h2]
            split at h
            · rename_i h3; rw [if_pos h3]; exact h
            · rename_i h3; rw [if_neg h3]
              split at h
              · simp at h
              · rename_i hpe; rw [ihE _ _ _ hpe]; exact h
              · rename_i hpe; rw [ihE _ _ _ hpe]; exact h
          · rename_i h2; rw [if_neg h2]
            split at h
            · simp at h
            · rename_i hpe; rw [ihE _ _ _ hpe]; exact h
            · rename_i hpe; rw [ihE _ _ _ hpe]; exact ihL _ _ _ _ h

theorem parse_expression_mono (fuel fuel' : Nat) (hle : fuel ≤ fuel') (input : Str)
    (tbl : SymTab) (r : Except Err (Value × Str) × SymTab)
    (h : parse_expression fuel input tbl = some r) :
    parse_expression fuel' input tbl = some r := by
  induction hle with
  | refl => exact h
  | step _ ih => exact (parse_mono_step _).1 input tbl r ih

/-- Two budgets that are both enough give the same outcome. -/
theorem parse_expression_fuel (fuel fuel' : Nat) (input : Str) (tbl : SymTab)
    (h : 2 * input.length + 1 ≤ fuel) (h' : 2 * input.length + 1 ≤ fuel') :
    parse_expression fuel input tbl = parse_expression fuel' input tbl := by
  cases hr : parse_expression fuel input tbl with
  | none => exact absurd hr ((parse_adequate fuel).1 input tbl h)
  | some r =>
    cases hr' : parse_expression fuel' input tbl with
    | none => exact absurd hr' ((parse_adequate fuel').1 input tbl h')
    | some r' =>
      have h1 := parse_expression_mono fuel (max fuel fuel') (le_max_left _ _) input tbl r hr
      have h2 := parse_expression_mono fuel' (max fuel fuel') (le_max_right _ _) input tbl r' hr'
      rw [h1] at h2
      exact h2

theorem skip_space_idem (input : Str) : skip_space (skip_space input) = skip_space input := by
  induction input with
  | nil => rfl
  | cons c cs ih =>
    by_cases h : isspace c = true
    · simp only [skip_space, h, if_true]; exact ih
    · simp [skip_space, h]

theorem next_char_skip_space (input : Str) : next_char (skip_space input) = next_char input := by
  unfold next_char
  rw [skip_space_idem]

theorem parse_expression_skip_space (fuel : Nat) (input : Str) (tbl : SymTab) :
    parse_expression fuel (skip_space input) tbl = parse_expression fuel input tbl := by
  cases fuel with
  | zero => simp [parse_expression]
  | succ fuel => rw [parse_expression_succ, parse_expression_succ, next_char_skip_space]

/-- The reader as `parse` runs it, started at the first character that is not
whitespace. -/
theorem parse_skip_space (input : Str) (tbl : SymTab) (fuel : Nat)
    (h : 2 * (skip_space input).length + 1 ≤ fuel) :
    parse_expression fuel (skip_space input) tbl = parse input tbl := by
  rw [parse, ← parse_expression_skip_space (2 * input.length + 1)]
  have := skip_space_length_le input
  exact parse_expression_fuel _ _ _ _ h (by omega)

theorem parse_total (input : Str) (tbl : SymTab) : parse input tbl ≠ none :=
  (parse_adequate _).1 input tbl (Nat.le_refl _)

/-! ## The loop of `parse_body` -/

theorem parse_body_loop_succ (fuel : Nat) (input : Str) (tbl : SymTab) (result : List Value) :
    parse_body_loop (fuel + 1) input tbl result =
      if skip_space input = [] then some (.ok result, tbl)
      else
        match parse input tbl with
        | none => none
        | some (.error e, table1) => some (.error e, table1)
        | some (.ok (item, rest), table1) => parse_body_loop fuel rest table1 (result ++ [item]) := by
  rw [parse_body_loop]
  cases hs : skip_space input with
  | nil => simp
  | cons c cs =>
    simp only [List.cons_ne_nil, if_false]
    have hp := parse_skip_space input tbl (2 * (skip_space input).length + 1) (Nat.le_refl _)
    rw [hs] at hp
    rw [hp]

/-- The values collected so far are only carried along. -/
theorem parse_body_loop_acc (fuel : Nat) (input : Str) (tbl : SymTab) (acc : List Value) :
    parse_body_loop fuel input tbl acc =
      match parse_body_loop fuel input tbl [] with
      | none => none
      | some (.error e, table1) => some (.error e, table1)
      | some (.ok vs, table1) => some (.ok (acc ++ vs), table1) := by
  induction fuel generalizing input tbl acc with
  | zero => simp [parse_body_loop]
  | succ fuel ih =>
    rw [parse_body_loop_succ, parse_body_loop_succ]
    by_cases hs : skip_space input = []
    · simp [hs]
    · simp only [hs, if_false]
      rcases parse input tbl with _ | ⟨r | ⟨item, rest⟩, table1⟩
      · rfl
      · rfl
      · simp only
        rw [ih rest table1 (acc ++ [item]), ih rest table1 ([] ++ [item])]
        rcases parse_body_loop fuel rest table1 [] with _ | ⟨r | vs, table2⟩
        · rfl
        · rfl
        · simp

theorem parse_body_loop_mono_step (fuel : Nat) (input : Str) (tbl : SymTab) (acc : List Value)
    (r : Except Err (List Value) × SymTab) (h : parse_body_loop fuel input tbl acc = some r) :
    parse_body_loop (fuel + 1) input tbl acc = some r := by
  induction fuel generalizing input tbl acc with
  | zero => simp [parse_body_loop] at h
  | succ fuel ih =>
    rw [parse_body_loop_succ] at h ⊢
    by_cases hs : skip_space input = []
    · rw [if_pos hs] at h ⊢; exact h
    · rw [if_neg hs] at h ⊢
      rcases hp : parse input tbl with _ | ⟨e | ⟨item, rest⟩, table1⟩
      · rw [hp] at h; exact h
      · rw [hp] at h; exact h
      · rw [hp] at h
        exact ih _ _ _ h

theorem parse_body_loop_adequate (fuel : Nat) (input : Str) (tbl : SymTab) (acc : List Value)
    (h : input.length + 1 ≤ fuel) : parse_body_loop fuel input tbl acc ≠ none := by
  induction fuel generalizing input tbl acc with
  | zero => omega
  | succ fuel ih =>
    rw [parse_body_loop_succ]
    by_cases hs : skip_space input = []
    · simp [hs]
    · rw [if_neg hs]
      rcases hp : parse input tbl with _ | ⟨e | ⟨item, rest⟩, table1⟩
      · exact absurd hp (parse_total input tbl)
      · simp
      · have := (parse_length _).1 _ _ _ _ _ hp
        exact ih _ _ _ (by omega)

theorem parse_body_loop_fuel (fuel fuel' : Nat) (input : Str) (tbl : SymTab) (acc : List Value)
    (h : input.length + 1 ≤ fuel) (h' : input.length + 1 ≤ fuel') :
    parse_body_loop fuel input tbl acc = parse_body_loop fuel' input tbl acc := by
  have mono : ∀ f g, f ≤ g → ∀ r, parse_body_loop f input tbl acc = some r →
      parse_body_loop g input tbl acc = some r := by
    intro f g hfg r hr
    induction hfg with
    | refl => exact hr
    | step _ ih => exact parse_body_loop_mono_step _ _ _ _ _ ih
  cases hr : parse_body_loop fuel input tbl acc with
  | none => exact absurd hr (parse_body_loop_adequate _ _ _ _ h)
  | some r =>
    cases hr' : parse_body_loop fuel' input tbl acc with
    | none => exact absurd hr' (parse_body_loop_adequate _ _ _ _ h')
    | some r' =>
      have h1 := mono fuel (max fuel fuel') (le_max_left _ _) r hr
      have h2 := mono fuel' (max fuel fuel') (le_max_right _ _) r' hr'
      rw [h1] at h2
      exact h2

theorem parse_body_total (input : Str) (tbl : SymTab) : parse_body input tbl ≠ none :=
  parse_body_loop_adequate _ _ _ _ (Nat.le_refl _)

/-- One round of `parse_body`: nothing on an exhausted buffer, otherwise the
expression `parse` reads followed by what `parse_body` reads after it. -/
theorem parse_body_unfold (input : Str) (tbl : SymTab) :
    parse_body input tbl =
      if skip_space input = [] then some (.ok [], tbl)
      else
        match parse input tbl with
        | none => none
        | some (.error e, table1) => some (.error e, table1)
        | some (.ok (item, rest), table1) =>
          match parse_body rest table1 with
          | none => none
          | some (.error e, table2) => some (.error e, table2)
          | some (.ok vs, table2) => some (.ok (item :: vs), table2) := by
  rw [parse_body, parse_body_loop_succ]
  by_cases hs : skip_space input = []
  · simp [hs]
  · simp only [hs, if_false]
    rcases hp : parse input tbl with _ | ⟨e | ⟨item, rest⟩, table1⟩
    · rfl
    · rfl
    · simp only
      have hlen := (parse_length _).1 _ _ _ _ _ hp
      rw [parse_body_loop_acc, parse_body,
        parse_body_loop_fuel input.length (rest.length + 1) rest table1 [] (by omega)
          (Nat.le_refl _)]
      rcases parse_body_loop (rest.length + 1) rest table1 [] with _ | ⟨r | vs, table2⟩
      · rfl
      · rfl
      · simp

theorem skip_space_eq_nil (input : Str) :
    skip_space input = [] ↔ ∀ c ∈ input, isspace c = true := by
  induction input with
  | nil => simp [skip_space]
  | cons c cs ih =>
    by_cases h : isspace c = true
    · simp [skip_space, h, ih]
    · simp [skip_space, h]

theorem parse_fails_on_blank (input : Str) (tbl : SymTab) (h : skip_space input = []) :
    parse input tbl = some (.error (.runtime_error "unexpected end of input!".toList), tbl) := by
  rw [parse, parse_expression_succ]
  simp [next_char, h]

theorem reads_all_of_parse_body (n : Nat) : ∀ (input : Str) (tbl : SymTab) (vs : List Value)
    (table2 : SymTab), input.length ≤ n → parse_body input tbl = some (.ok vs, table2) →
    reads_all input tbl vs table2 := by
  induction n with
  | zero =>
    intro input tbl vs table2 hlen h
    have hnil : input = [] := List.length_eq_zero.mp (Nat.le_zero.mp hlen)
    subst hnil
    rw [parse_body_unfold] at h
    simp only [skip_space, if_true, Option.some.injEq, Prod.mk.injEq, Except.ok.injEq] at h
    rw [← h.1, ← h.2]
    exact reads_all.done _ _ (by simp)
  | succ n ih =>
    intro input tbl vs table2 hlen h
    rw [parse_body_unfold] at h
    by_cases hs : skip_space input = []
    · rw [if_pos hs] at h
      simp only [Option.some.injEq, Prod.mk.injEq, Except.ok.injEq] at h
      rw [← h.1, ← h.2]
      exact reads_all.done _ _ ((skip_space_eq_nil input).mp hs)
    · rw [if_neg hs] at h
      rcases hp : parse input tbl with _ | ⟨e | ⟨item, rest⟩, table1⟩
      · rw [hp] at h; simp at h
      · rw [hp] at h; simp at h
      · rw [hp] at h
        simp only at h
        have hl := (parse_length _).1 _ _ _ _ _ hp
        rcases hb : parse_body rest table1 with _ | ⟨e | tail, table3⟩
        · rw [hb] at h; simp at h
        · rw [hb] at h; simp at h
        · rw [hb] at h
          simp only [Option.some.injEq, Prod.mk.injEq, Except.ok.injEq] at h
          rw [← h.1, ← h.2]
          exact reads_all.step _ _ _ _ _ _ _ hp (ih rest table1 tail table3 (by omega) hb)

theorem parse_body_of_reads_all (input : Str) (tbl : SymTab) (vs : List Value)
    (table2 : SymTab) (h : reads_all input tbl vs table2) :
    parse_body input tbl = some (.ok vs, table2) := by
  induction h with
  | done input tbl hws =>
    rw [parse_body_unfold, if_pos ((skip_space_eq_nil input).mpr hws)]
  | step input tbl item rest table1 vs table2 hp _ ih =>
    rw [parse_body_unfold]
    have hs : skip_space input ≠ [] := by
      intro hs
      rw [parse_fails_on_blank input tbl hs] at hp
      simp at hp
    rw [if_neg hs, hp]
    simp only
    rw [ih]

/-! ## Claim on `parse_body` -/

/-- C17. `parse_body` collects every top-level expression: it always returns;
on a text that is empty or only whitespace it returns the empty sequence;
otherwise, when it succeeds, its first element is the value `parse` reads from
the text and the remaining elements are what `parse_body` yields on the unread
rest after that expression, with the symbol table threaded through; and it
succeeds with the values `vs` exactly when the buffer is read to its end as
`vs`, one `parse` after the other in source order, until only whitespace is
left. -/
theorem parse_body_collects (input : Str) (symbol_table : SymTab) :
    parse_body input symbol_table ≠ none ∧
    ((∀ c ∈ input, isspace c = true) →
      parse_body input symbol_table = some (.ok [], symbol_table)) ∧
    (∀ vs table2, ¬ (∀ c ∈ input, isspace c = true) →
      parse_body input symbol_table = some (.ok vs, table2) →
      ∃ item rest table1 tail,
        parse input symbol_table = some (.ok (item, rest), table1) ∧
        parse_body rest table1 = some (.ok tail, table2) ∧ vs = item :: tail) ∧
    (∀ vs table2, parse_body input symbol_table = some (.ok vs, table2) ↔
      reads_all input symbol_table vs table2) := by
  refine ⟨parse_body_total input symbol_table, ?_, ?_, ?_⟩
  · intro h
    rw [parse_body_unfold, if_pos ((skip_space_eq_nil input).mpr h)]
  · intro vs table2 hws h
    have hs : skip_space input ≠ [] := fun hs => hws ((skip_space_eq_nil input).mp hs)
    rw [parse_body_unfold, if_neg hs] at h
    rcases hp : parse input symbol_table with _ | ⟨e | ⟨item, rest⟩, table1⟩
    · rw [hp] at h; simp at h
    · rw [hp] at h; simp at h
    · rw [hp] at h
      simp only at h
      rcases hb : parse_body rest table1 with _ | ⟨e | tail, table3⟩
      · rw [hb] at h; simp at h
      · rw [hb] at h; simp at h
      · rw [hb] at h
        simp only [Option.some.injEq, Prod.mk.injEq, Except.ok.injEq] at h
        exact ⟨item, rest, table1, tail, rfl, by rw [hb, h.2], h.1.symm⟩
  · intro vs table2
    exact ⟨reads_all_of_parse_body input.length input symbol_table vs table2 (Nat.le_refl _),
      parse_body_of_reads_all input symbol_table vs table2⟩

/-- Witness of C17: the text `(1 2) 3 x ` gives three values in source order,
the first being what `parse` reads and the others what `parse_body` reads from
the rest ` 3 x `; a blank text gives none. -/
theorem parse_body_collects_witness :
    parse_body "(1 2) 3 x ".toList initial_table
      = some (.ok [build_list [.number 1, .number 2] nil, .number 3, .symbol 8],
          initial_table ++ ["x".toList]) ∧
    parse "(1 2) 3 x ".toList initial_table
      = some (.ok (build_list [.number 1, .number 2] nil, " 3 x ".toList), initial_table) ∧
    parse_body " 3 x ".toList initial_table
      = some (.ok [.number 3, .symbol 8], initial_table ++ ["x".toList]) ∧
    parse_body " \t\n".toList initial_table = some (.ok [], initial_table) ∧
    parse_body "".toList initial_table = some (.ok [], initial_table) :=
  ⟨by decide, by decide, by decide,
    (parse_body_collects " \t\n".toList initial_table).2.1 (by decide),
    (parse_body_collects "".toList initial_table).2.1 (by decide)⟩

/-! ## Parentheses the reader consumes -/

theorem paren_excess_append (s t : Str) :
    paren_excess (s ++ t) = paren_excess s + paren_excess t := by
  simp only [paren_excess, List.count_append, Nat.cast_add]
  ring

theorem paren_excess_cons (c : Char) (s : Str) :
    paren_excess (c :: s) = paren_excess [c] + paren_excess s :=
  paren_excess_append [c] s

theorem paren_excess_of_no_paren (s : Str) (h : ∀ c ∈ s, c ≠ '(' ∧ c ≠ ')') :
    paren_excess s = 0 := by
  have h1 : s.count '(' = 0 := List.count_eq_zero_of_not_mem (fun hm => (h _ hm).1 rfl)
  have h2 : s.count ')' = 0 := List.count_eq_zero_of_not_mem (fun hm => (h _ hm).2 rfl)
  simp [paren_excess, h1, h2]

theorem isspace_no_paren (c : Char) (h : isspace c = true) : c ≠ '(' ∧ c ≠ ')' := by
  constructor <;> (intro hc; subst hc; exact absurd h (by decide))

theorem skip_space_split (input : Str) :
    ∃ ws, input = ws ++ skip_space input ∧ ∀ c ∈ ws, isspace c = true := by
  induction input with
  | nil => exact ⟨[], rfl, by simp⟩
  | cons c cs ih =>
    by_cases h : isspace c = true
    · obtain ⟨ws, h1, h2⟩ := ih
      refine ⟨c :: ws, ?_, ?_⟩
      · simp only [skip_space, h, if_true, List.cons_append]
        rw [← h1]
      · intro x hx
        rcases List.mem_cons.mp hx with rfl | hx
        · exact h
        · exact h2 x hx
    · exact ⟨[], by simp [skip_space, h], by simp⟩

theorem paren_excess_blank (ws : Str) (h : ∀ c ∈ ws, isspace c = true) : paren_excess ws = 0 :=
  paren_excess_of_no_paren ws (fun c hc => isspace_no_paren c (h c hc))

theorem skip_space_append_blank (ws s : Str) (h : ∀ c ∈ ws, isspace c = true) :
    skip_space (ws ++ s) = skip_space s := by
  induction ws with
  | nil => rfl
  | cons c cs ih =>
    have hc := h c (List.mem_cons_self _ _)
    simp only [List.cons_append, skip_space, hc, if_true]
    exact ih (fun x hx => h x (List.mem_cons_of_mem _ hx))

theorem skip_space_append_ne_nil (s t : Str) (h : skip_space s ≠ []) :
    skip_space (s ++ t) ≠ [] := by
  induction s with
  | nil => simp [skip_space] at h
  | cons c cs ih =>
    by_cases hc : isspace c = true
    · simp only [List.cons_append, skip_space, hc, if_true] at h ⊢
      exact ih h
    · simp [skip_space, hc]

/-- The text a successful call consumes: balanced and not blank for an
expression, one closing parenthesis in excess for the rest of a list. -/
theorem parse_balanced (fuel : Nat) :
    (∀ input tbl v rest tbl', parse_expression fuel input tbl = some (.ok (v, rest), tbl') →
      ∃ c, input = c ++ rest ∧ paren_excess c = 0 ∧ skip_space c ≠ []) ∧
    (∀ input tbl contents v rest tbl',
      parse_list fuel input tbl contents = some (.ok (v, rest), tbl') →
      ∃ c, input = c ++ rest ∧ paren_excess c = -1) := by
  induction fuel with
  | zero =>
    constructor
    · intro input tbl v rest tbl' h; simp [parse_expression] at h
    · intro input tbl contents v rest tbl' h; simp [parse_list] at h
  | succ fuel ih =>
    obtain ⟨ihE, ihL⟩ := ih
    constructor
    · intro input tbl v rest tbl' h
      rw [parse_expression_succ] at h
      cases hn : next_char input with
      | error e => rw [hn] at h; simp at h
      | ok p =>
        obtain ⟨next, after⟩ := p
        have hsk := next_char_ok input next after hn
        obtain ⟨ws, hws, hblank⟩ := skip_space_split input
        rw [hsk] at hws
        have hnsp := skip_space_head input next after hsk
        rw [hn] at h
        simp only at h
        split at h
        · rename_i hopen
          obtain ⟨c, hc, hex⟩ := ihL _ _ _ _ _ _ h
          refine ⟨ws ++ '(' :: c, ?_, ?_, ?_⟩
          · rw [hws, hopen, hc]; simp
          · rw [paren_excess_append, paren_excess_cons, paren_excess_blank ws hblank, hex]
            decide
          · rw [skip_space_append_blank ws _ hblank]
            simp [skip_space, isspace]
        · split at h
          · simp at h
          · rename_i h1 h2
            have hsp : is_special next = false := by
              simp [is_special, h1, h2, hnsp]
            have htd := List.takeWhile_append_dropWhile (fun c => !is_special c) (next :: after)
            have htok : ∀ c ∈ (next :: after).takeWhile (fun c => !is_special c),
                c ≠ '(' ∧ c ≠ ')' := by
              intro c hc
              have := List.mem_takeWhile_imp (p := fun c => !is_special c) hc
              have := not_special_spec c (by simpa using this)
              exact ⟨this.2.1, this.2.2⟩
            have hrest : ∀ r, r = (next :: after).dropWhile (fun c => !is_special c) →
                ∃ c, input = c ++ r ∧ paren_excess c = 0 ∧ skip_space c ≠ [] := by
              intro r hr
              refine ⟨ws ++ (next :: after).takeWhile (fun c => !is_special c), ?_, ?_, ?_⟩
              · rw [hr, List.append_assoc, htd, hws]
              · rw [paren_excess_append, paren_excess_blank ws hblank,
                  paren_excess_of_no_paren _ htok]
                rfl
              · rw [skip_space_append_blank ws _ hblank]
                simp [List.takeWhile, hsp, skip_space, hnsp]
            split at h
            · simp only [Option.some.injEq, Prod.mk.injEq, Except.ok.injEq] at h
              exact hrest rest h.1.2.symm
            · split at h
              · simp at h
              · simp only [Option.some.injEq, Prod.mk.injEq, Except.ok.injEq] at h
                exact hrest rest h.1.2.symm
    · intro input tbl contents v rest tbl' h
      rw [parse_list_succ] at h
      cases hn : next_char input with
      | error e => rw [hn] at h; simp at h
      | ok p =>
        obtain ⟨next, after⟩ := p
        have hsk := next_char_ok input next after hn
        obtain ⟨ws, hws, hblank⟩ := skip_space_split input
        rw [hsk] at hws
        rw [hn] at h
        simp only at h
        split at h
        · rename_i hclose
          simp only [Option.some.injEq, Prod.mk.injEq, Except.ok.injEq] at h
          refine ⟨ws ++ [')'], ?_, ?_⟩
          · rw [hws, hclose, ← h.1.2]; simp
          · rw [paren_excess_append, paren_excess_blank ws hblank]
            decide
        · split at h
          · rename_i hclose hdot
            split at h
            · simp at h
            · split at h
              · simp at h
              · simp at h
              · rename_i end_ rest1 table1 hpe
                obtain ⟨c1, hc1, hex1, _⟩ := ihE _ _ _ _ _ hpe
                split at h
                · simp at h
                · rename_i close after_close hnc
                  have hsk2 := next_char_ok _ _ _ hnc
                  obtain ⟨ws2, hws2, hblank2⟩ := skip_space_split rest1
                  rw [hsk2] at hws2
                  split at h
                  · simp at h
                  · rename_i hcl
                    simp only [ne_eq, Decidable.not_not] at hcl
                    simp only [Option.some.injEq, Prod.mk.injEq, Except.ok.injEq] at h
                    refine ⟨ws ++ '.' :: c1 ++ ws2 ++ [')'], ?_, ?_⟩
                    · rw [hws, hdot, hc1, hws2, hcl, ← h.1.2]; simp
                    · rw [paren_excess_append, paren_excess_append, paren_excess_append,
                        paren_excess_cons, paren_excess_blank ws hblank,
                        paren_excess_blank ws2 hblank2, hex1]
                      decide
          · split at h
            · simp at h
            · simp at h
            · rename_i item rest1 table1 hpe
              obtain ⟨c1, hc1, hex1, _⟩ := ihE _ _ _ _ _ hpe
              obtain ⟨c2, hc2, hex2⟩ := ihL _ _ _ _ _ _ h
              refine ⟨ws ++ c1 ++ c2, ?_, ?_⟩
              · rw [hws, hc1, hc2]; simp
              · rw [paren_excess_append, paren_excess_append, paren_excess_blank ws hblank,
                  hex1, hex2]
                rfl

/-! ## Malformed text -/

theorem next_char_of_skip (input : Str) (c : Char) (cs : Str) (h : skip_space input = c :: cs) :
    next_char input = .ok (c, cs) := by
  simp [next_char, h]

theorem next_char_of_blank (input : Str) (h : skip_space input = []) :
    next_char input = .error (.runtime_error "unexpected end of input!".toList) := by
  simp [next_char, h]

theorem reads_all_balanced (input : Str) (tbl : SymTab) (vs : List Value) (table2 : SymTab)
    (h : reads_all input tbl vs table2) : paren_excess input = 0 := by
  induction h with
  | done input tbl hws => exact paren_excess_blank input hws
  | step input tbl item rest table1 vs table2 hp _ ih =>
    obtain ⟨c, hc, hex, _⟩ := (parse_balanced _).1 _ _ _ _ _ hp
    rw [hc, paren_excess_append, hex, ih]
    rfl

theorem parse_result_cases (input : Str) (tbl : SymTab) :
    (∃ e t1, parse input tbl = some (.error e, t1)) ∨
    (∃ v rest t1, parse input tbl = some (.ok (v, rest), t1)) := by
  rcases hp : parse input tbl with _ | ⟨e | ⟨v, rest⟩, t1⟩
  · exact absurd hp (parse_total input tbl)
  · exact Or.inl ⟨e, t1, rfl⟩
  · exact Or.inr ⟨v, rest, t1, rfl⟩

theorem parse_body_result_cases (input : Str) (tbl : SymTab) :
    (∃ e t1, parse_body input tbl = some (.error e, t1)) ∨
    (∃ vs t1, parse_body input tbl = some (.ok vs, t1)) := by
  rcases hp : parse_body input tbl with _ | ⟨e | vs, t1⟩
  · exact absurd hp (parse_body_total input tbl)
  · exact Or.inl ⟨e, t1, rfl⟩
  · exact Or.inr ⟨vs, t1, rfl⟩

/-- A text whose first list never closes makes `parse` fail. -/
theorem parse_fails_unclosed (t : Str) (tbl : SymTab)
    (h : ∀ p q, t = p ++ q → (∀ c ∈ p, isspace c = true) ∨ 0 < paren_excess p) :
    ∃ e t1, parse t tbl = some (.error e, t1) := by
  rcases parse_result_cases t tbl with hf | ⟨v, rest, t1, hok⟩
  · exact hf
  · obtain ⟨c, hc, hex, hne⟩ := (parse_balanced _).1 _ _ _ _ _ hok
    rcases h c rest hc with hb | hb
    · exact absurd ((skip_space_eq_nil c).mpr hb) hne
    · omega

/-- A text with unbalanced parentheses makes `parse_body` fail. -/
theorem parse_body_fails_unbalanced (t : Str) (tbl : SymTab) (h : paren_excess t ≠ 0) :
    ∃ e t1, parse_body t tbl = some (.error e, t1) := by
  rcases parse_body_result_cases t tbl with hf | ⟨vs, t1, hok⟩
  · exact hf
  · exact absurd (reads_all_balanced t tbl vs t1
      (reads_all_of_parse_body t.length t tbl vs t1 (Nat.le_refl _) hok)) h

theorem parse_body_of_parse_error (t : Str) (tbl : SymTab) (e : Err) (t1 : SymTab)
    (hs : skip_space t ≠ []) (h : parse t tbl = some (.error e, t1)) :
    parse_body t tbl = some (.error e, t1) := by
  rw [parse_body_unfold, if_neg hs, h]

/-- C15. The reader rejects malformed text.  `parse` and `parse_body` always
return, so failing means returning an exception and no value.
(a) End of input: `parse` fails with "unexpected end of input!" on an empty or
blank text; the list loop fails with it when the text ends before the closing
parenthesis, and so does a dotted tail whose closing parenthesis is missing;
whenever the first list of the text never closes `parse` fails, and whenever
the text has more opening than closing parentheses `parse_body` fails.
(b) A `)` as first non-blank character makes `parse` and `parse_body` fail with
"improper end to list".
(c) A `.` right after `(` fails with "leading . in list", in the list loop at
any depth and so in `parse` and `parse_body` for the outermost list.
(d) After a dotted tail, a next non-blank character other than `)` fails with
"improper improper list".
An exception raised inside a nested call is the exception of every enclosing
call, up to `parse` and `parse_body`. -/
theorem reader_rejects_malformed (symbol_table : SymTab) (t : Str) (fuel : Nat) (input : Str)
    (contents : List Value) :
    (parse t symbol_table ≠ none ∧ parse_body t symbol_table ≠ none) ∧
    -- (a)
    ((∀ c ∈ t, isspace c = true) →
      parse t symbol_table
        = some (.error (.runtime_error "unexpected end of input!".toList), symbol_table)) ∧
    (skip_space input = [] →
      parse_list (fuel + 1) input symbol_table contents
        = some (.error (.runtime_error "unexpected end of input!".toList), symbol_table)) ∧
    (∀ after end_ rest table1, skip_space input = '.' :: after → contents ≠ [] →
      parse_expression fuel after symbol_table = some (.ok (end_, rest), table1) →
      skip_space rest = [] →
      parse_list (fuel + 1) input symbol_table contents
        = some (.error (.runtime_error "unexpected end of input!".toList), table1)) ∧
    ((∀ p q, t = p ++ q → (∀ c ∈ p, isspace c = true) ∨ 0 < paren_excess p) →
      ∃ e table1, parse t symbol_table = some (.error e, table1)) ∧
    (0 < paren_excess t → ∃ e table1, parse_body t symbol_table = some (.error e, table1)) ∧
    -- (b)
    (∀ cs, skip_space t = ')' :: cs →
      parse t symbol_table
        = some (.error (.runtime_error "improper end to list".toList), symbol_table) ∧
      parse_body t symbol_table
        = some (.error (.runtime_error "improper end to list".toList), symbol_table)) ∧
    -- (c)
    (∀ after, skip_space input = '.' :: after →
      parse_list (fuel + 1) input symbol_table []
        = some (.error (.runtime_error "leading . in list".toList), symbol_table)) ∧
    (∀ r after, skip_space t = '(' :: r → skip_space r = '.' :: after →
      parse t symbol_table
        = some (.error (.runtime_error "leading . in list".toList), symbol_table) ∧
      parse_body t symbol_table
        = some (.error (.runtime_error "leading . in list".toList), symbol_table)) ∧
    -- (d)
    (∀ after end_ rest table1 c cs, skip_space input = '.' :: after → contents ≠ [] →
      parse_expression fuel after symbol_table = some (.ok (end_, rest), table1) →
      skip_space rest = c :: cs → c ≠ ')' →
      parse_list (fuel + 1) input symbol_table contents
        = some (.error (.runtime_error "improper improper list".toList), table1)) ∧
    -- exceptions pass through the enclosing calls
    (∀ after e table1, skip_space input = '(' :: after →
      parse_list fuel after symbol_table [] = some (.error e, table1) →
      parse_expression (fuel + 1) input symbol_table = some (.error e, table1)) ∧
    (∀ c after e table1, skip_space input = c :: after → c ≠ ')' → c ≠ '.' →
      parse_expression fuel (c :: after) symbol_table = some (.error e, table1) →
      parse_list (fuel + 1) input symbol_table contents = some (.error e, table1)) ∧
    (∀ c after item rest table1 e table2, skip_space input = c :: after → c ≠ ')' → c ≠ '.' →
      parse_expression fuel (c :: after) symbol_table = some (.ok (item, rest), table1) →
      parse_list fuel rest table1 (contents ++ [item]) = some (.error e, table2) →
      parse_list (fuel + 1) input symbol_table contents = some (.error e, table2)) ∧
    (∀ after e table1, skip_space input = '.' :: after → contents ≠ [] →
      parse_expression fuel after symbol_table = some (.error e, table1) →
      parse_list (fuel + 1) input symbol_table contents = some (.error e, table1)) ∧
    (∀ e table1, skip_space t ≠ [] → parse t symbol_table = some (.error e, table1) →
      parse_body t symbol_table = some (.error e, table1)) ∧
    (∀ item rest table1 e table2, parse t symbol_table = some (.ok (item, rest), table1) →
      parse_body rest table1 = some (.error e, table2) →
      parse_body t symbol_table = some (.error e, table2)) := by
  have hlen : ∀ cs : List Value, cs ≠ [] → cs.length ≠ 0 :=
    fun cs h h0 => h (List.length_eq_zero.mp h0)
  refine ⟨⟨parse_total _ _, parse_body_total _ _⟩, ?_, ?_, ?_, parse_fails_unclosed t _, ?_,
    ?_, ?_, ?_, ?_, ?_, ?_, ?_, ?_, ?_, ?_⟩
  · intro h
    exact parse_fails_on_blank t _ ((skip_space_eq_nil t).mpr h)
  · intro h
    rw [parse_list_succ, next_char_of_blank input h]
  · intro after end_ rest table1 h hc hpe hrest
    rw [parse_list_succ, next_char_of_skip input _ _ h]
    simp only [if_neg (hlen contents hc), hpe, next_char_of_blank rest hrest]
    simp
  · intro h
    exact parse_body_fails_unbalanced t _ (by omega)
  · intro cs h
    have hp : parse t symbol_table
        = some (.error (.runtime_error "improper end to list".toList), symbol_table) := by
      rw [parse, parse_expression_succ, next_char_of_skip t _ _ h]
      simp
    exact ⟨hp, parse_body_of_parse_error t _ _ _ (by rw [h]; simp) hp⟩
  · intro after h
    rw [parse_list_succ, next_char_of_skip input _ _ h]
    simp
  · intro r after h hr
    have hp : parse t symbol_table
        = some (.error (.runtime_error "leading . in list".toList), symbol_table) := by
      rw [parse, parse_expression_succ, next_char_of_skip t _ _ h]
      simp only [if_true]
      have hf : 2 * t.length = (2 * t.length - 1) + 1 := by
        have := skip_space_length_le t
        rw [h] at this
        simp only [List.length_cons] at this
        omega
      rw [hf, parse_list_succ, next_char_of_skip r _ _ hr]
      simp
    exact ⟨hp, parse_body_of_parse_error t _ _ _ (by rw [h]; simp) hp⟩
  · intro after end_ rest table1 c cs h hc hpe hrest hne
    rw [parse_list_succ, next_char_of_skip input _ _ h]
    simp only [if_neg (hlen contents hc), hpe, next_char_of_skip rest _ _ hrest]
    simp [hne]
  · intro after e table1 h hpl
    rw [parse_expression_succ, next_char_of_skip input _ _ h]
    simp only [if_true, hpl]
  · intro c after e table1 h h1 h2 hpe
    rw [parse_list_succ, next_char_of_skip input _ _ h]
    simp only [if_neg h1, if_neg h2, hpe]
  · intro c after item rest table1 e table2 h h1 h2 hpe hpl
    rw [parse_list_succ, next_char_of_skip input _ _ h]
    simp only [if_neg h1, if_neg h2, hpe, hpl]
  · intro after e table1 h hc hpe
    rw [parse_list_succ, next_char_of_skip input _ _ h]
    simp only [if_neg (hlen contents hc), hpe]
    simp
  · intro e table1 hs hp
    exact parse_body_of_parse_error t _ e table1 hs hp
  · intro item rest table1 e table2 hp hb
    have hs : skip_space t ≠ [] := by
      intro hs
      rw [parse_fails_on_blank t _ hs] at hp
      simp at hp
    rw [parse_body_unfold, if_neg hs, hp]
    simp only [hb]

/-- Witness of C15: `(1 2`, `)`, `(. 1)` and `(1 . 2 3)` make `parse` and
`parse_body` fail; the blank text makes `parse` fail. -/
theorem reader_rejects_malformed_witness :
    (parse ")".toList initial_table
        = some (.error (.runtime_error "improper end to list".toList), initial_table) ∧
      parse_body ")".toList initial_table
        = some (.error (.runtime_error "improper end to list".toList), initial_table)) ∧
    (parse "(. 1)".toList initial_table
        = some (.error (.runtime_error "leading . in list".toList), initial_table) ∧
      parse_body "(. 1)".toList initial_table
        = some (.error (.runtime_error "leading . in list".toList), initial_table)) ∧
    parse "  ".toList initial_table
      = some (.error (.runtime_error "unexpected end of input!".toList), initial_table) ∧
    (∃ e table1, parse_body "(1 2".toList initial_table = some (.error e, table1)) ∧
    parse "(1 2".toList initial_table
      = some (.error (.runtime_error "unexpected end of input!".toList), initial_table) ∧
    parse_body "(1 2".toList initial_table
      = some (.error (.runtime_error "unexpected end of input!".toList), initial_table) ∧
    parse "(1 . 2 3)".toList initial_table
      = some (.error (.runtime_error "improper improper list".toList), initial_table) ∧
    parse_body "(1 . 2 3)".toList initial_table
      = some (.error (.runtime_error "improper improper list".toList), initial_table) ∧
    parse_body "(1 (2 . 3 4))".toList initial_table
      = some (.error (.runtime_error "improper improper list".toList), initial_table) :=
  ⟨(reader_rejects_malformed initial_table ")".toList 0 [] []).2.2.2.2.2.2.1 [] (by decide),
    (reader_rejects_malformed initial_table "(. 1)".toList 0 [] []).2.2.2.2.2.2.2.2.1
      ". 1)".toList " 1)".toList (by decide) (by decide),
    (reader_rejects_malformed initial_table "  ".toList 0 [] []).2.1 (by decide),
    (reader_rejects_malformed initial_table "(1 2".toList 0 [] []).2.2.2.2.2.1 (by decide),
    by decide, by decide, by decide, by decide, by decide⟩

/-! ## Atoms -/

theorem any_not_isdigit (tok : Str) :
    tok.any (fun c => !isdigit c) = !tok.all isdigit := by
  induction tok with
  | nil => rfl
  | cons c cs ih => simp [List.any_cons, List.all_cons, ih, Bool.not_and]

theorem stoi_eq (tok : Str) :
    stoi tok = if decimal_value tok ≤ 2147483647 then .ok (decimal_value tok : Int)
      else .error .out_of_range := rfl

/-- The atom branch of `parse_expression` on a token that starts the unread
text and is followed by the end of the text, a parenthesis or whitespace. -/
theorem parse_expression_token (fuel : Nat) (c : Char) (cs rest : Str) (tbl : SymTab)
    (htok : ∀ x ∈ c :: cs, is_special x = false)
    (hrest : ∀ x xs, rest = x :: xs → is_special x = true) :
    parse_expression (fuel + 1) (c :: cs ++ rest) tbl =
      match atom_of_token (c :: cs) tbl with
      | (.error e, table1) => some (.error e, table1)
      | (.ok atom, table1) => some (.ok (atom, rest), table1) := by
  have hc := not_special_spec c (htok c (List.mem_cons_self _ _))
  have htw := takeWhile_token (c :: cs) rest htok hrest
  rw [parse_expression_succ, List.cons_append, next_char_cons c _ hc.1]
  simp only [if_neg hc.2.1, if_neg hc.2.2]
  rw [← List.cons_append, htw.1, htw.2, Bool.false_or, any_not_isdigit, atom_of_token]
  by_cases hd : (c :: cs).all isdigit = true
  · rw [hd, stoi_eq]
    simp only [Bool.not_true, Bool.false_eq_true, if_false, if_true]
    by_cases hv : decimal_value (c :: cs) ≤ 2147483647
    · simp only [hv, if_true]
      rw [int2value_of_int _ (by omega) (by omega)]
    · simp only [hv, if_false]
  · simp only [Bool.not_eq_true] at hd
    rw [hd]
    simp

theorem next_char_append_blank (ws s : Str) (h : ∀ c ∈ ws, isspace c = true) :
    next_char (ws ++ s) = next_char s := by
  unfold next_char
  rw [skip_space_append_blank ws s h]

theorem parse_expression_append_blank (fuel : Nat) (ws s : Str) (tbl : SymTab)
    (h : ∀ c ∈ ws, isspace c = true) :
    parse_expression fuel (ws ++ s) tbl = parse_expression fuel s tbl := by
  cases fuel with
  | zero => simp [parse_expression]
  | succ fuel => rw [parse_expression_succ, parse_expression_succ, next_char_append_blank ws s h]

theorem parse_list_append_blank (fuel : Nat) (ws s : Str) (tbl : SymTab) (contents : List Value)
    (h : ∀ c ∈ ws, isspace c = true) :
    parse_list fuel (ws ++ s) tbl contents = parse_list fuel s tbl contents := by
  cases fuel with
  | zero => simp [parse_list]
  | succ fuel => rw [parse_list_succ, parse_list_succ, next_char_append_blank ws s h]

theorem delimited_cons (c : Char) (cs : Str) (h : is_special c = true) :
    ∀ x xs, c :: cs = x :: xs → is_special x = true := by
  intro x xs hx
  simp only [List.cons.injEq] at hx
  rw [← hx.1]; exact h

/-- C16 (amended). Atom classification: a maximal run `tok` of characters that
are neither whitespace nor parentheses, preceded by any whitespace and
followed by the end of the text, a parenthesis or whitespace, is read as
exactly one atom, the text after it staying unread, when it stands at top
level, or as an element inside a list and does not begin with a dot.  The atom
is the Integer with the base-10 value of `tok` when every character of `tok`
is a decimal digit (an exception when that value does not fit an `int`), and
otherwise the Symbol interned under exactly `tok`.  So `-5` and `3x` are
Symbols. -/
theorem atom_classification (symbol_table : SymTab) (fuel : Nat) (ws tok rest : Str)
    (contents : List Value) (hws : ∀ c ∈ ws, isspace c = true) (hne : tok ≠ [])
    (htok : ∀ c ∈ tok, is_special c = false)
    (hrest : ∀ c cs, rest = c :: cs → is_special c = true) :
    (parse (ws ++ tok ++ rest) symbol_table =
      match atom_of_token tok symbol_table with
      | (.error e, table1) => some (.error e, table1)
      | (.ok atom, table1) => some (.ok (atom, rest), table1)) ∧
    (tok.head? ≠ some '.' →
      parse_list (fuel + 2) (ws ++ tok ++ rest) symbol_table contents =
        match atom_of_token tok symbol_table with
        | (.error e, table1) => some (.error e, table1)
        | (.ok atom, table1) => parse_list (fuel + 1) rest table1 (contents ++ [atom])) ∧
    (tok.all isdigit = false →
      atom_of_token tok symbol_table
        = (.ok (get_symbol tok symbol_table).1, (get_symbol tok symbol_table).2) ∧
      get_symbol_name (get_symbol tok symbol_table).2 (get_symbol tok symbol_table).1
        = .ok tok) ∧
    (tok.all isdigit = true → decimal_value tok ≤ 2147483647 →
      atom_of_token tok symbol_table = (.ok (.number (decimal_value tok)), symbol_table)) ∧
    (tok.all isdigit = true → ¬ decimal_value tok ≤ 2147483647 →
      atom_of_token tok symbol_table = (.error .out_of_range, symbol_table)) := by
  obtain ⟨c, cs, rfl⟩ : ∃ c cs, tok = c :: cs := by
    cases tok with
    | nil => exact absurd rfl hne
    | cons c cs => exact ⟨c, cs, rfl⟩
  have hc := not_special_spec c (htok c (List.mem_cons_self _ _))
  refine ⟨?_, ?_, ?_, ?_, ?_⟩
  · rw [parse, List.append_assoc, parse_expression_append_blank _ ws _ _ hws]
    exact parse_expression_token _ c cs rest symbol_table htok hrest
  · intro hdot
    have hdot' : c ≠ '.' := by
      intro h; apply hdot; rw [h]; rfl
    rw [List.append_assoc, parse_list_append_blank _ ws _ _ _ hws, parse_list_succ,
      List.cons_append, next_char_cons c _ hc.1]
    simp only [if_neg hc.2.2, if_neg hdot']
    rw [← List.cons_append, parse_expression_token fuel c cs rest symbol_table htok hrest]
    rcases atom_of_token (c :: cs) symbol_table with ⟨e | atom, table1⟩
    · rfl
    · rfl
  · intro hd
    refine ⟨?_, get_symbol_name_get_symbol _ _⟩
    rw [atom_of_token, hd]
    simp
  · intro hd hv
    rw [atom_of_token, hd]
    simp [hv]
  · intro hd hv
    rw [atom_of_token, hd]
    simp [hv]

/-- Witness of C16: `-5` and `3x` are read as Symbols interned under their
text, `007` as the Integer 7, at top level and inside a list. -/
theorem atom_classification_witness :
    parse " -5 ".toList initial_table
      = some (.ok (.symbol 8, " ".toList), initial_table ++ ["-5".toList]) ∧
    parse_list 2 "3x)".toList initial_table [.number 1]
      = parse_list 1 ")".toList (initial_table ++ ["3x".toList]) [.number 1, .symbol 8] ∧
    parse "(1 3x 007)".toList initial_table
      = some (.ok (build_list [.number 1, .symbol 8, .number 7] nil, []),
          initial_table ++ ["3x".toList]) ∧
    parse "99999999999".toList initial_table = some (.error .out_of_range, initial_table) :=
  ⟨(atom_classification initial_table 0 " ".toList "-5".toList " ".toList [] (by decide)
      (by decide) (by decide) (delimited_cons ' ' [] (by decide))).1,
    (atom_classification initial_table 0 [] "3x".toList ")".toList [.number 1] (by decide)
      (by decide) (by decide) (delimited_cons ')' [] (by decide))).2.1 (by decide),
    by decide, by decide⟩

/-- Counterexample to C16 as stated: inside a list the run `.5`, which has a
character that is not a digit, is not read as a Symbol: `(a .5)` is read as the
pair of `a` and the Integer 5 and no symbol `.5` is interned; `(a .b c)` fails;
the run `.` itself is the mark of a dotted tail.  At top level `.5` is read as
a Symbol. -/
theorem atom_classification_counterexample :
    (∀ c ∈ ".5".toList, is_special c = false) ∧ ".5".toList.all isdigit = false ∧
    parse "(a .5)".toList initial_table
      = some (.ok (.pair (.symbol 8) (.number 5), []), initial_table ++ ["a".toList]) ∧
    parse "(a .5)".toList initial_table
      ≠ some (.ok (build_list [.symbol 8, .symbol 9] nil, []),
          initial_table ++ ["a".toList, ".5".toList]) ∧
    parse "(a .b c)".toList initial_table
      = some (.error (.runtime_error "improper improper list".toList),
          initial_table ++ ["a".toList, "b".toList]) ∧
    parse "(a . b)".toList initial_table
      = some (.ok (.pair (.symbol 8) (.symbol 9), []),
          initial_table ++ ["a".toList, "b".toList]) ∧
    parse ".5".toList initial_table
      = some (.ok (.symbol 8, []), initial_table ++ [".5".toList]) := by
  refine ⟨by decide, by decide, by decide, by decide, by decide, by decide, by decide⟩

/-! ## Operands of an application -/

theorem evaluate_args_mono (tbl : SymTab) (fuel fuel' : Nat) (hle : fuel ≤ fuel') (cur : Value)
    (env : Env) (acc : List Value) (r : Except Err (List Value) × Env)
    (h : evaluate_args tbl fuel cur env acc = some r) :
    evaluate_args tbl fuel' cur env acc = some r := by
  induction hle with
  | refl => exact h
  | step _ ih => exact (evaluate_mono_step tbl _).2 cur env acc r ih

theorem evaluates_unique (tbl : SymTab) (v : Value) (env : Env)
    (r r' : Except Err Value × Env) (h : evaluates tbl v env r) (h' : evaluates tbl v env r') :
    r = r' := by
  obtain ⟨f, hf⟩ := h
  obtain ⟨f', hf'⟩ := h'
  have h1 := evaluate_mono tbl f (max f f') (le_max_left _ _) v env r hf
  have h2 := evaluate_mono tbl f' (max f f') (le_max_right _ _) v env r' hf'
  rw [h1] at h2
  exact Option.some.inj h2

theorem evaluates_total (tbl : SymTab) (v : Value) (env : Env) : ∃ r, evaluates tbl v env r := by
  cases h : evaluate tbl (sizeOf v + 1) v env with
  | none => exact absurd h ((evaluate_total tbl _).1 v env (Nat.lt_succ_self _))
  | some r => exact ⟨r, _, h⟩

theorem evaluate_args_nil (tbl : SymTab) (fuel : Nat) (env : Env) (acc : List Value) :
    evaluate_args tbl (fuel + 1) nil env acc = some (.ok acc, env) := by
  rw [evaluate_args]
  simp

theorem evaluate_args_pair (tbl : SymTab) (fuel : Nat) (e d : Value) (env : Env)
    (acc : List Value) :
    evaluate_args tbl (fuel + 1) (.pair e d) env acc =
      match evaluate tbl fuel e env with
      | none => none
      | some (.error err, env1) => some (.error err, env1)
      | some (.ok x, env1) => evaluate_args tbl fuel d env1 (acc ++ [x]) := by
  rw [evaluate_args]
  simp [nil_eq, car, cdr]

/-- The operand loop computes what the operands give one after the other. -/
theorem evaluate_args_of_operands (tbl : SymTab) (es : List Value) (env : Env)
    (r : Except Err (List Value) × Env) (h : evaluates_operands tbl es env r) :
    ∀ acc, ∃ fuel, evaluate_args tbl fuel (build_list es nil) env acc =
      some (match r.1 with
        | .ok xs => .ok (acc ++ xs)
        | .error err => .error err, r.2) := by
  induction h with
  | done env =>
    intro acc
    exact ⟨1, by rw [show build_list [] nil = nil from rfl, evaluate_args_nil]; simp⟩
  | fail e es env err env1 he =>
    intro acc
    obtain ⟨f, hf⟩ := he
    refine ⟨f + 1, ?_⟩
    rw [show build_list (e :: es) nil = .pair e (build_list es nil) from rfl,
      evaluate_args_pair, hf]
  | next e es env x env1 xs env2 he _ ih =>
    intro acc
    obtain ⟨f, hf⟩ := he
    obtain ⟨g, hg⟩ := ih (acc ++ [x])
    refine ⟨max f g + 1, ?_⟩
    rw [show build_list (e :: es) nil = .pair e (build_list es nil) from rfl,
      evaluate_args_pair, evaluate_mono tbl f _ (le_max_left _ _) _ _ _ hf]
    simp only
    rw [evaluate_args_mono tbl g _ (le_max_right _ _) _ _ _ _ hg]
    simp
  | later e es env x env1 err env2 he _ ih =>
    intro acc
    obtain ⟨f, hf⟩ := he
    obtain ⟨g, hg⟩ := ih (acc ++ [x])
    refine ⟨max f g + 1, ?_⟩
    rw [show build_list (e :: es) nil = .pair e (build_list es nil) from rfl,
      evaluate_args_pair, evaluate_mono tbl f _ (le_max_left _ _) _ _ _ hf]
    simp only
    rw [evaluate_args_mono tbl g _ (le_max_right _ _) _ _ _ _ hg]

theorem evaluates_application (tbl : SymTab) (env env1 : Env) (head : Value)
    (es : List Value) (p : Prim) (hif : head ≠ sym_if) (hdef : head ≠ sym_define)
    (hhead : evaluates tbl head env (.ok (.fn p), env1))
    (r : Except Err (List Value) × Env) (h : evaluates_operands tbl es env1 r) :
    evaluates tbl (.pair head (build_list es nil)) env
      (match r.1 with
        | .ok xs => call_fn p (build_list xs nil)
        | .error err => .error err, r.2) := by
  obtain ⟨f, hf⟩ := hhead
  obtain ⟨g, hg⟩ := evaluate_args_of_operands tbl es env1 r h []
  refine ⟨max f g + 1, ?_⟩
  rw [evaluate]
  simp only [if_neg hif, if_neg hdef, evaluate_mono tbl f _ (le_max_left _ _) _ _ _ hf]
  have hl : list_length (build_list es nil) ≠ -1 := by
    rw [list_length_build_list]; omega
  simp only [if_neg hl, evaluate_args_mono tbl g _ (le_max_right _ _) _ _ _ _ hg]
  rcases r with ⟨xs | err, env2⟩ <;> simp

theorem evaluates_operands_length (tbl : SymTab) (es : List Value) (env : Env)
    (xs : List Value) (env2 : Env) (h : evaluates_operands tbl es env (.ok xs, env2)) :
    xs.length = es.length := by
  generalize hr : (Except.ok xs, env2) = r at h
  induction h generalizing xs env2 with
  | done env => simp only [Prod.mk.injEq, Except.ok.injEq] at hr; rw [hr.1]
  | fail e es env err env1 he => simp at hr
  | next e es env x env1 ys env3 he _ ih =>
    simp only [Prod.mk.injEq, Except.ok.injEq] at hr
    rw [hr.1, List.length_cons, List.length_cons, ih ys env3 rfl]
  | later e es env x env1 err env3 he _ ih => simp at hr

theorem evaluates_operands_first_failure (tbl : SymTab) (before : List Value) (e : Value)
    (after : List Value) (env : Env) (xs : List Value) (env1 : Env) (err : Err) (env2 : Env)
    (hb : evaluates_operands tbl before env (.ok xs, env1))
    (he : evaluates tbl e env1 (.error err, env2)) :
    evaluates_operands tbl (before ++ e :: after) env (.error err, env2) := by
  generalize hr : (Except.ok xs, env1) = r at hb
  induction hb generalizing xs env1 with
  | done env =>
    simp only [Prod.mk.injEq, Except.ok.injEq] at hr
    rw [hr.2] at he
    exact evaluates_operands.fail _ _ _ _ _ he
  | fail e' es env err' env3 he' => simp at hr
  | next e' es env x env3 ys env4 he' _ ih =>
    simp only [Prod.mk.injEq, Except.ok.injEq] at hr
    rw [hr.2] at he
    exact evaluates_operands.later _ _ _ _ _ _ _ he' (ih ys env4 he rfl)
  | later e' es env x env3 err' env4 he' _ ih => simp at hr

theorem evaluates_operands_total (tbl : SymTab) (es : List Value) (env : Env) :
    ∃ r, evaluates_operands tbl es env r := by
  induction es generalizing env with
  | nil => exact ⟨_, evaluates_operands.done env⟩
  | cons e es ih =>
    obtain ⟨⟨r | x, env1⟩, hr⟩ := evaluates_total tbl e env
    · exact ⟨_, evaluates_operands.fail e es env r env1 hr⟩
    · obtain ⟨⟨r' | xs, env2⟩, hr'⟩ := ih env1
      · exact ⟨_, evaluates_operands.later e es env x env1 r' env2 hr hr'⟩
      · exact ⟨_, evaluates_operands.next e es env x env1 xs env2 hr hr'⟩

/-! ## Claim on the order of operand evaluation -/

/-- C18. Operand evaluation order in an application: for a form
`(f e1 ... en)` whose head is neither `if` nor `define` and evaluates to a
Function, leaving the environment `env1`, the operands are evaluated from `e1`
on, each in the environment the one before it left.  When all succeed with
values `v1 .. vn` the outcome of the form is the result of the Function on
the proper list `(v1 ... vn)`, in the environment the last operand left.  When
`ei` is the first operand that fails, the outcome of the form is the exception
of `ei` in the environment `ei` left, whatever the operands after it are.  One
of the two always applies, and the outcome of the form is unique. -/
theorem application_operands_in_order (symbol_table : SymTab) (env env1 : Env)
    (head : Value) (es : List Value) (p : Prim) (hif : head ≠ sym_if)
    (hdef : head ≠ sym_define)
    (hhead : evaluates symbol_table head env (.ok (.fn p), env1)) :
    (∃ r, evaluates_operands symbol_table es env1 r) ∧
    (∀ xs env2, evaluates_operands symbol_table es env1 (.ok xs, env2) →
      xs.length = es.length ∧
      evaluates symbol_table (.pair head (build_list es nil)) env
        (call_fn p (build_list xs nil), env2)) ∧
    (∀ err env2, evaluates_operands symbol_table es env1 (.error err, env2) →
      evaluates symbol_table (.pair head (build_list es nil)) env (.error err, env2)) ∧
    (∀ before e after xs envi err envj, es = before ++ e :: after →
      evaluates_operands symbol_table before env1 (.ok xs, envi) →
      evaluates symbol_table e envi (.error err, envj) →
      evaluates symbol_table (.pair head (build_list es nil)) env (.error err, envj)) ∧
    (∀ r r', evaluates symbol_table (.pair head (build_list es nil)) env r →
      evaluates symbol_table (.pair head (build_list es nil)) env r' → r = r') := by
  refine ⟨evaluates_operands_total _ es env1, ?_, ?_, ?_, ?_⟩
  · intro xs env2 h
    exact ⟨evaluates_operands_length _ es env1 xs env2 h,
      evaluates_application _ env env1 head es p hif hdef hhead _ h⟩
  · intro err env2 h
    exact evaluates_application _ env env1 head es p hif hdef hhead _ h
  · intro before e after xs envi err envj hes hb he
    have h := evaluates_operands_first_failure _ before e after env1 xs envi err envj hb he
    rw [← hes] at h
    exact evaluates_application _ env env1 head es p hif hdef hhead _ h
  · intro r r' h h'
    exact evaluates_unique _ _ _ r r' h h'

/-- Witness of C18: `(- 7 2)` calls `minus` on the list `(7 2)`; in
`(+ (define x 1) y (define z 2))` the first operand binds `x`, the second
fails, and the third never binds `z`. -/
theorem application_operands_in_order_witness :
    evaluates initial_table
      (.pair (.symbol 4) (build_list [.number 7, .number 2] nil)) initial_env
      (.ok (.number 5), initial_env) ∧
    read_eval 6 "(+ (define x 1) y (define z 2))".toList initial_env initial_table
      = some (.error (.runtime_error "undefined variable y".toList),
          initial_env ++ [(.symbol 8, .number 1)],
          initial_table ++ ["x".toList, "y".toList, "z".toList]) :=
  ⟨((application_operands_in_order initial_table initial_env initial_env (.symbol 4)
      [.number 7, .number 2] .minus (by decide) (by decide) ⟨1, by decide⟩).2.1
      [.number 7, .number 2] initial_env
      (evaluates_operands.next (.number 7) [.number 2] initial_env (.number 7) initial_env
        [.number 2] initial_env ⟨1, by decide⟩
        (evaluates_operands.next (.number 2) [] initial_env (.number 2) initial_env [] initial_env
          ⟨1, by decide⟩ (evaluates_operands.done initial_env)))).2,
    by decide⟩

/-! ## Guarded pair accesses -/

theorem nth_ok (k : Nat) (args : Value) (h : k < chain_length args) :
    ∃ x, nth args k = .ok x := by
  induction k generalizing args with
  | zero =>
    cases args with
    | pair a d => exact ⟨a, rfl⟩
    | _ => simp [chain_length] at h
  | succ k ih =>
    cases args with
    | pair a d =>
      simp only [chain_length, Nat.add_lt_add_iff_right] at h
      obtain ⟨x, hx⟩ := ih d h
      exact ⟨x, by simp [nth, cdr, hx]⟩
    | _ => simp [chain_length] at h

theorem check_args_ok_length (args : Value) (n : Nat) (u : Unit)
    (h : check_args args n = .ok u) : last_cdr args = nil ∧ chain_length args = n := by
  unfold check_args at h
  split at h
  · simp at h
  · rename_i hl
    simp only [ne_eq, Decidable.not_not] at hl
    rw [list_length_eq] at hl
    split at hl
    · rename_i hlast
      exact ⟨hlast, by exact_mod_cast hl⟩
    · omega

theorem check_args_error_kind (args : Value) (n : Int) (e : Err)
    (h : check_args args n = .error e) : e ≠ .not_a_pair := by
  unfold check_args at h
  split at h
  · simp only [Except.error.injEq] at h
    rw [← h]; simp
  · simp at h

theorem get_symbol_name_error_kind (tbl : SymTab) (v : Value) (e : Err)
    (h : get_symbol_name tbl v = .error e) : e ≠ .not_a_pair := by
  unfold get_symbol_name at h
  split at h
  · split at h
    · simp at h
    · simp only [Except.error.injEq] at h
      rw [← h]; simp
  · simp only [Except.error.injEq] at h
    rw [← h]; simp

theorem plus_loop_guarded (args : Value) (v : Int) (h : last_cdr args = nil) :
    plus_loop v args ≠ .error .not_a_pair := by
  induction args generalizing v with
  | pair a d _ ihd =>
    rw [plus_loop_pair]
    split
    · simp
    · exact ihd _ h
  | number n => simp [last_cdr, nil_eq] at h
  | symbol i => simp only [last_cdr] at h; rw [h, plus_loop_nil]; simp
  | fn f => simp [last_cdr, nil_eq] at h

theorem mul_loop_guarded (args : Value) (v : Int) (h : last_cdr args = nil) :
    mul_loop v args ≠ .error .not_a_pair := by
  induction args generalizing v with
  | pair a d _ ihd =>
    rw [mul_loop_pair]
    split
    · simp
    · exact ihd _ h
  | number n => simp [last_cdr, nil_eq] at h
  | symbol i => simp only [last_cdr] at h; rw [h, mul_loop_nil]; simp
  | fn f => simp [last_cdr, nil_eq] at h

theorem minus_loop_guarded (args : Value) (v : Int) (init : Bool) (h : last_cdr args = nil) :
    minus_loop v init args ≠ .error .not_a_pair := by
  induction args generalizing v init with
  | pair a d _ ihd =>
    rw [minus_loop_pair]
    split
    · simp
    · split
      · exact ihd _ _ h
      · exact ihd _ _ h
  | number n => simp [last_cdr, nil_eq] at h
  | symbol i => simp only [last_cdr] at h; rw [h, minus_loop_nil]; simp
  | fn f => simp [last_cdr, nil_eq] at h

theorem div_loop_guarded (args : Value) (v : Int) (init : Bool) (h : last_cdr args = nil) :
    div_loop v init args ≠ .error .not_a_pair := by
  induction args generalizing v init with
  | pair a d _ ihd =>
    rw [div_loop_pair]
    split
    · simp
    · split
      · exact ihd _ _ h
      · split
        · simp
        · split
          · simp
          · exact ihd _ _ h
  | number n => simp [last_cdr, nil_eq] at h
  | symbol i => simp only [last_cdr] at h; rw [h, div_loop_nil]; simp
  | fn f => simp [last_cdr, nil_eq] at h

theorem last_cdr_build_list (xs : List Value) : last_cdr (build_list xs nil) = nil := by
  induction xs with
  | nil => rfl
  | cons x xs ih => exact ih

theorem call_fn_guarded (p : Prim) (args : Value) (h : last_cdr args = nil) :
    call_fn p args ≠ .error .not_a_pair := by
  cases p
  · exact plus_loop_guarded args 0 h
  · exact minus_loop_guarded args 0 false h
  · exact mul_loop_guarded args 1 h
  · exact div_loop_guarded args 0 false h

/-- Neither `evaluate` nor its operand loop ever reads a field of a value
that is not a pair. -/
theorem evaluate_guarded (tbl : SymTab) (fuel : Nat) :
    (∀ v env r env', evaluate tbl fuel v env = some (r, env') → r ≠ .error .not_a_pair) ∧
    (∀ cur env acc r env', last_cdr cur = nil →
      evaluate_args tbl fuel cur env acc = some (r, env') → r ≠ .error .not_a_pair) := by
  induction fuel with
  | zero =>
    constructor
    · intro v env r env' h; simp [evaluate] at h
    · intro cur env acc r env' _ h; simp [evaluate_args] at h
  | succ fuel ih =>
    obtain ⟨ihE, ihA⟩ := ih
    have leaf : ∀ (x : Except Err Value) (e1 e2 : Env) (r : Except Err Value),
        x ≠ .error .not_a_pair → some (x, e1) = some (r, e2) → r ≠ .error .not_a_pair := by
      intro x e1 e2 r hx h
      simp only [Option.some.injEq, Prod.mk.injEq] at h
      rw [← h.1]; exact hx
    constructor
    · intro v env r env' h
      cases v with
      | number n => rw [evaluate] at h; exact leaf _ _ _ _ (by simp) h
      | fn f => rw [evaluate] at h; exact leaf _ _ _ _ (by simp) h
      | symbol i =>
        rw [evaluate] at h
        split at h
        · split at h
          · rename_i e hn
            have := get_symbol_name_error_kind _ _ _ hn
            exact leaf _ _ _ _ (by simpa using this) h
          · exact leaf _ _ _ _ (by simp) h
        · exact leaf _ _ _ _ (by simp) h
      | pair head args =>
        rw [evaluate] at h
        split at h
        · split at h
          · rename_i e hc
            have := check_args_error_kind _ _ _ hc
            exact leaf _ _ _ _ (by simpa using this) h
          · rename_i u hc
            obtain ⟨hlast, hlen⟩ := check_args_ok_length args 3 u hc
            split at h
            · rename_i e hn
              obtain ⟨x, hx⟩ := nth_ok 0 args (by omega)
              rw [hx] at hn; simp at hn
            · split at h
              · simp at h
              · rename_i hev
                have := ihE _ _ _ _ hev
                exact leaf _ _ _ _ this h
              · split at h
                · rename_i e hn
                  split at hn
                  · obtain ⟨x, hx⟩ := nth_ok 2 args (by omega)
                    rw [hx] at hn; simp at hn
                  · obtain ⟨x, hx⟩ := nth_ok 1 args (by omega)
                    rw [hx] at hn; simp at hn
                · exact ihE _ _ _ _ h
        · split at h
          · split at h
            · rename_i e hc
              have := check_args_error_kind _ _ _ hc
              exact leaf _ _ _ _ (by simpa using this) h
            · rename_i u hc
              obtain ⟨hlast, hlen⟩ := check_args_ok_length args 2 u hc
              split at h
              · rename_i e hn
                obtain ⟨x, hx⟩ := nth_ok 0 args (by omega)
                rw [hx] at hn; simp at hn
              · split at h
                · exact leaf _ _ _ _ (by simp) h
                · split at h
                  · rename_i e hn
                    obtain ⟨x, hx⟩ := nth_ok 1 args (by omega)
                    rw [hx] at hn; simp at hn
                  · split at h
                    · simp at h
                    · rename_i hev
                      have := ihE _ _ _ _ hev
                      exact leaf _ _ _ _ this h
                    · exact leaf _ _ _ _ (by simp) h
          · split at h
            · simp at h
            · rename_i hev
              have := ihE _ _ _ _ hev
              exact leaf _ _ _ _ this h
            · split at h
              · split at h
                · exact leaf _ _ _ _ (by simp) h
                · rename_i hl
                  have hlast : last_cdr args = nil := by
                    by_contra hne
                    exact hl ((list_length_improper args).mpr hne)
                  split at h
                  · simp at h
                  · rename_i hea
                    have := ihA _ _ _ _ _ hlast hea
                    exact leaf _ _ _ _ (by simpa using this) h
                  · exact leaf _ _ _ _ (call_fn_guarded _ _ (last_cdr_build_list _)) h
              · exact leaf _ _ _ _ (by simp) h
    · intro cur env acc r env' hlast h
      have leafA : ∀ (x : Except Err (List Value)) (e1 e2 : Env) (r : Except Err (List Value)),
          x ≠ .error .not_a_pair → some (x, e1) = some (r, e2) → r ≠ .error .not_a_pair := by
        intro x e1 e2 r hx h
        simp only [Option.some.injEq, Prod.mk.injEq] at h
        rw [← h.1]; exact hx
      rw [evaluate_args] at h
      split at h
      · exact leafA _ _ _ _ (by simp) h
      · rename_i hnil
        cases cur with
        | pair a d =>
          simp only [car, cdr] at h
          split at h
          · simp at h
          · rename_i hev
            have := ihE _ _ _ _ hev
            exact leafA _ _ _ _ (by simpa using this) h
          · exact ihA d _ _ _ _ hlast h
        | number n => simp [last_cdr, nil_eq] at hlast
        | symbol i => exact absurd hlast hnil
        | fn f => simp [last_cdr, nil_eq] at hlast

/-! ## Claim on guarded pair accesses -/

/-- C19. Pair accessors are always guarded: in the embedding, where `car` and
`cdr` (and through them `nth`, the operand loop and the loops of the
primitives) answer `not_a_pair` on a value that is not a pair, no call of
`evaluate`, on any value and from any environment, ends in `not_a_pair`; with
a budget above the size of the expression the call does return; and no
primitive called on a proper list, as `evaluate` calls it, ends in
`not_a_pair`.  The branch itself exists: `car` of nil and `plus` on a chain
that is not a list do end in it. -/
theorem pair_accessors_guarded (symbol_table : SymTab) (fuel : Nat) (v : Value) (env : Env) :
    (∀ r env1, evaluate symbol_table fuel v env = some (r, env1) → r ≠ .error .not_a_pair) ∧
    (sizeOf v < fuel →
      ∃ r env1, evaluate symbol_table fuel v env = some (r, env1) ∧ r ≠ .error .not_a_pair) ∧
    (∀ r, evaluates symbol_table v env r → r.1 ≠ .error .not_a_pair) ∧
    (∀ p xs, call_fn p (build_list xs nil) ≠ .error .not_a_pair) ∧
    (car nil = .error .not_a_pair ∧ nth (.pair nil nil) 1 = .error .not_a_pair ∧
      plus (.pair (.number 1) (.number 2)) = .error .not_a_pair) := by
  refine ⟨fun r env1 h => (evaluate_guarded symbol_table fuel).1 v env r env1 h, ?_, ?_, ?_, ?_⟩
  · intro hsz
    rcases h : evaluate symbol_table fuel v env with _ | ⟨r, env1⟩
    · exact absurd h ((evaluate_total symbol_table fuel).1 v env hsz)
    · exact ⟨r, env1, rfl, (evaluate_guarded symbol_table fuel).1 v env r env1 h⟩
  · rintro ⟨r, env1⟩ ⟨f, hf⟩
    exact (evaluate_guarded symbol_table f).1 v env r env1 hf
  · intro p xs
    exact call_fn_guarded p _ (last_cdr_build_list xs)
  · exact ⟨by decide, by decide, by decide⟩

/-- Witness of C19: on the improper forms `(+ 1 . 2)` and `(if 1 . 2)` the
evaluator raises its own exceptions, not `not_a_pair`. -/
theorem pair_accessors_guarded_witness :
    (∃ r env1, evaluate initial_table 20 (.pair (.symbol 3) (.pair (.number 1) (.number 2)))
        initial_env = some (r, env1) ∧ r ≠ .error .not_a_pair) ∧
    evaluate initial_table 20 (.pair (.symbol 3) (.pair (.number 1) (.number 2))) initial_env
      = some (.error (.runtime_error "fn call with improper list".toList), initial_env) ∧
    evaluate initial_table 20 (.pair sym_if (.pair (.number 1) (.number 2))) initial_env
      = some (.error (.runtime_error "args length incorrect".toList), initial_env) :=
  ⟨(pair_accessors_guarded initial_table 20 (.pair (.symbol 3) (.pair (.number 1) (.number 2)))
      initial_env).2.1 (by decide), by decide, by decide⟩

/-! ## Results and bindings are never pairs -/

theorem no_pairs_find (env : Env) (k x : Value) (h : no_pairs env)
    (hf : env_find env k = some x) : is_pair x = false := by
  induction env with
  | nil => simp [env_find] at hf
  | cons b rest ih =>
    obtain ⟨k', y⟩ := b
    simp only [env_find] at hf
    split at hf
    · simp only [Option.some.injEq] at hf
      rw [← hf]
      exact h (k', y) (List.mem_cons_self _ _)
    · exact ih (fun b hb => h b (List.mem_cons_of_mem _ hb)) hf

theorem no_pairs_set (env : Env) (k x : Value) (h : no_pairs env) (hx : is_pair x = false) :
    no_pairs (env_set env k x) := by
  induction env with
  | nil =>
    intro b hb
    simp only [env_set, List.mem_singleton] at hb
    rw [hb]; exact hx
  | cons b rest ih =>
    obtain ⟨k', y⟩ := b
    have hrest : no_pairs rest := fun b hb => h b (List.mem_cons_of_mem _ hb)
    simp only [env_set]
    split
    · intro b hb
      rcases List.mem_cons.mp hb with rfl | hb
      · exact hx
      · exact hrest b hb
    · intro b hb
      rcases List.mem_cons.mp hb with rfl | hb
      · exact h (k', y) (List.mem_cons_self _ _)
      · exact ih hrest b hb

theorem plus_loop_number (args : Value) (v : Int) (x : Value) (h : plus_loop v args = .ok x) :
    is_number x = true := by
  induction args generalizing v with
  | pair a d _ ihd =>
    rw [plus_loop_pair] at h
    split at h
    · simp at h
    · exact ihd _ h
  | number n => unfold plus_loop at h; simp [nil_eq] at h
  | symbol i =>
    unfold plus_loop at h
    split at h
    · simp only [Except.ok.injEq] at h; rw [← h]; rfl
    · simp at h
  | fn f => unfold plus_loop at h; simp [nil_eq] at h

theorem mul_loop_number (args : Value) (v : Int) (x : Value) (h : mul_loop v args = .ok x) :
    is_number x = true := by
  induction args generalizing v with
  | pair a d _ ihd =>
    rw [mul_loop_pair] at h
    split at h
    · simp at h
    · exact ihd _ h
  | number n => unfold mul_loop at h; simp [nil_eq] at h
  | symbol i =>
    unfold mul_loop at h
    split at h
    · simp only [Except.ok.injEq] at h; rw [← h]; rfl
    · simp at h
  | fn f => unfold mul_loop at h; simp [nil_eq] at h

theorem minus_loop_number (args : Value) (v : Int) (init : Bool) (x : Value)
    (h : minus_loop v init args = .ok x) : is_number x = true := by
  induction args generalizing v init with
  | pair a d _ ihd =>
    rw [minus_loop_pair] at h
    split at h
    · simp at h
    · split at h
      · exact ihd _ _ h
      · exact ihd _ _ h
  | number n => unfold minus_loop at h; simp [nil_eq] at h
  | symbol i =>
    unfold minus_loop at h
    split at h
    · simp only [Except.ok.injEq] at h; rw [← h]; rfl
    · simp at h
  | fn f => unfold minus_loop at h; simp [nil_eq] at h

theorem div_loop_number (args : Value) (v : Int) (init : Bool) (x : Value)
    (h : div_loop v init args = .ok x) : is_number x = true := by
  induction args generalizing v init with
  | pair a d _ ihd =>
    rw [div_loop_pair] at h
    split at h
    · simp at h
    · split at h
      · exact ihd _ _ h
      · split at h
        · simp at h
        · split at h
          · simp at h
          · exact ihd _ _ h
  | number n => unfold div_loop at h; simp [nil_eq] at h
  | symbol i =>
    unfold div_loop at h
    split at h
    · simp only [Except.ok.injEq] at h; rw [← h]; rfl
    · simp at h
  | fn f => unfold div_loop at h; simp [nil_eq] at h

theorem call_fn_number (p : Prim) (args x : Value) (h : call_fn p args = .ok x) :
    is_number x = true := by
  cases p
  · exact plus_loop_number args 0 x h
  · exact minus_loop_number args 0 false x h
  · exact mul_loop_number args 1 x h
  · exact div_loop_number args 0 false x h

theorem not_pair_of_number (x : Value) (h : is_number x = true) : is_pair x = false := by
  cases x <;> simp_all [is_number, is_pair]

/-- Every call of `evaluate` and of its operand loop keeps the environment
free of pairs, and a value `evaluate` returns is not a pair. -/
theorem evaluate_no_pairs (tbl : SymTab) (fuel : Nat) :
    (∀ v env r env', no_pairs env → evaluate tbl fuel v env = some (r, env') →
      no_pairs env' ∧ ∀ x, r = .ok x → is_pair x = false) ∧
    (∀ cur env acc r env', no_pairs env → evaluate_args tbl fuel cur env acc = some (r, env') →
      no_pairs env') := by
  induction fuel with
  | zero =>
    constructor
    · intro v env r env' _ h; simp [evaluate] at h
    · intro cur env acc r env' _ h; simp [evaluate_args] at h
  | succ fuel ih =>
    obtain ⟨ihE, ihA⟩ := ih
    have leaf : ∀ (y : Except Err Value) (e1 e2 : Env) (r : Except Err Value),
        no_pairs e1 → (∀ x, y = .ok x → is_pair x = false) → some (y, e1) = some (r, e2) →
        no_pairs e2 ∧ ∀ x, r = .ok x → is_pair x = false := by
      intro y e1 e2 r h1 hy h
      simp only [Option.some.injEq, Prod.mk.injEq] at h
      rw [← h.1, ← h.2]; exact ⟨h1, hy⟩
    have nok : ∀ (e : Err) (x : Value), (Except.error e : Except Err Value) = .ok x →
        is_pair x = false := by
      intro e x h; simp at h
    constructor
    · intro v env r env' henv h
      cases v with
      | number n =>
        rw [evaluate] at h
        exact leaf _ _ _ _ henv (fun x hx => by
          simp only [Except.ok.injEq] at hx; rw [← hx]; rfl) h
      | fn f =>
        rw [evaluate] at h
        exact leaf _ _ _ _ henv (fun x hx => by
          simp only [Except.ok.injEq] at hx; rw [← hx]; rfl) h
      | symbol i =>
        rw [evaluate] at h
        split at h
        · split at h
          · exact leaf _ _ _ _ henv (nok _) h
          · exact leaf _ _ _ _ henv (nok _) h
        · rename_i y hfind
          exact leaf _ _ _ _ henv (fun x hx => by
            simp only [Except.ok.injEq] at hx; rw [← hx]
            exact no_pairs_find env _ y henv hfind) h
      | pair head args =>
        rw [evaluate] at h
        split at h
        · split at h
          · exact leaf _ _ _ _ henv (nok _) h
          · split at h
            · exact leaf _ _ _ _ henv (nok _) h
            · split at h
              · simp at h
              · rename_i hev
                exact leaf _ _ _ _ (ihE _ _ _ _ henv hev).1 (nok _) h
              · rename_i hev
                have h1 := (ihE _ _ _ _ henv hev).1
                split at h
                · exact leaf _ _ _ _ h1 (nok _) h
                · exact ihE _ _ _ _ h1 h
        · split at h
          · split at h
            · exact leaf _ _ _ _ henv (nok _) h
            · split at h
              · exact leaf _ _ _ _ henv (nok _) h
              · split at h
                · exact leaf _ _ _ _ henv (nok _) h
                · split at h
                  · exact leaf _ _ _ _ henv (nok _) h
                  · split at h
                    · simp at h
                    · rename_i hev
                      exact leaf _ _ _ _ (ihE _ _ _ _ henv hev).1 (nok _) h
                    · rename_i hev
                      have h1 := ihE _ _ _ _ henv hev
                      exact leaf _ _ _ _ (no_pairs_set _ _ _ h1.1 (h1.2 _ rfl))
                        (fun x hx => by
                          simp only [Except.ok.injEq] at hx; rw [← hx]; rfl) h
          · split at h
            · simp at h
            · rename_i hev
              exact leaf _ _ _ _ (ihE _ _ _ _ henv hev).1 (nok _) h
            · rename_i hev
              have h1 := (ihE _ _ _ _ henv hev).1
              split at h
              · split at h
                · exact leaf _ _ _ _ h1 (nok _) h
                · split at h
                  · simp at h
                  · rename_i hea
                    exact leaf _ _ _ _ (ihA _ _ _ _ _ h1 hea) (nok _) h
                  · rename_i hea
                    exact leaf _ _ _ _ (ihA _ _ _ _ _ h1 hea)
                      (fun x hx => not_pair_of_number x (call_fn_number _ _ x hx)) h
              · exact leaf _ _ _ _ h1 (nok _) h
    · intro cur env acc r env' henv h
      rw [evaluate_args] at h
      split at h
      · simp only [Option.some.injEq, Prod.mk.injEq] at h
        rw [← h.2]; exact henv
      · split at h
        · simp only [Option.some.injEq, Prod.mk.injEq] at h
          rw [← h.2]; exact henv
        · split at h
          · simp at h
          · rename_i hev
            simp only [Option.some.injEq, Prod.mk.injEq] at h
            rw [← h.2]; exact (ihE _ _ _ _ henv hev).1
          · rename_i hev
            have h1 := (ihE _ _ _ _ henv hev).1
            split at h
            · simp only [Option.some.injEq, Prod.mk.injEq] at h
              rw [← h.2]; exact h1
            · exact ihA _ _ _ _ _ h1 h

theorem not_pair_kinds (x : Value) (h : is_pair x = false) :
    is_number x = true ∨ is_symbol x = true ∨ is_fn x = true := by
  cases x <;> simp_all [is_number, is_pair, is_symbol, is_fn]

theorem no_pairs_initial_env : no_pairs initial_env := by
  unfold no_pairs
  decide

theorem no_pairs_of_reachable (env : Env) (h : reachable_env env) : no_pairs env := by
  induction h with
  | init => exact no_pairs_initial_env
  | step tbl fuel v env r env1 _ he ih => exact ((evaluate_no_pairs tbl fuel).1 v env r env1 ih he).1

/-! ## Claim on results and bindings -/

/-- C20. Results are never pairs: in every environment the program can be
in (the one `init_env` builds, where `+`, `-`, `*`, `/` are bound to the four
Functions, nil to nil and `t` to `t`, or the one left by any sequence of calls
of `evaluate`, returning or raising, on any expressions), every bound value is
an Integer, a Symbol or a Function; and every value a call of `evaluate`
returns from such an environment is an Integer, a Symbol or a Function, never
a pair, the environment it leaves being again such an environment. -/
theorem results_never_pairs (env : Env) (h : reachable_env env) :
    no_pairs env ∧
    (∀ b ∈ env, is_number b.2 = true ∨ is_symbol b.2 = true ∨ is_fn b.2 = true) ∧
    (∀ symbol_table fuel v x env1, evaluate symbol_table fuel v env = some (.ok x, env1) →
      is_pair x = false ∧ (is_number x = true ∨ is_symbol x = true ∨ is_fn x = true) ∧
      reachable_env env1) ∧
    (∀ symbol_table fuel v err env1, evaluate symbol_table fuel v env = some (.error err, env1) →
      reachable_env env1 ∧ no_pairs env1) := by
  have hnp := no_pairs_of_reachable env h
  refine ⟨hnp, fun b hb => not_pair_kinds _ (hnp b hb), ?_, ?_⟩
  · intro tbl fuel v x env1 he
    have hx := ((evaluate_no_pairs tbl fuel).1 v env _ env1 hnp he).2 x rfl
    exact ⟨hx, not_pair_kinds x hx, reachable_env.step tbl fuel v env _ env1 h he⟩
  · intro tbl fuel v err env1 he
    exact ⟨reachable_env.step tbl fuel v env _ env1 h he,
      ((evaluate_no_pairs tbl fuel).1 v env _ env1 hnp he).1⟩

/-- Witness of C20: the environment of `init_env`, and the one `(define x 5)`
leaves, which binds `x` to an Integer. -/
theorem results_never_pairs_witness :
    (env_find initial_env (.symbol 3) = some (.fn .plus) ∧
      env_find initial_env (.symbol 4) = some (.fn .minus) ∧
      env_find initial_env (.symbol 5) = some (.fn .mul) ∧
      env_find initial_env (.symbol 6) = some (.fn .div) ∧
      env_find initial_env nil = some nil ∧
      env_find initial_env (.symbol 7) = some (.symbol 7) ∧
      initial_table = ["nil".toList, "if".toList, "define".toList, "+".toList, "-".toList,
        "*".toList, "/".toList, "t".toList]) ∧
    no_pairs initial_env ∧
    no_pairs (initial_env ++ [(.symbol 8, .number 5)]) ∧
    read_eval 3 "(define x 5) (if x x nil)".toList initial_env initial_table
      = some (.ok (.number 5), initial_env ++ [(.symbol 8, .number 5)],
          initial_table ++ ["x".toList]) :=
  ⟨by decide, (results_never_pairs initial_env reachable_env.init).1,
    (results_never_pairs (initial_env ++ [(.symbol 8, .number 5)])
      (reachable_env.step (initial_table ++ ["x".toList]) 2
        (.pair sym_define (build_list [.symbol 8, .number 5] nil)) initial_env (.ok nil)
        (initial_env ++ [(.symbol 8, .number 5)]) reachable_env.init (by decide))).1,
    by decide⟩

end Lispc
